import Mathlib

/-!
ArduinoSerialRubberDucky: the script interpreter of `src/main.cpp`.

A shallow embedding of the line assembler (`serial_line_received`), the word
counter (`cstr_count_words`), the numeric parser (`safe_atoi_u32`), the key
name resolver (`ducky_key_to_hid_byte`), the command interpreter
(`ducky_script_interpreter`) and one iteration of `loop`.

Conventions of the embedding.

* A `char*` is the list of the bytes it points to.  Reading at or past the end
  of the list gives NUL (`byteAt`), so a list without a NUL byte is a C string
  whose terminator sits right after its last element.
* The C library functions the source calls (`strlen`, `strncmp`, `strcmp`,
  `strstr`, `snprintf` with the format `%s`) are modelled after the C standard;
  they stop at the first NUL.
* The width of `size_t` is not fixed by the source; it is the parameter
  `size_bits`.  `uint8_t` and `uint16_t` counters wrap with an explicit `%`.
* The keyboard and `delay` are external: the interpreter's effect on them is
  the list of `Event`s it emits, in order.  The diagnostic `Serial.print`
  calls do not influence control flow and are left out.
* Code that may not return (the `REPEAT` recursion and its `uint8_t` loop)
  takes a fuel argument and yields `none` when the fuel runs out.
-/

namespace Ducky

/-! ## Bytes and the C library -/

/-- The terminator byte of a C string. -/
def NUL : Char := Char.ofNat 0

/-- Byte `i` of the memory a `char*` points to (`p[i]`). -/
def byteAt (p : List Char) (i : Nat) : Char := p.getD i NUL

/-- C `strlen`: the number of bytes before the first NUL. -/
def strlen : List Char → Nat
  | [] => 0
  | c :: s => if c = NUL then 0 else strlen s + 1

/-- C `strncmp`: compares at most `n` bytes, stopping at a NUL; the result is
the difference of the first pair of bytes that differ, `0` when there is none. -/
def strncmp : List Char → List Char → Nat → Int
  | _, _, 0 => 0
  | s1, s2, n + 1 =>
    if byteAt s1 0 ≠ byteAt s2 0 then ((byteAt s1 0).toNat : Int) - ((byteAt s2 0).toNat : Int)
    else if byteAt s1 0 = NUL then 0
    else strncmp (s1.drop 1) (s2.drop 1) n

/-- C `strcmp`: as `strncmp` without the bound. -/
def strcmp : List Char → List Char → Int
  | [], s2 => if NUL ≠ byteAt s2 0 then ((NUL).toNat : Int) - ((byteAt s2 0).toNat : Int) else 0
  | c :: s1, s2 =>
    if c ≠ byteAt s2 0 then (c.toNat : Int) - ((byteAt s2 0).toNat : Int)
    else if c = NUL then 0
    else strcmp s1 (s2.drop 1)

/-- The offset `strstr(s, " ") - s` of the first space of the C string `s`,
`none` when `strstr` returns `NULL`.  The source only ever searches for the
one-byte needle `" "`. -/
def strstr_space : List Char → Option Nat
  | [] => none
  | c :: s =>
    if c = NUL then none
    else if c = ' ' then some 0
    else (strstr_space s).map (· + 1)

/-- The string `snprintf(dst, size, "%s", src)` leaves in `dst`, for a `src`
that does not overlap `dst`: the bytes of the C string `src`, cut to
`size - 1` bytes.  With `size = 0` nothing is written and `dst` keeps its old
content `old`. -/
def snprintf_s (old : List Char) (size : Nat) (src : List Char) : List Char :=
  if size = 0 then old else (src.take (strlen src)).take (size - 1)

/-! ## Return codes (`enum _return_codes`) -/

def RC_OK : Int := 0
def RC_BAD : Int := -1
def RC_INVALID_INPUT : Int := -2
def RC_CUSTOM_DELAY : Int := 100

/-! ## Key codes (`hidkeys.h`) -/

def KEY_UNDEFINED_ERROR : Nat := 0x03
def MOD_CONTROL_LEFT : Nat := 0xE0
def MOD_SHIFT_LEFT : Nat := 0xE1
def MOD_ALT_LEFT : Nat := 0xE2
def MOD_GUI_LEFT : Nat := 0xE3
def KEY_POWER : Nat := 0x66
def KEY_MENU : Nat := 0x76
def KEY_MEDIA_MUTE : Nat := 0x7F
def KEY_MEDIA_VOLUME_INC : Nat := 0x80
def KEY_MEDIA_VOLUME_DEC : Nat := 0x81
def KEY_MEDIA_PLAY_PAUSE : Nat := 0xCD
def KEY_MEDIA_STOP : Nat := 0xB7
def KEY_A : Nat := 4
def KEY_B : Nat := 5
def KEY_C : Nat := 6
def KEY_D : Nat := 7
def KEY_E : Nat := 8
def KEY_F : Nat := 9
def KEY_G : Nat := 10
def KEY_H : Nat := 11
def KEY_I : Nat := 12
def KEY_J : Nat := 13
def KEY_K : Nat := 14
def KEY_L : Nat := 15
def KEY_M : Nat := 16
def KEY_N : Nat := 17
def KEY_O : Nat := 18
def KEY_P : Nat := 19
def KEY_Q : Nat := 20
def KEY_R : Nat := 21
def KEY_S : Nat := 22
def KEY_T : Nat := 23
def KEY_U : Nat := 24
def KEY_V : Nat := 25
def KEY_W : Nat := 26
def KEY_X : Nat := 27
def KEY_Y : Nat := 28
def KEY_Z : Nat := 29
def KEY_1 : Nat := 30
def KEY_2 : Nat := 31
def KEY_3 : Nat := 32
def KEY_4 : Nat := 33
def KEY_5 : Nat := 34
def KEY_6 : Nat := 35
def KEY_7 : Nat := 36
def KEY_8 : Nat := 37
def KEY_9 : Nat := 38
def KEY_0 : Nat := 39
def KEY_ENTER : Nat := 40
def KEY_ESC : Nat := 41
def KEY_TAB : Nat := 43
def KEY_SPACE : Nat := 44
def KEY_CAPS_LOCK : Nat := 57
def KEY_F1 : Nat := 58
def KEY_F2 : Nat := 59
def KEY_F3 : Nat := 60
def KEY_F4 : Nat := 61
def KEY_F5 : Nat := 62
def KEY_F6 : Nat := 63
def KEY_F7 : Nat := 64
def KEY_F8 : Nat := 65
def KEY_F9 : Nat := 66
def KEY_PRINTSCREEN : Nat := 70
def KEY_SCROLL_LOCK : Nat := 71
def KEY_PAUSE : Nat := 72
def KEY_INSERT : Nat := 73
def KEY_HOME : Nat := 74
def KEY_PAGEUP : Nat := 75
def KEY_DELETE : Nat := 76
def KEY_END : Nat := 77
def KEY_PAGEDOWN : Nat := 78
def KEY_RIGHT : Nat := 79
def KEY_LEFT : Nat := 80
def KEY_DOWN : Nat := 81
def KEY_UP : Nat := 82
def KEY_NUM_LOCK : Nat := 83

/-! ## Auxiliary functions -/

/-- Loop of `cstr_count_words`: `for(size_t i = 1; i < str_in_len; i++)`.  The
first argument bounds the number of iterations; `cstr_count_words` passes
`str_in_len`, which the loop cannot exhaust since `i` starts at 1 and grows by
one.  The `uint32_t` counter `n` is at most `i`, so its wrap-around is out of
reach for a line held in memory and is not modelled. -/
def cstr_count_words_loop (str_in : List Char) (str_in_len : Nat) : Nat → Nat → Nat → Nat
  | 0, _, n => n
  | fuel + 1, i, n =>
    if i < str_in_len then
      if byteAt str_in i = NUL then n
      else if byteAt str_in i ≠ ' ' ∧ byteAt str_in i ≠ '\r' ∧ byteAt str_in i ≠ '\n' then
        cstr_count_words_loop str_in str_in_len fuel (i + 1) n
      else if byteAt str_in (i - 1) = ' ' ∨ byteAt str_in (i - 1) = '\r'
          ∨ byteAt str_in (i - 1) = '\n' then
        cstr_count_words_loop str_in str_in_len fuel (i + 1) n
      else if byteAt str_in (i + 1) = ' ' ∨ byteAt str_in (i + 1) = '\r'
          ∨ byteAt str_in (i + 1) = '\n' then
        cstr_count_words_loop str_in str_in_len fuel (i + 1) n
      else if byteAt str_in (i + 1) = NUL then
        cstr_count_words_loop str_in str_in_len fuel (i + 1) n
      else cstr_count_words_loop str_in str_in_len fuel (i + 1) (n + 1)
    else n

/-- Count the number of words inside a string (`cstr_count_words`). -/
def cstr_count_words (str_in : List Char) (str_in_len : Nat) : Nat :=
  if byteAt str_in 0 = NUL then 0
  else cstr_count_words_loop str_in str_in_len str_in_len 1 1

/-- First loop of `safe_atoi_u32`: is some byte of `in_str[i .. in_str_len)`
not a digit?  The argument `k` is the number of bytes left, `in_str_len - i`. -/
def has_non_digit (in_str : List Char) : Nat → Nat → Bool
  | 0, _ => false
  | k + 1, i =>
    if byteAt in_str i < '0' ∨ byteAt in_str i > '9' then true
    else has_non_digit in_str k (i + 1)

/-- Inner loop of `safe_atoi_u32`: `for(ii = ...; ii > 0; ii--) multiplicator =
multiplicator * 10` on a `size_t` of `size_bits` bits. -/
def multiplicator_loop (size_bits : Nat) : Nat → Nat → Nat
  | 0, multiplicator => multiplicator
  | ii + 1, multiplicator => multiplicator_loop size_bits ii ((multiplicator * 10) % 2 ^ size_bits)

/-- Outer conversion loop of `safe_atoi_u32`, from index `i` with `k =
in_str_len - i` bytes left; the `size_t` sum wraps at `2 ^ size_bits`. -/
def convert_loop (size_bits : Nat) (in_str : List Char) (in_str_len : Nat) :
    Nat → Nat → Nat → Nat
  | 0, _, converted_num => converted_num
  | k + 1, i, converted_num =>
    convert_loop size_bits in_str in_str_len k (i + 1)
      ((converted_num + multiplicator_loop size_bits (in_str_len - 1 - i) 1
          * ((byteAt in_str i).toNat - ('0').toNat)) % 2 ^ size_bits)

def UINT32_MAX : Nat := 4294967295

/-- Safe conversion of a string number into a `uint32_t` (`safe_atoi_u32`).
The result is the return code and the value written through `out_int`, `none`
when nothing is written. -/
def safe_atoi_u32 (size_bits : Nat) (in_str : List Char) (in_str_len : Nat)
    (check_null_terminated : Bool) : Int × Option Nat :=
  if in_str_len < 1 ∨ in_str_len > 10 then (RC_INVALID_INPUT, none)
  else if check_null_terminated = true ∧ byteAt in_str in_str_len ≠ NUL then
    (RC_INVALID_INPUT, none)
  else if has_non_digit in_str in_str_len 0 = true then (RC_BAD, none)
  else
    let converted_num := convert_loop size_bits in_str in_str_len in_str_len 0 0
    if converted_num > UINT32_MAX then (RC_BAD, none)
    else (RC_OK, some (converted_num % 2 ^ 32))

/-! ## Key name resolver -/

/-- Convert a Ducky Script key name into the corresponding USB-HID code byte
(`ducky_key_to_hid_byte`). -/
def ducky_key_to_hid_byte (key : List Char) : Nat :=
  if strcmp key "POWER".toList = 0 then KEY_POWER
  else if strcmp key "HOME".toList = 0 then KEY_HOME
  else if strcmp key "INSERT".toList = 0 then KEY_INSERT
  else if strcmp key "PAGEUP".toList = 0 then KEY_PAGEUP
  else if strcmp key "PAGEDOWN".toList = 0 then KEY_PAGEDOWN
  else if strcmp key "PRINTSCREEN".toList = 0 then KEY_PRINTSCREEN
  else if strcmp key "ENTER".toList = 0 then KEY_ENTER
  else if strcmp key "SPACE".toList = 0 then KEY_SPACE
  else if strcmp key "TAB".toList = 0 then KEY_TAB
  else if strcmp key "END".toList = 0 then KEY_END
  else if strcmp key "BREAK".toList = 0 then KEY_PAUSE
  else if strcmp key "LEFTARROW".toList = 0 ∨ strcmp key "LEFT".toList = 0 then KEY_LEFT
  else if strcmp key "RIGHTARROW".toList = 0 ∨ strcmp key "RIGHT".toList = 0 then KEY_RIGHT
  else if strcmp key "DOWNARROW".toList = 0 ∨ strcmp key "DOWN".toList = 0 then KEY_DOWN
  else if strcmp key "UPARROW".toList = 0 ∨ strcmp key "UP".toList = 0 then KEY_UP
  else if strcmp key "ESCAPE".toList = 0 ∨ strcmp key "ESC".toList = 0 then KEY_ESC
  else if strcmp key "DELETE".toList = 0 ∨ strcmp key "DEL".toList = 0 then KEY_DELETE
  else if strcmp key "MENU".toList = 0 ∨ strcmp key "APP".toList = 0 then KEY_MENU
  else if strcmp key "NUMLOCK".toList = 0 ∨ strcmp key "NUM_LOCK".toList = 0 then KEY_NUM_LOCK
  else if strcmp key "CAPSLOCK".toList = 0 ∨ strcmp key "CAPS_LOCK".toList = 0 then KEY_CAPS_LOCK
  else if strcmp key "SCROLLLOCK".toList = 0 ∨ strcmp key "SCROLL_LOCK".toList = 0 then KEY_SCROLL_LOCK
  else if strcmp key "MEDIA_PLAY_PAUSE".toList = 0 ∨ strcmp key "PLAY".toList = 0 ∨ strcmp key "PAUSE".toList = 0 then KEY_MEDIA_PLAY_PAUSE
  else if strcmp key "MEDIA_STOP".toList = 0 ∨ strcmp key "STOP".toList = 0 then KEY_MEDIA_STOP
  else if strcmp key "MEDIA_MUTE".toList = 0 ∨ strcmp key "MUTE".toList = 0 then KEY_MEDIA_MUTE
  else if strcmp key "MEDIA_VOLUME_INC".toList = 0 ∨ strcmp key "VOLUMEUP".toList = 0 then KEY_MEDIA_VOLUME_INC
  else if strcmp key "MEDIA_VOLUME_DEC".toList = 0 ∨ strcmp key "VOLUMEDOWN".toList = 0 then KEY_MEDIA_VOLUME_DEC
  else if strcmp key "a".toList = 0 ∨ strcmp key "A".toList = 0 then KEY_A
  else if strcmp key "b".toList = 0 ∨ strcmp key "B".toList = 0 then KEY_B
  else if strcmp key "c".toList = 0 ∨ strcmp key "C".toList = 0 then KEY_C
  else if strcmp key "d".toList = 0 ∨ strcmp key "D".toList = 0 then KEY_D
  else if strcmp key "e".toList = 0 ∨ strcmp key "E".toList = 0 then KEY_E
  else if strcmp key "f".toList = 0 ∨ strcmp key "F".toList = 0 then KEY_F
  else if strcmp key "g".toList = 0 ∨ strcmp key "G".toList = 0 then KEY_G
  else if strcmp key "h".toList = 0 ∨ strcmp key "H".toList = 0 then KEY_H
  else if strcmp key "i".toList = 0 ∨ strcmp key "I".toList = 0 then KEY_I
  else if strcmp key "j".toList = 0 ∨ strcmp key "J".toList = 0 then KEY_J
  else if strcmp key "k".toList = 0 ∨ strcmp key "K".toList = 0 then KEY_K
  else if strcmp key "l".toList = 0 ∨ strcmp key "L".toList = 0 then KEY_L
  else if strcmp key "m".toList = 0 ∨ strcmp key "M".toList = 0 then KEY_M
  else if strcmp key "n".toList = 0 ∨ strcmp key "N".toList = 0 then KEY_N
  else if strcmp key "o".toList = 0 ∨ strcmp key "O".toList = 0 then KEY_O
  else if strcmp key "p".toList = 0 ∨ strcmp key "P".toList = 0 then KEY_P
  else if strcmp key "q".toList = 0 ∨ strcmp key "Q".toList = 0 then KEY_Q
  else if strcmp key "r".toList = 0 ∨ strcmp key "R".toList = 0 then KEY_R
  else if strcmp key "s".toList = 0 ∨ strcmp key "S".toList = 0 then KEY_S
  else if strcmp key "t".toList = 0 ∨ strcmp key "T".toList = 0 then KEY_T
  else if strcmp key "u".toList = 0 ∨ strcmp key "U".toList = 0 then KEY_U
  else if strcmp key "v".toList = 0 ∨ strcmp key "V".toList = 0 then KEY_V
  else if strcmp key "w".toList = 0 ∨ strcmp key "W".toList = 0 then KEY_W
  else if strcmp key "x".toList = 0 ∨ strcmp key "X".toList = 0 then KEY_X
  else if strcmp key "y".toList = 0 ∨ strcmp key "Y".toList = 0 then KEY_Y
  else if strcmp key "z".toList = 0 ∨ strcmp key "Z".toList = 0 then KEY_Z
  else if strcmp key "0".toList = 0 then KEY_0
  else if strcmp key "1".toList = 0 then KEY_1
  else if strcmp key "2".toList = 0 then KEY_2
  else if strcmp key "3".toList = 0 then KEY_3
  else if strcmp key "4".toList = 0 then KEY_4
  else if strcmp key "5".toList = 0 then KEY_5
  else if strcmp key "6".toList = 0 then KEY_6
  else if strcmp key "7".toList = 0 then KEY_7
  else if strcmp key "8".toList = 0 then KEY_8
  else if strcmp key "9".toList = 0 then KEY_9
  else if strcmp key "F1".toList = 0 then KEY_F1
  else if strcmp key "F2".toList = 0 then KEY_F2
  else if strcmp key "F3".toList = 0 then KEY_F3
  else if strcmp key "F4".toList = 0 then KEY_F4
  else if strcmp key "F5".toList = 0 then KEY_F5
  else if strcmp key "F6".toList = 0 then KEY_F6
  else if strcmp key "F7".toList = 0 then KEY_F7
  else if strcmp key "F8".toList = 0 then KEY_F8
  else if strcmp key "F9".toList = 0 then KEY_F9
  else KEY_UNDEFINED_ERROR

/-! ## The command interpreter -/

/-- What the interpreter asks of the keyboard emitter and of `delay`. -/
inductive Event where
  /-- `Keyboard.press(k)` -/
  | press (k : Nat)
  /-- `Keyboard.releaseAll()` -/
  | releaseAll
  /-- `Keyboard.write(KeyboardKeycode(k))` -/
  | write (k : Nat)
  /-- `Keyboard.print(c)` of one character; printing a string is printing its
  characters in order -/
  | print (c : Char)
  /-- `delay(ms)` -/
  | delay (ms : Nat)
  deriving DecidableEq, Repr

/-- The two variables that outlive a call: the global `default_delay` and the
function-static buffer `last_command` (as the C string it holds). -/
structure State where
  default_delay : Nat
  last_command : List Char
  deriving DecidableEq, Repr

/-- State at program start: `default_delay = 100`, `last_command = { 0 }`. -/
def State.init : State := ⟨100, []⟩

/-- The block every directive with an argument repeats: "point to second
command argument".  `ptr_from` is what `strstr` searches, `base` its offset in
`ptr_cmd` (`STRING_DELAY` searches a second time, from its first argument).
`none` stands for the two `return RC_BAD`; otherwise the result is the offset
of the argument in `ptr_cmd` and the argument.  The offset of the space is
cast to `uint16_t`; `command_length - 1` is only evaluated after the word
count found two words, which needs `command_length ≥ 2`. -/
def second_argument (ptr_cmd ptr_from : List Char) (base : Nat) (command_length : Nat) :
    Option (Nat × List Char) :=
  match strstr_space ptr_from with
  | none => none
  | some off =>
    if (base + off) % 65536 ≥ command_length - 1 then none
    else some (base + off + 1, ptr_cmd.drop (base + off + 1))

/-- The loop of `STRING_DELAY` that looks for the end of the delay token:
`for(uint8_t i = 0; i < strlen(ptr_argv); i++)`, returning `delay_char_end_i`.
Both counters are `uint8_t` and stay equal.  The exit test depends on `i`
alone, so a run of 256 iterations without exit repeats for ever: the first
argument is the number of iterations still allowed, started at 256, and `none`
is the loop that never ends. -/
def delay_char_end_loop (ptr_argv : List Char) : Nat → Nat → Option Nat
  | 0, _ => none
  | k + 1, i =>
    if i < strlen ptr_argv then
      if byteAt ptr_argv i = ' ' then some i
      else delay_char_end_loop ptr_argv k ((i + 1) % 256)
    else some i

/-- The printing loop of `STRING_DELAY`: each byte, then the delay. -/
def string_delay_events (delay_value : Nat) (text : List Char) : List Event :=
  (text.take (strlen text)).flatMap fun c => [Event.print c, Event.delay delay_value]

/-- The body shared by the modifier directives `CTRL-ALT`, `CTRL-SHIFT`,
`ALT-SHIFT`, `COMMAND-OPTION`, `GUI`, `CONTROL`, `ALT` and `SHIFT`: resolve
the optional argument into `key` (initially 0), press the modifiers `mods`,
press `key` `if(key != 0)`, release all. -/
def modifier_combination (mods : List Nat) (argc : Nat) (ptr_cmd : List Char)
    (command_length : Nat) (st : State) : Int × State × List Event :=
  if argc > 0 then
    match second_argument ptr_cmd ptr_cmd 0 command_length with
    | none => (RC_BAD, st, [])
    | some (_, ptr_argv) =>
      let key := ducky_key_to_hid_byte ptr_argv
      (RC_OK, st, mods.map Event.press ++ (if key ≠ 0 then [Event.press key] else [])
        ++ [Event.releaseAll])
  else (RC_OK, st, mods.map Event.press ++ [Event.releaseAll])

/-- The `REPEAT` loop `for(uint8_t i = 0; i < n; i++) body`, with `body` the
recursive call; `i` wraps at 256 while `n` is a `uint32_t`. -/
def repeat_loop (body : State → Option (State × List Event)) :
    Nat → Nat → Nat → State → List Event → Option (State × List Event)
  | 0, _, _, _, _ => none
  | fuel + 1, i, n, st, tr =>
    if i < n then
      match body st with
      | none => none
      | some (st1, ev) => repeat_loop body fuel ((i + 1) % 256) n st1 (tr ++ ev)
    else some (st, tr)

/-- The `REPEAT` directive (lines 211-251); `body` is the recursive call
`ducky_script_interpreter(last_command, strlen(last_command))`, whose return
code the loop ignores. -/
def repeat_directive (body : State → Option (State × List Event)) (size_bits fuel : Nat)
    (argc : Nat) (ptr_cmd : List Char) (command_length : Nat) (st : State) :
    Option (Int × State × List Event) :=
  if argc = 0 then some (RC_BAD, st, [])
  else if byteAt st.last_command 0 = NUL then some (RC_BAD, st, [])
  else match second_argument ptr_cmd ptr_cmd 0 command_length with
    | none => some (RC_BAD, st, [])
    | some (_, ptr_argv) =>
      match safe_atoi_u32 size_bits ptr_argv (strlen ptr_argv) true with
      | (rc, out) =>
        if rc ≠ RC_OK then some (RC_BAD, st, [])
        else
          match repeat_loop body fuel 0 (out.getD 0) st [] with
          | none => none
          | some (st1, tr) => some (RC_OK, st1, tr)

/-- The `DEFAULT_DELAY` / `DEFAULTDELAY` directive (lines 256-287);
`safe_atoi_u32` writes straight into the global `default_delay`. -/
def default_delay_directive (size_bits : Nat) (argc : Nat) (ptr_cmd : List Char)
    (command_length : Nat) (st : State) : Int × State × List Event :=
  if argc = 0 then (RC_BAD, st, [])
  else match second_argument ptr_cmd ptr_cmd 0 command_length with
    | none => (RC_BAD, st, [])
    | some (_, ptr_argv) =>
      match safe_atoi_u32 size_bits ptr_argv (strlen ptr_argv) true with
      | (rc, out) =>
        let st1 : State := { st with default_delay := out.getD st.default_delay }
        if rc ≠ RC_OK then (RC_BAD, st1, []) else (RC_OK, st1, [])

/-- The `DELAY` directive (lines 289-320). -/
def delay_directive (size_bits : Nat) (argc : Nat) (ptr_cmd : List Char)
    (command_length : Nat) (st : State) : Int × State × List Event :=
  if argc = 0 then (RC_BAD, st, [])
  else match second_argument ptr_cmd ptr_cmd 0 command_length with
    | none => (RC_BAD, st, [])
    | some (_, ptr_argv) =>
      match safe_atoi_u32 size_bits ptr_argv (strlen ptr_argv) true with
      | (rc, out) =>
        if rc ≠ RC_OK then (RC_BAD, st, [])
        else (RC_CUSTOM_DELAY, st, [Event.delay (out.getD 0)])

/-- The `STRING_DELAY` directive (lines 322-376); `none` when the search for
the end of the delay token never ends. -/
def string_delay_directive (size_bits : Nat) (argc : Nat) (ptr_cmd : List Char)
    (command_length : Nat) (st : State) : Option (Int × State × List Event) :=
  if argc < 2 then some (RC_BAD, st, [])
  else match second_argument ptr_cmd ptr_cmd 0 command_length with
    | none => some (RC_BAD, st, [])
    | some (pos, ptr_argv) =>
      match delay_char_end_loop ptr_argv 256 0 with
      | none => none
      | some delay_char_end_i =>
        match safe_atoi_u32 size_bits ptr_argv delay_char_end_i false with
        | (rc, out) =>
          if rc ≠ RC_OK then some (RC_BAD, st, [])
          else match second_argument ptr_cmd ptr_argv pos command_length with
            | none => some (RC_BAD, st, [])
            | some (_, text) => some (RC_OK, st, string_delay_events (out.getD 1) text)

/-- The `STRING` directive (lines 378-400). -/
def string_directive (argc : Nat) (ptr_cmd : List Char) (command_length : Nat) (st : State) :
    Int × State × List Event :=
  if argc = 0 then (RC_BAD, st, [])
  else match second_argument ptr_cmd ptr_cmd 0 command_length with
    | none => (RC_BAD, st, [])
    | some (_, ptr_argv) => (RC_OK, st, (ptr_argv.take (strlen ptr_argv)).map Event.print)

/-- Everything `ducky_script_interpreter` does after it has stored the line in
`last_command` (lines 256-676): the directives from `DEFAULT_DELAY` down to the
single key fallback, first match first. -/
def interpret_stored (size_bits : Nat) (argc : Nat) (ptr_cmd : List Char)
    (command_length : Nat) (st : State) : Option (Int × State × List Event) :=
  if strncmp ptr_cmd "DEFAULT_DELAY".toList (strlen "DEFAULT_DELAY".toList) = 0
      ∨ strncmp ptr_cmd "DEFAULTDELAY".toList (strlen "DEFAULTDELAY".toList) = 0 then
    some (default_delay_directive size_bits argc ptr_cmd command_length st)
  else if strncmp ptr_cmd "DELAY".toList (strlen "DELAY".toList) = 0 then
    some (delay_directive size_bits argc ptr_cmd command_length st)
  else if strncmp ptr_cmd "STRING_DELAY".toList (strlen "STRING_DELAY".toList) = 0 then
    string_delay_directive size_bits argc ptr_cmd command_length st
  else if strncmp ptr_cmd "STRING".toList (strlen "STRING".toList) = 0 then
    some (string_directive argc ptr_cmd command_length st)
  else if strncmp ptr_cmd "CTRL-ALT".toList (strlen "CTRL-ALT".toList) = 0 then
    some (modifier_combination [ MOD_CONTROL_LEFT, MOD_ALT_LEFT] argc ptr_cmd command_length st)
  else if strncmp ptr_cmd "CTRL-SHIFT".toList (strlen "CTRL-SHIFT".toList) = 0 then
    some (modifier_combination [ MOD_CONTROL_LEFT, MOD_SHIFT_LEFT] argc ptr_cmd command_length st)
  else if strncmp ptr_cmd "ALT-SHIFT".toList (strlen "ALT-SHIFT".toList) = 0 then
    some (modifier_combination [ MOD_ALT_LEFT, MOD_SHIFT_LEFT] argc ptr_cmd command_length st)
  else if strncmp ptr_cmd "ALT-TAB".toList (strlen "ALT-TAB".toList) = 0 then
    some (RC_OK, st, [Event.press MOD_ALT_LEFT, Event.press KEY_TAB, Event.releaseAll])
  else if strncmp ptr_cmd "COMMAND-OPTION".toList (strlen "COMMAND-OPTION".toList) = 0 then
    some (modifier_combination [ MOD_GUI_LEFT, MOD_ALT_LEFT] argc ptr_cmd command_length st)
  else if strncmp ptr_cmd "GUI".toList (strlen "GUI".toList) = 0
      ∨ strncmp ptr_cmd "WINDOWS".toList (strlen "WINDOWS".toList) = 0
      ∨ strncmp ptr_cmd "COMMAND".toList (strlen "COMMAND".toList) = 0 then
    some (modifier_combination [ MOD_GUI_LEFT] argc ptr_cmd command_length st)
  else if strncmp ptr_cmd "CONTROL".toList (strlen "CONTROL".toList) = 0
      ∨ strncmp ptr_cmd "CTRL".toList (strlen "CTRL".toList) = 0 then
    some (modifier_combination [ MOD_CONTROL_LEFT] argc ptr_cmd command_length st)
  else if strncmp ptr_cmd "ALT".toList (strlen "ALT".toList) = 0 then
    some (modifier_combination [ MOD_ALT_LEFT] argc ptr_cmd command_length st)
  else if strncmp ptr_cmd "SHIFT".toList (strlen "SHIFT".toList) = 0 then
    some (modifier_combination [ MOD_SHIFT_LEFT] argc ptr_cmd command_length st)
  else
    let key := ducky_key_to_hid_byte ptr_cmd
    if key = KEY_UNDEFINED_ERROR then some (RC_BAD, st, [])
    else some (RC_OK, st, [Event.write key])

/-- Interpret and execute a Ducky Script command (`ducky_script_interpreter`).
`size_bits` is the width of `size_t` and `cap` the value of the macro
`SERIAL_RX_BUFFER_SIZE`, the size of `last_command`; neither is defined in the
source.  The first argument is the fuel: each call, and each iteration of the
`REPEAT` loop, uses one unit.  The result is the return code, the state after
the call and the events emitted.

In the recursive call of `REPEAT` the argument `command` is the array
`last_command` itself, so that the store of line 254 is
`snprintf(last_command, SERIAL_RX_BUFFER_SIZE, "%s", last_command)`.  C gives
a copy between overlapping objects no defined result.  Here the argument is
passed by value and the store is taken as the copy from the first byte on,
which leaves the text as it is; what is proved of a `REPEAT` that runs the
stored command stands under this reading of the store. -/
def ducky_script_interpreter (size_bits cap : Nat) :
    Nat → State → List Char → Nat → Option (Int × State × List Event)
  | 0, _, _, _ => none
  | fuel + 1, st, command, command_length =>
    if cstr_count_words command command_length = 0 then some (RC_BAD, st, [])
    else
      let argc := cstr_count_words command command_length - 1
      let ptr_cmd := command
      if strncmp ptr_cmd "REM".toList (strlen "REM".toList) = 0
          ∨ strncmp ptr_cmd "//".toList (strlen "//".toList) = 0 then
        some (RC_OK, st, [])
      else if strncmp ptr_cmd "REPEAT".toList (strlen "REPEAT".toList) = 0 then
        repeat_directive
          (fun s =>
            (ducky_script_interpreter size_bits cap fuel s s.last_command
              (strlen s.last_command % 65536)).map fun r => r.2)
          size_bits fuel argc ptr_cmd command_length st
      else
        interpret_stored size_bits argc ptr_cmd command_length
          { st with last_command := snprintf_s st.last_command cap command }

/-! ## The line assembler and the poll loop -/

/-- What one of the two `while(....available())` loops of
`serial_line_received` ends with. -/
inductive Drained where
  /-- the source ran empty: fall through to the code after the loop -/
  | empty (my_rx_buffer : List Char) (i : Nat)
  /-- `return RC_OK` from inside the loop, with the bytes left in the source -/
  | line (my_rx_buffer : List Char) (rx_buffer_received_bytes : Nat) (rest : List Char)
  deriving DecidableEq, Repr

/-- One `while(Serial.available())` loop of `serial_line_received` over the
bytes `src` the source has available; `max1` is the `size_t` value
`rx_buffer_max_size-1`.  `none` is an access outside the buffer: a write at an
index that is not below its length, or the read of `my_rx_buffer[i-1]` after
the `uint16_t` counter `i` has wrapped to 0. -/
def drain (max1 : Nat) : List Char → List Char → Nat → Option Drained
  | [], my_rx_buffer, i => some (Drained.empty my_rx_buffer i)
  | c :: rest, my_rx_buffer, i =>
    if i < my_rx_buffer.length then
      let buf1 := my_rx_buffer.set i c
      let i1 := (i + 1) % 65536
      if i1 ≥ max1 then
        if max1 < buf1.length then some (Drained.line (buf1.set max1 NUL) i1 rest)
        else none
      else if i1 = 0 then none
      else if byteAt buf1 (i1 - 1) = '\n' ∨ byteAt buf1 (i1 - 1) = '\r' then
        some (Drained.line (buf1.set (i1 - 1) NUL) (i1 - 1) rest)
      else drain max1 rest buf1 i1
    else none

/-- The result of `serial_line_received`: return code, buffer, the counter
behind `rx_buffer_received_bytes`, and what is left unread on the hardware and
on the software serial port. -/
structure Received where
  rc : Int
  my_rx_buffer : List Char
  rx_buffer_received_bytes : Nat
  serial : List Char
  swserial : List Char
  deriving DecidableEq, Repr

/-- Check for incoming serial data, store it in the buffer and detect the end
of a line (`serial_line_received`).  `serial` and `swserial` are the bytes
available on `Serial` and on `SWSerial` during the call.  `none` is an access
outside the buffer. -/
def serial_line_received (size_bits : Nat) (my_rx_buffer : List Char)
    (rx_buffer_received_bytes : Nat) (rx_buffer_max_size : Nat)
    (serial swserial : List Char) : Option Received :=
  let max1 := (rx_buffer_max_size + 2 ^ size_bits - 1) % 2 ^ size_bits
  let i := rx_buffer_received_bytes
  if i > max1 then
    some ⟨RC_INVALID_INPUT, my_rx_buffer, rx_buffer_received_bytes, serial, swserial⟩
  else
    match drain max1 serial my_rx_buffer i with
    | none => none
    | some (Drained.line buf n rest) => some ⟨RC_OK, buf, n, rest, swserial⟩
    | some (Drained.empty buf i1) =>
      match drain max1 swserial buf i1 with
      | none => none
      | some (Drained.line buf2 n rest) => some ⟨RC_OK, buf2, n, [], rest⟩
      | some (Drained.empty buf2 i2) => some ⟨RC_BAD, buf2, i2, [], []⟩

/-- Everything one iteration of `loop` reads or changes. -/
structure Device where
  _rx_buffer : List Char
  _rx_buffer_received_bytes : Nat
  serial : List Char
  swserial : List Char
  st : State
  trace : List Event
  deriving DecidableEq, Repr

/-- One iteration of `loop`; `cap` is `SERIAL_RX_BUFFER_SIZE`. -/
def loop (size_bits cap fuel : Nat) (d : Device) : Option Device :=
  match serial_line_received size_bits d._rx_buffer d._rx_buffer_received_bytes cap
      d.serial d.swserial with
  | none => none
  | some r =>
    if r.rc = RC_OK then
      match ducky_script_interpreter size_bits cap fuel d.st r.my_rx_buffer
          r.rx_buffer_received_bytes with
      | none => none
      | some (rc, st1, ev) =>
        some ⟨r.my_rx_buffer, 0, r.serial, r.swserial, st1,
          d.trace ++ ev ++ (if rc ≠ RC_CUSTOM_DELAY then [Event.delay st1.default_delay] else [])⟩
    else
      some ⟨r.my_rx_buffer, r.rx_buffer_received_bytes, r.serial, r.swserial, d.st, d.trace⟩

/-! ## Definitions used to state the theorems -/

/-- The number a list of digit bytes denotes, most significant digit first. -/
def posVal : List Char → Nat
  | [] => 0
  | c :: s => (c.toNat - ('0').toNat) * 10 ^ s.length + posVal s

/-- The buffer after the bytes `src` have been stored from index `i` on. -/
def writeAt (buf : List Char) (i : Nat) : List Char → List Char
  | [] => buf
  | c :: rest => writeAt (buf.set i c) (i + 1) rest

/-- A byte that can be part of a word: not NUL and not one of the separators
of `cstr_count_words`. -/
def wordByte (c : Char) : Prop := c ≠ NUL ∧ c ≠ ' ' ∧ c ≠ '\r' ∧ c ≠ '\n'

instance wordByte.instDecidable (c : Char) : Decidable (wordByte c) := by unfold wordByte; infer_instance

/-- The modifier directives and the modifiers each of them presses, in the
order the specification lists them (section 4.5, item 8, without `ALT-TAB`,
which takes no argument). -/
def modifier_table : List (List Char × List Nat) :=
  [("CTRL-ALT".toList, [ MOD_CONTROL_LEFT, MOD_ALT_LEFT]),
   ("CTRL-SHIFT".toList, [ MOD_CONTROL_LEFT, MOD_SHIFT_LEFT]),
   ("ALT-SHIFT".toList, [ MOD_ALT_LEFT, MOD_SHIFT_LEFT]),
   ("COMMAND-OPTION".toList, [ MOD_GUI_LEFT, MOD_ALT_LEFT]),
   ("GUI".toList, [ MOD_GUI_LEFT]),
   ("WINDOWS".toList, [ MOD_GUI_LEFT]),
   ("COMMAND".toList, [ MOD_GUI_LEFT]),
   ("CONTROL".toList, [ MOD_CONTROL_LEFT]),
   ("CTRL".toList, [ MOD_CONTROL_LEFT]),
   ("ALT".toList, [ MOD_ALT_LEFT]),
   ("SHIFT".toList, [ MOD_SHIFT_LEFT])]

/-- The directive names `ducky_script_interpreter` compares the line with, in
the order of its tests (lines 203-637). -/
def directive_prefixes : List (List Char) :=
  ["REM".toList, "//".toList, "REPEAT".toList, "DEFAULT_DELAY".toList, "DEFAULTDELAY".toList,
   "DELAY".toList, "STRING_DELAY".toList, "STRING".toList, "CTRL-ALT".toList,
   "CTRL-SHIFT".toList, "ALT-SHIFT".toList, "ALT-TAB".toList, "COMMAND-OPTION".toList,
   "GUI".toList, "WINDOWS".toList, "COMMAND".toList, "CONTROL".toList, "CTRL".toList,
   "ALT".toList, "SHIFT".toList]

/-- The directive names tested after the line has been stored in
`last_command`: all of `directive_prefixes` but `REM`, `//` and `REPEAT`. -/
def stored_directives : List (List Char) := directive_prefixes.drop 3

/-- The table `ducky_key_to_hid_byte` walks through (lines 682-826): per `if`,
the names compared with `strcmp` and the code returned. -/
def key_table : List (List (List Char) × Nat) :=
  [(["POWER".toList], KEY_POWER),
   (["HOME".toList], KEY_HOME),
   (["INSERT".toList], KEY_INSERT),
   (["PAGEUP".toList], KEY_PAGEUP),
   (["PAGEDOWN".toList], KEY_PAGEDOWN),
   (["PRINTSCREEN".toList], KEY_PRINTSCREEN),
   (["ENTER".toList], KEY_ENTER),
   (["SPACE".toList], KEY_SPACE),
   (["TAB".toList], KEY_TAB),
   (["END".toList], KEY_END),
   (["BREAK".toList], KEY_PAUSE),
   (["LEFTARROW".toList, "LEFT".toList], KEY_LEFT),
   (["RIGHTARROW".toList, "RIGHT".toList], KEY_RIGHT),
   (["DOWNARROW".toList, "DOWN".toList], KEY_DOWN),
   (["UPARROW".toList, "UP".toList], KEY_UP),
   (["ESCAPE".toList, "ESC".toList], KEY_ESC),
   (["DELETE".toList, "DEL".toList], KEY_DELETE),
   (["MENU".toList, "APP".toList], KEY_MENU),
   (["NUMLOCK".toList, "NUM_LOCK".toList], KEY_NUM_LOCK),
   (["CAPSLOCK".toList, "CAPS_LOCK".toList], KEY_CAPS_LOCK),
   (["SCROLLLOCK".toList, "SCROLL_LOCK".toList], KEY_SCROLL_LOCK),
   (["MEDIA_PLAY_PAUSE".toList, "PLAY".toList, "PAUSE".toList], KEY_MEDIA_PLAY_PAUSE),
   (["MEDIA_STOP".toList, "STOP".toList], KEY_MEDIA_STOP),
   (["MEDIA_MUTE".toList, "MUTE".toList], KEY_MEDIA_MUTE),
   (["MEDIA_VOLUME_INC".toList, "VOLUMEUP".toList], KEY_MEDIA_VOLUME_INC),
   (["MEDIA_VOLUME_DEC".toList, "VOLUMEDOWN".toList], KEY_MEDIA_VOLUME_DEC),
   (["a".toList, "A".toList], KEY_A),
   (["b".toList, "B".toList], KEY_B),
   (["c".toList, "C".toList], KEY_C),
   (["d".toList, "D".toList], KEY_D),
   (["e".toList, "E".toList], KEY_E),
   (["f".toList, "F".toList], KEY_F),
   (["g".toList, "G".toList], KEY_G),
   (["h".toList, "H".toList], KEY_H),
   (["i".toList, "I".toList], KEY_I),
   (["j".toList, "J".toList], KEY_J),
   (["k".toList, "K".toList], KEY_K),
   (["l".toList, "L".toList], KEY_L),
   (["m".toList, "M".toList], KEY_M),
   (["n".toList, "N".toList], KEY_N),
   (["o".toList, "O".toList], KEY_O),
   (["p".toList, "P".toList], KEY_P),
   (["q".toList, "Q".toList], KEY_Q),
   (["r".toList, "R".toList], KEY_R),
   (["s".toList, "S".toList], KEY_S),
   (["t".toList, "T".toList], KEY_T),
   (["u".toList, "U".toList], KEY_U),
   (["v".toList, "V".toList], KEY_V),
   (["w".toList, "W".toList], KEY_W),
   (["x".toList, "X".toList], KEY_X),
   (["y".toList, "Y".toList], KEY_Y),
   (["z".toList, "Z".toList], KEY_Z),
   (["0".toList], KEY_0),
   (["1".toList], KEY_1),
   (["2".toList], KEY_2),
   (["3".toList], KEY_3),
   (["4".toList], KEY_4),
   (["5".toList], KEY_5),
   (["6".toList], KEY_6),
   (["7".toList], KEY_7),
   (["8".toList], KEY_8),
   (["9".toList], KEY_9),
   (["F1".toList], KEY_F1),
   (["F2".toList], KEY_F2),
   (["F3".toList], KEY_F3),
   (["F4".toList], KEY_F4),
   (["F5".toList], KEY_F5),
   (["F6".toList], KEY_F6),
   (["F7".toList], KEY_F7),
   (["F8".toList], KEY_F8),
   (["F9".toList], KEY_F9)]

/-- First match in a table of names and codes; `KEY_UNDEFINED_ERROR` when no
name matches. -/
def lookup_key (key : List Char) : List (List (List Char) × Nat) → Nat
  | [] => KEY_UNDEFINED_ERROR
  | (names, code) :: rest =>
    if ∃ P ∈ names, strcmp key P = 0 then code else lookup_key key rest

/-- The names `ducky_key_to_hid_byte` knows. -/
def key_names : List (List Char) := key_table.flatMap fun e => e.1

/-- The states of the device that the poll loop can be in: it starts with a
buffer of `cap` bytes and the write offset 0, with any bytes waiting on the
two ports; further bytes may arrive on either port at any time; `loop` runs. -/
inductive LoopReachable (size_bits cap : Nat) : Device → Prop where
  | start (d : Device) : d._rx_buffer.length = cap → d._rx_buffer_received_bytes = 0 →
      LoopReachable size_bits cap d
  | arrive (d : Device) (hw sw : List Char) : LoopReachable size_bits cap d →
      LoopReachable size_bits cap
        ⟨d._rx_buffer, d._rx_buffer_received_bytes, d.serial ++ hw, d.swserial ++ sw, d.st,
          d.trace⟩
  | iterate (d d1 : Device) (fuel : Nat) : LoopReachable size_bits cap d →
      loop size_bits cap fuel d = some d1 → LoopReachable size_bits cap d1

/-- The keys held down after a trace of events, from the keys `held` before
it: `Keyboard.press` adds its key, `Keyboard.releaseAll` releases every key.
`Keyboard.write` and `Keyboard.print` press and release their own key and
`delay` touches none, so they add no key to the ones held. -/
def keys_held : List Nat → List Event → List Nat
  | held, [] => held
  | held, Event.press k :: tr => keys_held (k :: held) tr
  | _, Event.releaseAll :: tr => keys_held [] tr
  | held, Event.write _ :: tr => keys_held held tr
  | held, Event.print _ :: tr => keys_held held tr
  | held, Event.delay _ :: tr => keys_held held tr

/-- A line as the poll loop hands it to the interpreter: a C string that fits
a buffer of `cap` bytes, with a declared length that covers it. -/
def RawLine (cap : Nat) (line : List Char) (len : Nat) : Prop :=
  strlen line ≤ len ∧ strlen line < cap

/-- The interpreter states reachable from the state at program start by
calls of the interpreter that return, on lines and declared lengths that
satisfy `ok`. -/
inductive Reachable (size_bits cap : Nat) (ok : List Char → Nat → Prop) : State → Prop where
  | init : Reachable size_bits cap ok State.init
  | call (st : State) (fuel : Nat) (line : List Char) (len : Nat)
      (r : Int × State × List Event) : Reachable size_bits cap ok st → ok line len →
      ducky_script_interpreter size_bits cap fuel st line len = some r →
      Reachable size_bits cap ok r.2.1

/-- What `last_command` can hold: a C string that fits the array of `cap`
bytes and begins with none of `REM`, `//` and `REPEAT`. -/
def StoredOk (cap : Nat) (lc : List Char) : Prop :=
  (∀ c ∈ lc, c ≠ NUL) ∧ lc.length ≤ cap - 1
    ∧ strncmp lc "REM".toList (strlen "REM".toList) ≠ 0
    ∧ strncmp lc "//".toList (strlen "//".toList) ≠ 0
    ∧ strncmp lc "REPEAT".toList (strlen "REPEAT".toList) ≠ 0

/-- The stored command can be run again without a change of the state: the
directives behind the store, run on `last_command` as `REPEAT` runs them,
give the state back. -/
def RerunStable (size_bits : Nat) (st : State) : Prop :=
  ∀ r, interpret_stored size_bits
      (cstr_count_words st.last_command (strlen st.last_command % 65536) - 1)
      st.last_command (strlen st.last_command % 65536) st = some r → r.2.1 = st

/-! ## Facts about bytes and lists -/

theorem byteAt_append_left (a b : List Char) (i : Nat) (h : i < a.length) :
    byteAt (a ++ b) i = byteAt a i := by
  simp [byteAt, List.getD_eq_getElem?_getD, List.getElem?_append_left h]

theorem byteAt_append_right (a b : List Char) (i : Nat) :
    byteAt (a ++ b) (a.length + i) = byteAt b i := by
  simp [byteAt, List.getD_eq_getElem?_getD, List.getElem?_append_right]

theorem byteAt_append_length (a b : List Char) : byteAt (a ++ b) a.length = byteAt b 0 := by
  simpa using byteAt_append_right a b 0

theorem byteAt_of_mem_index (a : List Char) (i : Nat) (h : i < a.length) : byteAt a i ∈ a := by
  simp [byteAt, List.getD_eq_getElem?_getD, List.getElem?_eq_getElem h]

/-! ## The numeric parser -/

theorem posVal_append_singleton (a : List Char) (c : Char) :
    posVal (a ++ [c]) = posVal a * 10 + (c.toNat - ('0').toNat) := by
  induction a with
  | nil => simp [posVal]
  | cons x a ih =>
    rw [List.cons_append, posVal, posVal, ih, List.length_append, List.length_singleton,
      pow_succ]
    ring

theorem digitChar_spec (m : Nat) (hm : m < 10) :
    ¬ (Nat.digitChar m < '0' ∨ Nat.digitChar m > '9')
      ∧ (Nat.digitChar m).toNat - ('0').toNat = m := by
  interval_cases m <;> decide

/-- In base 10 and with fuel above the number, `Nat.toDigitsCore` prepends to
its accumulator a non-empty run of digit bytes that denotes the number. -/
theorem toDigitsCore_decimal : ∀ (fuel n : Nat) (acc : List Char), n < fuel →
    ∃ run : List Char, (∀ c ∈ run, ¬ (c < '0' ∨ c > '9')) ∧ run ≠ [] ∧ posVal run = n
      ∧ (∀ e, 0 < e → n < 10 ^ e → run.length ≤ e)
      ∧ Nat.toDigitsCore 10 fuel n acc = run ++ acc := by
  intro fuel
  induction fuel with
  | zero => intro n acc h; omega
  | succ fuel ih =>
    intro n acc hn
    have hd := digitChar_spec (n % 10) (Nat.mod_lt _ (by norm_num))
    unfold Nat.toDigitsCore
    by_cases h0 : n / 10 = 0
    · have hlt : n < 10 := by omega
      refine ⟨[Nat.digitChar (n % 10)], ?_, by simp, ?_, ?_, by simp [h0]⟩
      · intro c hc
        rw [List.mem_singleton] at hc
        subst hc
        exact hd.1
      · simp only [posVal, List.length_nil, pow_zero, mul_one, add_zero]
        rw [hd.2]
        omega
      · intro e he _
        simpa using he
    · obtain ⟨run, hdig, _, hval, hlen, heq⟩ :=
        ih (n / 10) (Nat.digitChar (n % 10) :: acc) (by omega)
      refine ⟨run ++ [Nat.digitChar (n % 10)], ?_, by simp, ?_, ?_, by simp [h0, heq]⟩
      · intro c hc
        rcases List.mem_append.mp hc with h | h
        · exact hdig c h
        · rw [List.mem_singleton] at h
          subst h
          exact hd.1
      · rw [posVal_append_singleton, hval, hd.2]
        omega
      · intro e he hne
        rcases e with _ | e
        · omega
        · rcases e with _ | e
          · omega
          · have := hlen (e + 1) (by omega) (by
              rw [pow_succ] at hne
              omega)
            simp only [List.length_append, List.length_singleton]
            omega

/-- The decimal digits `Nat.toDigits 10 v`: a non-empty run of digit bytes
denoting `v`, at most `e` long when `v < 10 ^ e`. -/
theorem toDigits_spec (v : Nat) :
    Nat.toDigits 10 v ≠ [] ∧ (∀ c ∈ Nat.toDigits 10 v, ¬ (c < '0' ∨ c > '9'))
      ∧ posVal (Nat.toDigits 10 v) = v
      ∧ (∀ e, 0 < e → v < 10 ^ e → (Nat.toDigits 10 v).length ≤ e) := by
  obtain ⟨run, h2, h1, h3, h4, hrun⟩ := toDigitsCore_decimal (v + 1) v [] (by omega)
  have : Nat.toDigits 10 v = run := by simpa [Nat.toDigits] using hrun
  rw [this]
  exact ⟨h1, h2, h3, h4⟩

theorem has_non_digit_digits (t : List Char) (ht : ∀ c ∈ t, ¬ (c < '0' ∨ c > '9')) :
    ∀ (pre rest : List Char), has_non_digit (pre ++ t ++ rest) t.length pre.length = false := by
  induction t with
  | nil => intro pre rest; rfl
  | cons c t ih =>
    intro pre rest
    have hc : byteAt (pre ++ c :: t ++ rest) pre.length = c := by
      rw [List.append_assoc, byteAt_append_length]; rfl
    have hstep := ih (fun d hd => ht d (List.mem_cons_of_mem _ hd)) (pre ++ [c]) rest
    simp only [List.length_append, List.length_singleton, List.append_assoc,
      List.singleton_append] at hstep
    simp only [List.length_cons, has_non_digit, hc, ht c (List.mem_cons_self _ _), if_false]
    simpa using hstep

theorem multiplicator_loop_modEq (size_bits : Nat) :
    ∀ (k m : Nat), multiplicator_loop size_bits k m ≡ m * 10 ^ k [MOD 2 ^ size_bits] := by
  intro k
  induction k with
  | zero => intro m; simp [multiplicator_loop, Nat.ModEq]
  | succ k ih =>
    intro m
    rw [multiplicator_loop]
    refine (ih _).trans ?_
    have h : (m * 10) % 2 ^ size_bits ≡ m * 10 [MOD 2 ^ size_bits] := Nat.mod_modEq _ _
    have h2 := h.mul_right (10 ^ k)
    rw [pow_succ]
    simpa [Nat.mul_assoc, Nat.mul_comm, Nat.mul_left_comm] using h2

/-- The conversion loop of `safe_atoi_u32` computes the decimal value of the
bytes it runs over, modulo the range of `size_t`. -/
theorem convert_loop_eq (size_bits : Nat) (t : List Char) :
    ∀ (pre rest : List Char) (len acc : Nat), len = pre.length + t.length →
      acc % 2 ^ size_bits = acc →
      convert_loop size_bits (pre ++ t ++ rest) len t.length pre.length acc
        = (acc + posVal t) % 2 ^ size_bits := by
  induction t with
  | nil => intro pre rest len acc _ hacc; simp [convert_loop, posVal, hacc]
  | cons c t ih =>
    intro pre rest len acc hlen hacc
    have hc : byteAt (pre ++ c :: t ++ rest) pre.length = c := by
      rw [List.append_assoc, byteAt_append_length]; rfl
    have hk : len - 1 - pre.length = t.length := by
      simp only [List.length_cons] at hlen; omega
    have hstep := ih (pre ++ [c]) rest len
      ((acc + multiplicator_loop size_bits t.length 1 * (c.toNat - ('0').toNat)) % 2 ^ size_bits)
      (by simp at hlen ⊢; omega) (Nat.mod_mod _ _)
    simp only [List.length_append, List.length_singleton, List.append_assoc,
      List.singleton_append] at hstep
    simp only [List.length_cons, convert_loop, hc, hk]
    rw [List.append_assoc, hstep, posVal]
    have hm := (multiplicator_loop_modEq size_bits t.length 1).mul_right (c.toNat - ('0').toNat)
    have h1 : (acc + multiplicator_loop size_bits t.length 1 * (c.toNat - ('0').toNat))
        % 2 ^ size_bits ≡ acc + (c.toNat - ('0').toNat) * 10 ^ t.length [MOD 2 ^ size_bits] := by
      refine (Nat.mod_modEq _ _).trans (Nat.ModEq.add_left acc ?_)
      simpa [Nat.mul_comm] using hm
    have h2 := h1.add_right (posVal t)
    rw [Nat.add_assoc] at h2
    exact h2

theorem strlen_of_no_nul (s : List Char) (h : ∀ c ∈ s, c ≠ NUL) : strlen s = s.length := by
  induction s with
  | nil => rfl
  | cons c s ih =>
    rw [strlen, if_neg (h c (List.mem_cons_self _ _)),
      ih (fun d hd => h d (List.mem_cons_of_mem _ hd)), List.length_cons]

theorem digit_wordByte (c : Char) (h : ¬ (c < '0' ∨ c > '9')) : wordByte c := by
  have h0 : ¬ c < '0' := fun hc => h (Or.inl hc)
  refine ⟨?_, ?_, ?_, ?_⟩ <;> (rintro rfl; exact h0 (by decide))

/-- On a run of 1 to 10 digit bytes, followed by NUL when the check is on,
`safe_atoi_u32` computes the decimal value in `size_t` arithmetic and compares
the result of that with `UINT32_MAX`. -/
theorem safe_atoi_u32_digits (size_bits : Nat) (ds tail : List Char) (check : Bool)
    (hne : ds ≠ []) (h10 : ds.length ≤ 10) (hdig : ∀ c ∈ ds, ¬ (c < '0' ∨ c > '9'))
    (htail : check = true → byteAt tail 0 = NUL) :
    safe_atoi_u32 size_bits (ds ++ tail) ds.length check
      = if posVal ds % 2 ^ size_bits > UINT32_MAX then (RC_BAD, none)
        else (RC_OK, some (posVal ds % 2 ^ size_bits % 2 ^ 32)) := by
  have hpos : 0 < ds.length := List.length_pos.mpr hne
  have hnd := has_non_digit_digits ds hdig [] tail
  have hcv := convert_loop_eq size_bits ds [] tail ds.length 0 (by simp) (Nat.zero_mod _)
  simp only [List.nil_append, List.length_nil, Nat.zero_add] at hnd hcv
  rw [safe_atoi_u32, if_neg (by omega), if_neg (by
    rintro ⟨hck, hb⟩
    exact hb (by rw [byteAt_append_length]; exact htail hck)), hnd]
  simp only [Bool.false_eq_true, if_false, hcv]

/-! ## Claims C4, C5, C6 -/

/-- Parsing the decimal digits of a value below `2 ^ 32` in a `size_t` of at
least 32 bits gives the value back: no partial sum wraps. -/
theorem safe_atoi_u32_decimal (size_bits v : Nat) (tail : List Char)
    (hbits : 32 ≤ size_bits) (hv : v ≤ 4294967295) (htail : byteAt tail 0 = NUL) :
    safe_atoi_u32 size_bits (Nat.toDigits 10 v ++ tail) (Nat.toDigits 10 v).length true
      = (RC_OK, some v) := by
  obtain ⟨hne, hdig, hval, hlen⟩ := toDigits_spec v
  have h10 := hlen 10 (by norm_num) (by norm_num; omega)
  have hpow : 2 ^ 32 ≤ 2 ^ size_bits := Nat.pow_le_pow_right (by norm_num) hbits
  have hmod : v % 2 ^ size_bits = v := Nat.mod_eq_of_lt (by norm_num at hpow ⊢; omega)
  rw [safe_atoi_u32_digits size_bits _ tail true hne h10 hdig (fun _ => htail), hval, hmod,
    if_neg (by unfold UINT32_MAX; omega), Nat.mod_eq_of_lt (by norm_num; omega)]

/-- C4: with a `size_t` of at least 32 bits, `safe_atoi_u32` applied to the
decimal digits of any `v` in [0, 4294967295], with their exact length, a NUL
right after them and the terminator check on, returns `RC_OK` and writes `v`. -/
theorem safe_atoi_u32_decimal_round_trip (size_bits v : Nat) (tail : List Char)
    (hbits : 32 ≤ size_bits) (hv : v ≤ 4294967295) (htail : byteAt tail 0 = NUL) :
    safe_atoi_u32 size_bits (Nat.toDigits 10 v ++ tail) (Nat.toDigits 10 v).length true
      = (RC_OK, some v) :=
  safe_atoi_u32_decimal size_bits v tail hbits hv htail

/-- The round trip of C4 at the largest value, 4294967295, with a 32-bit `size_t`. -/
theorem safe_atoi_u32_decimal_round_trip_witness :
    32 ≤ 32 ∧ 4294967295 ≤ 4294967295 ∧ byteAt [] 0 = NUL
      ∧ safe_atoi_u32 32 (Nat.toDigits 10 4294967295 ++ [])
          (Nat.toDigits 10 4294967295).length true = (RC_OK, some 4294967295) :=
  ⟨by decide, by decide, rfl,
    safe_atoi_u32_decimal_round_trip 32 4294967295 [] (by decide) (by decide) rfl⟩

/-- C5, at the failing input: with a `size_t` of 32 bits (or of 16) the ten
digits `4294967296` are accepted, `RC_OK` is returned and 0 is written: the sum
has already wrapped when it is compared with `UINT32_MAX`.  Only a wider
`size_t` (64 bits) makes the comparison reject the number. -/
theorem safe_atoi_u32_overflow_accepted :
    safe_atoi_u32 32 "4294967296".toList 10 true = (RC_OK, some 0)
      ∧ safe_atoi_u32 16 "4294967296".toList 10 true = (RC_OK, some 0)
      ∧ safe_atoi_u32 64 "4294967296".toList 10 true = (RC_BAD, none) := by
  decide

/-- C6, at the failing input: on `"A  B"` with length 4 the counter returns 1,
not 2: a separator is only counted when both its neighbours are word bytes. -/
theorem cstr_count_words_double_space :
    cstr_count_words "A  B".toList 4 = 1 ∧ cstr_count_words "A B".toList 3 = 2
      ∧ cstr_count_words "  ".toList 2 = 1 := by
  decide

theorem writeAt_length (src : List Char) : ∀ (buf : List Char) (i : Nat),
    (writeAt buf i src).length = buf.length := by
  induction src with
  | nil => intro buf i; rfl
  | cons c rest ih => intro buf i; simp [writeAt, ih]

theorem writeAt_eq (src : List Char) : ∀ (buf : List Char) (i : Nat),
    i + src.length ≤ buf.length →
    writeAt buf i src = buf.take i ++ src ++ buf.drop (i + src.length) := by
  induction src with
  | nil => intro buf i _; simp [writeAt]
  | cons c rest ih =>
    intro buf i h
    simp only [List.length_cons] at h
    rw [writeAt, ih _ _ (by simp; omega)]
    have hi : i < buf.length := by omega
    rw [List.set_eq_take_append_cons_drop, if_pos hi]
    have h1 : (List.take i buf ++ c :: List.drop (i + 1) buf).take (i + 1)
        = List.take i buf ++ [c] := by
      rw [List.take_append_eq_append_take]
      simp [List.length_take, Nat.min_eq_left (Nat.le_of_lt hi)]
    have h2 : (List.take i buf ++ c :: List.drop (i + 1) buf).drop (i + 1 + rest.length)
        = List.drop (i + (rest.length + 1)) buf := by
      have hl : (List.take i buf).length = i := by
        simp [List.length_take, Nat.min_eq_left (Nat.le_of_lt hi)]
      have hn : i + 1 + rest.length = (List.take i buf).length + (rest.length + 1) := by
        rw [hl]; omega
      rw [hn, List.drop_append, List.drop_succ_cons, List.drop_drop]
      congr 1
      omega
    rw [h1, h2]
    simp


theorem byteAt_set_self (buf : List Char) (i : Nat) (c : Char) (h : i < buf.length) :
    byteAt (buf.set i c) i = c := by
  simp [byteAt, List.getD_eq_getElem?_getD, List.getElem?_set_self h]

/-- A source without line terminator that fits below the capacity limit is
drained to the end. -/
theorem drain_plain (max1 : Nat) (src : List Char) : ∀ (buf : List Char) (i : Nat),
    (∀ c ∈ src, c ≠ '\n' ∧ c ≠ '\r') → i + src.length < max1 → i + src.length < 65536 →
    i + src.length ≤ buf.length →
    drain max1 src buf i = some (Drained.empty (writeAt buf i src) (i + src.length)) := by
  induction src with
  | nil => intro buf i _ _ _ _; rfl
  | cons c rest ih =>
    intro buf i hsrc hmax h16 hbuf
    simp only [List.length_cons] at hmax h16 hbuf
    have hi : i < buf.length := by omega
    have hmod : (i + 1) % 65536 = i + 1 := Nat.mod_eq_of_lt (by omega)
    have hc := hsrc c (List.mem_cons_self _ _)
    rw [drain, if_pos hi]
    simp only [hmod, Nat.add_sub_cancel, byteAt_set_self buf i c hi]
    rw [if_neg (by omega), if_neg (by omega), if_neg (by simp [hc.1, hc.2]),
      ih _ _ (fun d hd => hsrc d (List.mem_cons_of_mem _ hd)) (by omega) (by omega)
        (by simp; omega)]
    simp only [writeAt, List.length_cons]
    congr 2
    omega

/-- A line terminator met below the capacity limit ends the line: it is
replaced by NUL and not counted. -/
theorem drain_terminator (max1 : Nat) (s : List Char) (t : Char) (rest : List Char)
    (ht : t = '\n' ∨ t = '\r') : ∀ (buf : List Char) (i : Nat),
    (∀ c ∈ s, c ≠ '\n' ∧ c ≠ '\r') → i + s.length + 1 < max1 → i + s.length + 1 < 65536 →
    i + s.length + 1 ≤ buf.length →
    drain max1 (s ++ t :: rest) buf i
      = some (Drained.line ((writeAt buf i s).set (i + s.length) NUL) (i + s.length) rest) := by
  induction s with
  | nil =>
    intro buf i _ hmax h16 hbuf
    simp only [List.length_nil, Nat.add_zero] at hmax h16 hbuf
    have hi : i < buf.length := by omega
    have hmod : (i + 1) % 65536 = i + 1 := Nat.mod_eq_of_lt (by omega)
    rw [List.nil_append, drain, if_pos hi]
    simp only [hmod, Nat.add_sub_cancel, byteAt_set_self buf i t hi]
    rw [if_neg (by omega), if_neg (by omega), if_pos ht]
    simp [writeAt]
  | cons c s ih =>
    intro buf i hs hmax h16 hbuf
    simp only [List.length_cons] at hmax h16 hbuf
    have hi : i < buf.length := by omega
    have hmod : (i + 1) % 65536 = i + 1 := Nat.mod_eq_of_lt (by omega)
    have hc := hs c (List.mem_cons_self _ _)
    rw [List.cons_append, drain, if_pos hi]
    simp only [hmod, Nat.add_sub_cancel, byteAt_set_self buf i c hi]
    rw [if_neg (by omega), if_neg (by omega), if_neg (by simp [hc.1, hc.2]),
      ih _ _ (fun d hd => hs d (List.mem_cons_of_mem _ hd)) (by omega) (by omega)
        (by simp; omega)]
    simp only [writeAt, List.length_cons]
    have : i + 1 + s.length = i + (s.length + 1) := by omega
    rw [this]

/-- A source that reaches the capacity limit before any line terminator ends
the line there: NUL is stored at index `max1`, the rest stays unread. -/
theorem drain_capacity (max1 : Nat) (s : List Char) (rest : List Char) :
    ∀ (buf : List Char) (i : Nat),
    (∀ c ∈ s, c ≠ '\n' ∧ c ≠ '\r') → s ≠ [] → i + s.length = max1 → max1 < 65536 →
    max1 < buf.length →
    drain max1 (s ++ rest) buf i
      = some (Drained.line ((writeAt buf i s).set max1 NUL) max1 rest) := by
  induction s with
  | nil => intro buf i _ h; exact absurd rfl h
  | cons c s ih =>
    intro buf i hs _ hmax h16 hbuf
    simp only [List.length_cons] at hmax
    have hi : i < buf.length := by omega
    have hmod : (i + 1) % 65536 = i + 1 := Nat.mod_eq_of_lt (by omega)
    have hc := hs c (List.mem_cons_self _ _)
    rw [List.cons_append, drain, if_pos hi]
    simp only [hmod, Nat.add_sub_cancel, byteAt_set_self buf i c hi, List.length_set]
    by_cases hnil : s = []
    · subst hnil
      simp only [List.length_nil, Nat.add_zero] at hmax
      rw [if_pos (by omega), if_pos hbuf]
      simp [writeAt, hmax]
    · have hpos : 0 < s.length := List.length_pos.mpr hnil
      rw [if_neg (by omega), if_neg (by omega), if_neg (by simp [hc.1, hc.2]),
        ih _ _ (fun d hd => hs d (List.mem_cons_of_mem _ hd)) hnil (by omega) h16
          (by simp; omega)]
      simp only [writeAt]

/-! ## The line assembler -/

theorem writeAt_append (a : List Char) : ∀ (buf : List Char) (i : Nat) (b : List Char),
    writeAt buf i (a ++ b) = writeAt (writeAt buf i a) (i + a.length) b := by
  induction a with
  | nil => intro buf i b; rfl
  | cons c a ih =>
    intro buf i b
    rw [List.cons_append, writeAt, writeAt, ih, List.length_cons]
    congr 1
    omega

/-- The value of `rx_buffer_max_size-1` for a capacity of at least 1 that fits
a `size_t`. -/
theorem max_size_pred (size_bits C : Nat) (hC : 1 ≤ C) (hsize : C < 2 ^ size_bits) :
    (C + 2 ^ size_bits - 1) % 2 ^ size_bits = C - 1 := by
  have h : C + 2 ^ size_bits - 1 = (C - 1) + 2 ^ size_bits := by omega
  rw [h, Nat.add_mod_right, Nat.mod_eq_of_lt (by omega)]

/-- A full buffer: `n` bytes stored from index 0 and NUL at index `n`. -/
theorem writeAt_full (buf s : List Char) (n : Nat) (hbuf : buf.length = n + 1)
    (hs : s.length = n) : (writeAt buf 0 s).set n NUL = s ++ [NUL] := by
  rw [writeAt_eq s buf 0 (by omega)]
  simp only [List.take_zero, List.nil_append, Nat.zero_add, hs]
  have hd : (List.drop n buf).length = 1 := by simp [hbuf]
  obtain ⟨x, hx⟩ := List.length_eq_one.mp hd
  rw [hx, ← hs, List.set_append_right _ _ (Nat.le_refl _)]
  simp

/-- The line assembler on a line that ends at least one byte before the
capacity limit: the terminator is replaced by NUL and not counted, the bytes
after it stay unread.  The terminator may come from either port. -/
theorem serial_line_received_terminator (size_bits C : Nat) (buf s1 s2 rest : List Char)
    (t : Char) (hC : 1 ≤ C) (hsize : C < 2 ^ size_bits) (hbuf : buf.length = C)
    (hs : ∀ c ∈ s1 ++ s2, c ≠ '\n' ∧ c ≠ '\r') (hlen : (s1 ++ s2).length + 2 < C)
    (h16 : (s1 ++ s2).length + 1 < 65536) (ht : t = '\n' ∨ t = '\r') :
    (∀ sw, s2 = [] → serial_line_received size_bits buf 0 C (s1 ++ t :: rest) sw
      = some ⟨RC_OK, (s1 ++ s2) ++ NUL :: buf.drop ((s1 ++ s2).length + 1),
          (s1 ++ s2).length, rest, sw⟩)
    ∧ serial_line_received size_bits buf 0 C s1 (s2 ++ t :: rest)
      = some ⟨RC_OK, (s1 ++ s2) ++ NUL :: buf.drop ((s1 ++ s2).length + 1),
          (s1 ++ s2).length, [], rest⟩ := by
  have hmax := max_size_pred size_bits C hC hsize
  have hbufeq : (writeAt buf 0 (s1 ++ s2)).set (s1 ++ s2).length NUL
      = (s1 ++ s2) ++ NUL :: buf.drop ((s1 ++ s2).length + 1) := by
    rw [writeAt_eq _ buf 0 (by omega)]
    simp only [List.take_zero, List.nil_append, Nat.zero_add]
    rw [List.set_append_right _ _ (Nat.le_refl _), Nat.sub_self]
    have hd : (s1 ++ s2).length < buf.length := by omega
    rw [List.drop_eq_getElem_cons hd, List.set_cons_zero]
  constructor
  · intro sw h2
    subst h2
    rw [List.append_nil] at hs hlen h16 hbufeq ⊢
    have hd := drain_terminator (C - 1) s1 t rest ht buf 0 hs (by omega) (by omega) (by omega)
    simp only [Nat.zero_add] at hd
    simp only [serial_line_received, hmax, hd, hbufeq]
    rw [if_neg (by omega)]
  · have h1 := drain_plain (C - 1) s1 buf 0
      (fun c hc => hs c (List.mem_append_left _ hc))
      (by simp only [List.length_append] at hlen; omega)
      (by simp only [List.length_append] at h16; omega)
      (by simp only [List.length_append] at hlen; omega)
    have h2 := drain_terminator (C - 1) s2 t rest ht (writeAt buf 0 s1) (0 + s1.length)
      (fun c hc => hs c (List.mem_append_right _ hc))
      (by simp only [List.length_append] at hlen; omega)
      (by simp only [List.length_append] at h16; omega)
      (by rw [writeAt_length]; simp only [List.length_append] at hlen; omega)
    rw [← writeAt_append] at h2
    simp only [Nat.zero_add] at h1 h2
    rw [← List.length_append] at h2
    simp only [serial_line_received, hmax, h1, h2, hbufeq]
    rw [if_neg (by omega)]


/-- C7, at the failing input: with capacity 4 and the line `ab` (of length
capacity - 2) followed by `\n` on the hardware port, the byte that fills the
buffer is the terminator; the capacity test comes first, so the line is
returned with length 3 and with the `\n` still in it. -/
theorem serial_line_received_boundary_keeps_terminator :
    serial_line_received 32 [NUL, NUL, NUL, NUL] 0 4 "ab\n".toList []
      = some ⟨RC_OK, [ 'a', 'b', '\n', NUL], 3, [], []⟩ := by
  decide

/-- C8: a stream without line terminator that fills the buffer is cut at
capacity - 1 bytes and handed over as a line: for a capacity `C ≥ 2` within
the range of the `uint16_t` offset, with at least `C - 1` bytes available on
the two ports together, the call from offset 0 returns `RC_OK` with length
`C - 1`, the buffer holds the first `C - 1` bytes and NUL at index `C - 1`, and
the later bytes stay unread on their port. -/
theorem serial_line_received_truncates (size_bits C : Nat) (buf hw sw : List Char)
    (hC : 2 ≤ C) (hsize : C < 2 ^ size_bits) (h16 : C ≤ 65536) (hbuf : buf.length = C)
    (hstream : C - 1 ≤ (hw ++ sw).length) (hnt : ∀ c ∈ hw ++ sw, c ≠ '\n' ∧ c ≠ '\r') :
    serial_line_received size_bits buf 0 C hw sw
      = some ⟨RC_OK, (hw ++ sw).take (C - 1) ++ [NUL], C - 1, hw.drop (C - 1),
          sw.drop (C - 1 - hw.length)⟩ := by
  have hmax := max_size_pred size_bits C (by omega) hsize
  by_cases hcase : C - 1 ≤ hw.length
  · have hsplit : hw = hw.take (C - 1) ++ hw.drop (C - 1) := (List.take_append_drop _ _).symm
    have hl : (hw.take (C - 1)).length = C - 1 := by
      rw [List.length_take]; omega
    have hd := drain_capacity (C - 1) (hw.take (C - 1)) (hw.drop (C - 1)) buf 0
      (fun c hc => hnt c (List.mem_append_left _ (List.mem_of_mem_take hc)))
      (by intro h; rw [h] at hl; simp at hl; omega) (by omega) (by omega) (by omega)
    rw [← hsplit, writeAt_full buf _ (C - 1) (by omega) hl] at hd
    have ht : (hw ++ sw).take (C - 1) = hw.take (C - 1) := List.take_append_of_le_length hcase
    have hz : C - 1 - hw.length = 0 := by omega
    simp only [serial_line_received, hmax, hd, ht, hz, List.drop_zero]
    rw [if_neg (by omega)]
  · have hlt : hw.length < C - 1 := by omega
    have h1 := drain_plain (C - 1) hw buf 0
      (fun c hc => hnt c (List.mem_append_left _ hc)) (by omega) (by omega) (by omega)
    simp only [Nat.zero_add] at h1
    have hsplit : sw = sw.take (C - 1 - hw.length) ++ sw.drop (C - 1 - hw.length) :=
      (List.take_append_drop _ _).symm
    have hl : (sw.take (C - 1 - hw.length)).length = C - 1 - hw.length := by
      rw [List.length_take]
      simp only [List.length_append] at hstream
      omega
    have h2 := drain_capacity (C - 1) (sw.take (C - 1 - hw.length))
      (sw.drop (C - 1 - hw.length)) (writeAt buf 0 hw) hw.length
      (fun c hc => hnt c (List.mem_append_right _ (List.mem_of_mem_take hc)))
      (by intro h; rw [h] at hl; simp at hl; omega) (by omega) (by omega)
      (by rw [writeAt_length]; omega)
    have hw0 : writeAt (writeAt buf 0 hw) hw.length (sw.take (C - 1 - hw.length))
        = writeAt buf 0 (hw ++ sw.take (C - 1 - hw.length)) := by
      rw [writeAt_append, Nat.zero_add]
    have ht : (hw ++ sw).take (C - 1) = hw ++ sw.take (C - 1 - hw.length) := by
      rw [List.take_append_eq_append_take, List.take_of_length_le (Nat.le_of_lt hlt)]
    rw [← hsplit, hw0,
      writeAt_full buf _ (C - 1) (by omega) (by rw [List.length_append, hl]; omega)] at h2
    have hdrop : hw.drop (C - 1) = [] := List.drop_of_length_le (Nat.le_of_lt hlt)
    simp only [serial_line_received, hmax, h1, h2, ht, hdrop]
    rw [if_neg (by omega)]

/-- The truncation of C8 with capacity 4 and five bytes spread over the two ports. -/
theorem serial_line_received_truncates_witness :
    2 ≤ 4 ∧ 4 < 2 ^ 32 ∧ 4 ≤ 65536 ∧ [NUL, NUL, NUL, NUL].length = 4
      ∧ 4 - 1 ≤ ("ab".toList ++ "cde".toList).length
      ∧ (∀ c ∈ "ab".toList ++ "cde".toList, c ≠ '\n' ∧ c ≠ '\r')
      ∧ serial_line_received 32 [NUL, NUL, NUL, NUL] 0 4 "ab".toList "cde".toList
          = some ⟨RC_OK, ("ab".toList ++ "cde".toList).take (4 - 1) ++ [NUL], 4 - 1,
              "ab".toList.drop (4 - 1), "cde".toList.drop (4 - 1 - "ab".toList.length)⟩ :=
  ⟨by decide, by decide, by decide, by decide, by decide, by decide,
    serial_line_received_truncates 32 4 [NUL, NUL, NUL, NUL] "ab".toList "cde".toList
      (by decide) (by decide) (by decide) (by decide) (by decide) (by decide)⟩

/-- C9 as stated fails at the offset capacity - 1: with capacity 4 and offset 3
the guard `i > rx_buffer_max_size-1` lets the call through; it reads a byte
and returns `RC_OK`, or returns `RC_BAD` when no byte is available. -/
theorem serial_line_received_guard_counterexample :
    serial_line_received 32 [NUL, NUL, NUL, NUL] 3 4 "a".toList []
        = some ⟨RC_OK, [NUL, NUL, NUL, NUL], 4, [], []⟩
      ∧ serial_line_received 32 [NUL, NUL, NUL, NUL] 3 4 [] []
        = some ⟨RC_BAD, [NUL, NUL, NUL, NUL], 3, [], []⟩ := by
  decide

/-- C9, amended: for a capacity `C ≥ 1` and an offset strictly above `C - 1`,
`serial_line_received` returns `RC_INVALID_INPUT` at once: no byte is taken
from either port, buffer and offset are unchanged. -/
theorem serial_line_received_guard (size_bits C o : Nat) (buf hw sw : List Char)
    (hC : 1 ≤ C) (hsize : C < 2 ^ size_bits) (ho : o > C - 1) :
    serial_line_received size_bits buf o C hw sw = some ⟨RC_INVALID_INPUT, buf, o, hw, sw⟩ := by
  simp only [serial_line_received, max_size_pred size_bits C hC hsize]
  rw [if_pos ho]

/-- The guard of C9 with capacity 4 at the offset 4. -/
theorem serial_line_received_guard_witness :
    1 ≤ 4 ∧ 4 < 2 ^ 32 ∧ 4 > 4 - 1
      ∧ serial_line_received 32 [NUL, NUL, NUL, NUL] 4 4 "a".toList "b".toList
          = some ⟨RC_INVALID_INPUT, [NUL, NUL, NUL, NUL], 4, "a".toList, "b".toList⟩ :=
  ⟨by decide, by decide, by decide,
    serial_line_received_guard 32 4 4 [NUL, NUL, NUL, NUL] "a".toList "b".toList
      (by decide) (by decide) (by decide)⟩

theorem ite_ne_zero {P : Prop} [Decidable P] {a b : Nat} (ha : a ≠ 0) (hb : b ≠ 0) :
    (if P then a else b) ≠ 0 := by
  split <;> assumption

/-- Every code the resolver returns is non-zero, the undefined sentinel
included. -/
theorem ducky_key_to_hid_byte_ne_zero (key : List Char) : ducky_key_to_hid_byte key ≠ 0 := by
  unfold ducky_key_to_hid_byte
  repeat (refine ite_ne_zero (by decide) ?_)
  decide

theorem ducky_key_to_hid_byte_head (c : Char) (rest : List Char) (h : ¬ wordByte c) :
    ducky_key_to_hid_byte (c :: rest) = KEY_UNDEFINED_ERROR := by
  have h4 : c = NUL ∨ c = ' ' ∨ c = '\r' ∨ c = '\n' := by
    unfold wordByte at h
    by_contra hcon
    push_neg at hcon
    exact h hcon
  rcases h4 with rfl | rfl | rfl | rfl <;>
    simp [ducky_key_to_hid_byte, strcmp, byteAt, NUL]

theorem ducky_key_to_hid_byte_nil : ducky_key_to_hid_byte [] = KEY_UNDEFINED_ERROR := by
  decide

/-! ## The word counter on a line with a directive and an argument -/

theorem cstr_count_words_loop_mono (s : List Char) (len : Nat) :
    ∀ (fuel i n : Nat), n ≤ cstr_count_words_loop s len fuel i n := by
  intro fuel
  induction fuel with
  | zero => intro i n; simp [cstr_count_words_loop]
  | succ fuel ih =>
    intro i n
    rw [cstr_count_words_loop]
    split_ifs
    all_goals first
      | exact Nat.le_refl _
      | exact ih _ _
      | exact Nat.le_trans (Nat.le_succ n) (ih _ _)

/-- The loop steps over a run of word bytes without counting. -/
theorem cstr_count_words_loop_skip (s : List Char) (len : Nat) :
    ∀ (m fuel i n : Nat), (∀ j, i ≤ j → j < i + m → wordByte (byteAt s j)) → i + m ≤ len →
      cstr_count_words_loop s len (fuel + m) i n = cstr_count_words_loop s len fuel (i + m) n := by
  intro m
  induction m with
  | zero => intro fuel i n _ _; rfl
  | succ m ih =>
    intro fuel i n hw hlen
    have hi := hw i (Nat.le_refl _) (by omega)
    obtain ⟨h0, h1, h2, h3⟩ := hi
    have : fuel + (m + 1) = (fuel + m) + 1 := by omega
    rw [this, cstr_count_words_loop, if_pos (by omega), if_neg h0, if_pos ⟨h1, h2, h3⟩,
      ih fuel (i + 1) n (fun j hj1 hj2 => hw j (by omega) (by omega)) (by omega)]
    congr 1
    omega

/-- A line made of a word, one space and an argument that starts with a word
byte counts at least two words. -/
theorem cstr_count_words_two (D : List Char) (c : Char) (k : List Char) (hD : D ≠ [])
    (hword : ∀ d ∈ D, wordByte d) (hc : wordByte c) :
    2 ≤ cstr_count_words (D ++ ' ' :: c :: k) (D ++ ' ' :: c :: k).length := by
  obtain ⟨d0, D1, rfl⟩ := List.exists_cons_of_ne_nil hD
  have h0 : byteAt (d0 :: D1 ++ ' ' :: c :: k) 0 = d0 := rfl
  have hskip := cstr_count_words_loop_skip (d0 :: D1 ++ ' ' :: c :: k)
    (d0 :: D1 ++ ' ' :: c :: k).length D1.length (k.length + 3) 1 1
    (by
      intro j hj1 hj2
      have hj : j < (d0 :: D1).length := by simp; omega
      rw [byteAt_append_left _ _ _ hj]
      exact hword _ (byteAt_of_mem_index _ _ hj))
    (by simp; omega)
  have hlen : (d0 :: D1 ++ ' ' :: c :: k).length = k.length + 3 + D1.length := by
    simp; omega
  have hsp : byteAt (d0 :: D1 ++ ' ' :: c :: k) (1 + D1.length) = ' ' := by
    have := byteAt_append_right (d0 :: D1) (' ' :: c :: k) 0
    simpa [Nat.add_comm] using this
  have hprev : byteAt (d0 :: D1 ++ ' ' :: c :: k) (1 + D1.length - 1) ∈ d0 :: D1 := by
    have hj : 1 + D1.length - 1 < (d0 :: D1).length := by simp
    rw [byteAt_append_left _ _ _ hj]
    exact byteAt_of_mem_index _ _ hj
  have hnext : byteAt (d0 :: D1 ++ ' ' :: c :: k) (1 + D1.length + 1) = c := by
    have := byteAt_append_right (d0 :: D1) (' ' :: c :: k) 1
    simpa [Nat.add_comm, Nat.add_left_comm] using this
  have hp := hword _ hprev
  rw [cstr_count_words, h0, if_neg (hword d0 (List.mem_cons_self _ _)).1]
  conv => rhs; arg 3; rw [hlen]
  rw [hskip]
  have : k.length + 3 = (k.length + 2) + 1 := by omega
  rw [this, cstr_count_words_loop, if_pos (by rw [hlen]; omega), hsp, hnext]
  rw [if_neg (by decide), if_neg (by simp), if_neg (by
    rintro (h | h | h)
    · exact hp.2.1 h
    · exact hp.2.2.1 h
    · exact hp.2.2.2 h),
    if_neg (by
    rintro (h | h | h)
    · exact hc.2.1 h
    · exact hc.2.2.1 h
    · exact hc.2.2.2 h), if_neg hc.1]
  exact cstr_count_words_loop_mono _ _ _ _ _

theorem strstr_space_append (D : List Char) (k : List Char)
    (hD : ∀ d ∈ D, d ≠ NUL ∧ d ≠ ' ') : strstr_space (D ++ ' ' :: k) = some D.length := by
  induction D with
  | nil => simp [strstr_space, NUL]
  | cons d D ih =>
    have hd := hD d (List.mem_cons_self _ _)
    rw [List.cons_append, strstr_space, if_neg hd.1, if_neg hd.2,
      ih (fun e he => hD e (List.mem_cons_of_mem _ he))]
    rfl

/-- The argument of a line made of a word, one space and a non-empty rest is
that rest. -/
theorem second_argument_eq (D k : List Char) (hD : ∀ d ∈ D, d ≠ NUL ∧ d ≠ ' ')
    (h16 : D.length < 65536) (hk : k ≠ []) :
    second_argument (D ++ ' ' :: k) (D ++ ' ' :: k) 0 (D ++ ' ' :: k).length
      = some (D.length + 1, k) := by
  have hpos : 0 < k.length := List.length_pos.mpr hk
  have hdrop : List.drop (D.length + 1) (D ++ ' ' :: k) = k := by
    rw [List.drop_append, List.drop_succ_cons, List.drop_zero]
  rw [second_argument, strstr_space_append D k hD]
  simp only [Nat.zero_add, Nat.mod_eq_of_lt h16, List.length_append, List.length_cons]
  rw [if_neg (by omega), hdrop]

/-! ## Dispatch of the modifier directives -/

/-- A line that is a modifier directive, alone or followed by a space, reaches
the body of that directive with the line stored in `last_command`. -/
theorem interpreter_modifier_dispatch (size_bits cap fuel : Nat) (st : State)
    (D : List Char) (mods : List Nat) (hD : (D, mods) ∈ modifier_table)
    (rest : List Char) (hrest : rest = [] ∨ ∃ tl, rest = ' ' :: tl) (len n : Nat)
    (hn : cstr_count_words (D ++ rest) len = n + 1) :
    ducky_script_interpreter size_bits cap (fuel + 1) st (D ++ rest) len
      = some (modifier_combination mods n (D ++ rest) len
          { st with last_command := snprintf_s st.last_command cap (D ++ rest) }) := by
  rw [ducky_script_interpreter, hn]
  simp only [modifier_table, List.mem_cons, List.not_mem_nil, or_false] at hD
  rcases hrest with rfl | ⟨tl, rfl⟩ <;>
  (repeat' (rcases hD with hD | hD)) <;>
  simp [strncmp, strlen, byteAt, NUL, interpret_stored]

theorem modifier_table_word (D : List Char) (mods : List Nat) (hD : (D, mods) ∈ modifier_table) :
    D ≠ [] ∧ (∀ d ∈ D, wordByte d) ∧ D.length < 65536 := by
  have h : ∀ p ∈ modifier_table, p.1 ≠ [] ∧ (∀ d ∈ p.1, wordByte d) ∧ p.1.length < 65536 := by
    decide
  exact h _ hD

/-- A modifier directive with an argument presses its modifiers, then the
code the resolver gives for the argument, whatever that code is, then
releases all keys. -/
theorem interpreter_modifier_argument (size_bits cap fuel : Nat) (st : State)
    (D : List Char) (mods : List Nat) (hD : (D, mods) ∈ modifier_table)
    (c : Char) (k : List Char) (hc : wordByte c) :
    ducky_script_interpreter size_bits cap (fuel + 1) st (D ++ ' ' :: c :: k)
        (D ++ ' ' :: c :: k).length
      = some (RC_OK, { st with last_command := snprintf_s st.last_command cap (D ++ ' ' :: c :: k) },
          mods.map Event.press
            ++ [Event.press (ducky_key_to_hid_byte (c :: k)), Event.releaseAll]) := by
  obtain ⟨hne, hword, h16⟩ := modifier_table_word D mods hD
  have h2 := cstr_count_words_two D c k hne hword hc
  obtain ⟨n, hn⟩ : ∃ n, cstr_count_words (D ++ ' ' :: c :: k) (D ++ ' ' :: c :: k).length
      = (n + 1) + 1 := ⟨_, (Nat.sub_add_cancel h2).symm⟩
  rw [interpreter_modifier_dispatch size_bits cap fuel st D mods hD _ (Or.inr ⟨_, rfl⟩) _ _ hn,
    modifier_combination, if_pos (Nat.succ_pos n),
    second_argument_eq D (c :: k) (fun d hd => ⟨(hword d hd).1, (hword d hd).2.1⟩) h16
      (List.cons_ne_nil _ _)]
  simp [ducky_key_to_hid_byte_ne_zero]

theorem interpreter_modifier_alone (size_bits cap fuel : Nat) (st : State)
    (D : List Char) (mods : List Nat) (hD : (D, mods) ∈ modifier_table) :
    ducky_script_interpreter size_bits cap (fuel + 1) st D D.length
      = some (RC_OK, { st with last_command := snprintf_s st.last_command cap D },
          mods.map Event.press ++ [Event.releaseAll]) := by
  have hcount : ∀ p ∈ modifier_table, cstr_count_words p.1 p.1.length = 0 + 1 := by decide
  have h := interpreter_modifier_dispatch size_bits cap fuel st D mods hD [] (Or.inl rfl)
    D.length 0 (by simpa using hcount _ hD)
  rw [List.append_nil] at h
  rw [h, modifier_combination, if_neg (by decide)]

/-! ## Numeric directives -/

/-- The digits of `v`, as the interpreter hands them to `safe_atoi_u32`. -/
theorem safe_atoi_u32_toDigits (size_bits v : Nat) (hbits : 32 ≤ size_bits)
    (hv : v ≤ 4294967295) :
    safe_atoi_u32 size_bits (Nat.toDigits 10 v) (strlen (Nat.toDigits 10 v)) true
      = (RC_OK, some v) := by
  obtain ⟨_, hdig, _, _⟩ := toDigits_spec v
  have h := safe_atoi_u32_decimal size_bits v [] hbits hv rfl
  rw [List.append_nil] at h
  rw [strlen_of_no_nul _ (fun c hc => (digit_wordByte c (hdig c hc)).1), h]

theorem toDigits_cons (v : Nat) : ∃ c k, Nat.toDigits 10 v = c :: k ∧ wordByte c := by
  obtain ⟨hne, hdig, _, _⟩ := toDigits_spec v
  obtain ⟨c, k, hck⟩ := List.exists_cons_of_ne_nil hne
  exact ⟨c, k, hck, digit_wordByte c (hdig c (by rw [hck]; exact List.mem_cons_self _ _))⟩

theorem interpreter_repeat_dispatch (size_bits cap fuel : Nat) (st : State)
    (tl : List Char) (len n : Nat)
    (hn : cstr_count_words ("REPEAT".toList ++ ' ' :: tl) len = n + 1) :
    ducky_script_interpreter size_bits cap (fuel + 1) st ("REPEAT".toList ++ ' ' :: tl) len
      = repeat_directive
          (fun s =>
            (ducky_script_interpreter size_bits cap fuel s s.last_command
              (strlen s.last_command % 65536)).map fun r => r.2)
          size_bits fuel n ("REPEAT".toList ++ ' ' :: tl) len st := by
  rw [ducky_script_interpreter, hn]
  simp [strncmp, strlen, byteAt, NUL]

theorem interpreter_delay_dispatch (size_bits cap fuel : Nat) (st : State)
    (tl : List Char) (len n : Nat)
    (hn : cstr_count_words ("DELAY".toList ++ ' ' :: tl) len = n + 1) :
    ducky_script_interpreter size_bits cap (fuel + 1) st ("DELAY".toList ++ ' ' :: tl) len
      = some (delay_directive size_bits n ("DELAY".toList ++ ' ' :: tl) len
          { st with last_command := snprintf_s st.last_command cap ("DELAY".toList ++ ' ' :: tl) }) := by
  rw [ducky_script_interpreter, hn]
  simp [strncmp, strlen, byteAt, NUL, interpret_stored]

/-- With a count of 256 or more the `uint8_t` counter of the `REPEAT` loop
never reaches the count: the loop has no exit. -/
theorem repeat_loop_no_exit (body : State → Option (State × List Event)) (n : Nat)
    (hn : 256 ≤ n) : ∀ (fuel i : Nat) (st : State) (tr : List Event), i < 256 →
      repeat_loop body fuel i n st tr = none := by
  intro fuel
  induction fuel with
  | zero => intro i st tr _; rfl
  | succ fuel ih =>
    intro i st tr hi
    rw [repeat_loop, if_pos (by omega)]
    cases body st with
    | none => rfl
    | some r => exact ih _ _ _ (Nat.mod_lt _ (by norm_num))

/-- C1, at the failing inputs: after a command has been stored, `REPEAT n`
with any count from 256 up (with a `size_t` of at least 32 bits, so that the
count is parsed as written) does not return, whatever fuel the interpreter is
given: the loop counter is a `uint8_t` and wraps to 0 after 255. -/
theorem repeat_large_count_never_returns (size_bits cap fuel n : Nat) (st : State)
    (hbits : 32 ≤ size_bits) (hn : 256 ≤ n) (hmax : n ≤ 4294967295)
    (hlast : byteAt st.last_command 0 ≠ NUL) :
    ducky_script_interpreter size_bits cap fuel st
      ("REPEAT".toList ++ ' ' :: Nat.toDigits 10 n)
      ("REPEAT".toList ++ ' ' :: Nat.toDigits 10 n).length = none := by
  cases fuel with
  | zero => rfl
  | succ fuel =>
    obtain ⟨c, k, hck, hc⟩ := toDigits_cons n
    have hatoi := safe_atoi_u32_toDigits size_bits n hbits hmax
    rw [hck] at hatoi ⊢
    have h2 := cstr_count_words_two "REPEAT".toList c k (by decide) (by decide) hc
    obtain ⟨m, hm⟩ : ∃ m, cstr_count_words ("REPEAT".toList ++ ' ' :: c :: k)
        ("REPEAT".toList ++ ' ' :: c :: k).length = (m + 1) + 1 :=
      ⟨_, (Nat.sub_add_cancel h2).symm⟩
    rw [interpreter_repeat_dispatch size_bits cap fuel st _ _ _ hm, repeat_directive,
      if_neg (Nat.succ_ne_zero m), if_neg hlast,
      second_argument_eq "REPEAT".toList (c :: k) (by decide) (by decide)
        (List.cons_ne_nil _ _)]
    simp only [hatoi]
    rw [if_neg (by simp), Option.getD_some, repeat_loop_no_exit _ n hn _ _ _ _ (by norm_num)]

/-- The endless loop of C1 for `REPEAT 256` after `STRING hi`. -/
theorem repeat_large_count_never_returns_witness :
    32 ≤ 32 ∧ 256 ≤ 256 ∧ 256 ≤ 4294967295
      ∧ byteAt (State.mk 100 "STRING hi".toList).last_command 0 ≠ NUL
      ∧ ducky_script_interpreter 32 64 1000 (State.mk 100 "STRING hi".toList)
          ("REPEAT".toList ++ ' ' :: Nat.toDigits 10 256)
          ("REPEAT".toList ++ ' ' :: Nat.toDigits 10 256).length = none :=
  ⟨by decide, by decide, by decide, by decide,
    repeat_large_count_never_returns 32 64 1000 256 (State.mk 100 "STRING hi".toList)
      (by decide) (by decide) (by decide) (by decide)⟩

/-! ## Claims C2, C3 and C10 -/

/-- C2, at the failing inputs: when the argument of a modifier directive
starts with a word byte and the resolver answers `KEY_UNDEFINED_ERROR` for it
(as for `CTRL-ALT ZZZ`), the interpreter presses the modifiers and then
presses the code `KEY_UNDEFINED_ERROR` = 0x03 itself before releasing: the
test in front of the key press is `key != 0`, and the sentinel is not 0. -/
theorem modifier_presses_undefined_sentinel (size_bits cap fuel : Nat) (st : State)
    (D : List Char) (mods : List Nat) (c : Char) (k : List Char)
    (hD : (D, mods) ∈ modifier_table) (hc : wordByte c)
    (hund : ducky_key_to_hid_byte (c :: k) = KEY_UNDEFINED_ERROR) :
    ducky_script_interpreter size_bits cap (fuel + 1) st (D ++ ' ' :: c :: k)
        (D ++ ' ' :: c :: k).length
      = some (RC_OK, { st with last_command := snprintf_s st.last_command cap (D ++ ' ' :: c :: k) },
          mods.map Event.press ++ [Event.press 0x03, Event.releaseAll]) := by
  rw [interpreter_modifier_argument size_bits cap fuel st D mods hD c k hc, hund]
  rfl

/-- The key press of C2 for the line `CTRL-ALT ZZZ`. -/
theorem modifier_presses_undefined_sentinel_witness :
    ("CTRL-ALT".toList, [ MOD_CONTROL_LEFT, MOD_ALT_LEFT]) ∈ modifier_table ∧ wordByte 'Z'
      ∧ ducky_key_to_hid_byte "ZZZ".toList = KEY_UNDEFINED_ERROR
      ∧ ducky_script_interpreter 32 64 1 State.init "CTRL-ALT ZZZ".toList 12
        = some (RC_OK, State.mk 100 "CTRL-ALT ZZZ".toList,
            [Event.press 0xE0, Event.press 0xE2, Event.press 0x03, Event.releaseAll]) :=
  ⟨by decide, by decide, by decide,
    modifier_presses_undefined_sentinel 32 64 0 State.init "CTRL-ALT".toList
      [ MOD_CONTROL_LEFT, MOD_ALT_LEFT] 'Z' "ZZ".toList (by decide) (by decide) (by decide)⟩

/-- C3: for each modifier directive `D` of the table and every key name `k`
the resolver recognizes, the line `D k` emits the presses of the modifiers of
`D` in the listed order, then the press of the code of `k`, then release-all,
and returns `RC_OK`; the line `D` alone emits the modifier presses and
release-all and returns `RC_OK`. -/
theorem modifier_combination_order (size_bits cap fuel : Nat) (st : State)
    (D : List Char) (mods : List Nat) (hD : (D, mods) ∈ modifier_table) :
    (∀ k : List Char, ducky_key_to_hid_byte k ≠ KEY_UNDEFINED_ERROR →
      ducky_script_interpreter size_bits cap (fuel + 1) st (D ++ ' ' :: k) (D ++ ' ' :: k).length
        = some (RC_OK, { st with last_command := snprintf_s st.last_command cap (D ++ ' ' :: k) },
            mods.map Event.press ++ [Event.press (ducky_key_to_hid_byte k), Event.releaseAll]))
    ∧ ducky_script_interpreter size_bits cap (fuel + 1) st D D.length
        = some (RC_OK, { st with last_command := snprintf_s st.last_command cap D },
            mods.map Event.press ++ [Event.releaseAll]) := by
  refine ⟨?_, interpreter_modifier_alone size_bits cap fuel st D mods hD⟩
  intro k hk
  cases k with
  | nil => exact absurd ducky_key_to_hid_byte_nil hk
  | cons c k =>
    by_cases hc : wordByte c
    · exact interpreter_modifier_argument size_bits cap fuel st D mods hD c k hc
    · exact absurd (ducky_key_to_hid_byte_head c k hc) hk

/-- The order of C3 for the lines `CTRL-ALT DEL` and `CTRL-ALT`. -/
theorem modifier_combination_order_witness :
    ("CTRL-ALT".toList, [ MOD_CONTROL_LEFT, MOD_ALT_LEFT]) ∈ modifier_table
      ∧ ducky_key_to_hid_byte "DEL".toList ≠ KEY_UNDEFINED_ERROR
      ∧ ducky_script_interpreter 32 64 1 State.init "CTRL-ALT DEL".toList 12
        = some (RC_OK, State.mk 100 "CTRL-ALT DEL".toList,
            [Event.press 0xE0, Event.press 0xE2, Event.press KEY_DELETE, Event.releaseAll])
      ∧ ducky_script_interpreter 32 64 1 State.init "CTRL-ALT".toList 8
        = some (RC_OK, State.mk 100 "CTRL-ALT".toList,
            [Event.press 0xE0, Event.press 0xE2, Event.releaseAll]) :=
  ⟨by decide, by decide,
    (modifier_combination_order 32 64 0 State.init "CTRL-ALT".toList
      [ MOD_CONTROL_LEFT, MOD_ALT_LEFT] (by decide)).1 "DEL".toList (by decide),
    (modifier_combination_order 32 64 0 State.init "CTRL-ALT".toList
      [ MOD_CONTROL_LEFT, MOD_ALT_LEFT] (by decide)).2⟩

/-- The `DELAY` directive with a count written in decimal. -/
theorem interpreter_delay (size_bits cap fuel n : Nat) (st : State)
    (hbits : 32 ≤ size_bits) (hn : n ≤ 4294967295) :
    ducky_script_interpreter size_bits cap (fuel + 1) st
        ("DELAY".toList ++ ' ' :: Nat.toDigits 10 n)
        ("DELAY".toList ++ ' ' :: Nat.toDigits 10 n).length
      = some (RC_CUSTOM_DELAY,
          { st with last_command :=
              snprintf_s st.last_command cap ("DELAY".toList ++ ' ' :: Nat.toDigits 10 n) },
          [Event.delay n]) := by
  obtain ⟨c, k, hck, hc⟩ := toDigits_cons n
  have hatoi := safe_atoi_u32_toDigits size_bits n hbits hn
  rw [hck] at hatoi ⊢
  have h2 := cstr_count_words_two "DELAY".toList c k (by decide) (by decide) hc
  obtain ⟨m, hm⟩ : ∃ m, cstr_count_words ("DELAY".toList ++ ' ' :: c :: k)
      ("DELAY".toList ++ ' ' :: c :: k).length = (m + 1) + 1 :=
    ⟨_, (Nat.sub_add_cancel h2).symm⟩
  rw [interpreter_delay_dispatch size_bits cap fuel st _ _ _ hm, delay_directive,
    if_neg (Nat.succ_ne_zero m),
    second_argument_eq "DELAY".toList (c :: k) (by decide) (by decide) (List.cons_ne_nil _ _)]
  simp only [hatoi]
  rw [if_neg (by simp), Option.getD_some]

/-- C10: with a `size_t` of at least 32 bits, `DELAY n` for `n` in
[0, 4294967295] waits once for `n`, emits no key event and returns
`RC_CUSTOM_DELAY`; an iteration of `loop` that received a line appends
`delay(default_delay)` to what the interpreter did exactly when the
interpreter's result is not `RC_CUSTOM_DELAY`; so the cycle of `DELAY 50`
waits 50 only and the following cycle of `STRING x` types `x` and then waits
the default 100. -/
theorem delay_replaces_default_delay (size_bits cap fuel n : Nat) (st : State)
    (hbits : 32 ≤ size_bits) (hn : n ≤ 4294967295) :
    ducky_script_interpreter size_bits cap (fuel + 1) st
        ("DELAY".toList ++ ' ' :: Nat.toDigits 10 n)
        ("DELAY".toList ++ ' ' :: Nat.toDigits 10 n).length
      = some (RC_CUSTOM_DELAY,
          { st with last_command :=
              snprintf_s st.last_command cap ("DELAY".toList ++ ' ' :: Nat.toDigits 10 n) },
          [Event.delay n])
    ∧ (∀ (d : Device) (r : Received) (rc : Int) (st1 : State) (ev : List Event),
        serial_line_received size_bits d._rx_buffer d._rx_buffer_received_bytes cap
            d.serial d.swserial = some r →
        r.rc = RC_OK →
        ducky_script_interpreter size_bits cap fuel d.st r.my_rx_buffer
            r.rx_buffer_received_bytes = some (rc, st1, ev) →
        (rc ≠ RC_CUSTOM_DELAY →
          (loop size_bits cap fuel d).map (fun x => x.trace)
            = some (d.trace ++ ev ++ [Event.delay st1.default_delay]))
        ∧ (rc = RC_CUSTOM_DELAY →
          (loop size_bits cap fuel d).map (fun x => x.trace) = some (d.trace ++ ev)))
    ∧ (loop 32 64 1
          ⟨List.replicate 64 NUL, 0, "DELAY 50\nSTRING x\n".toList, [], State.init, []⟩).map
          (fun x => x.trace) = some [Event.delay 50]
    ∧ ((loop 32 64 1
          ⟨List.replicate 64 NUL, 0, "DELAY 50\nSTRING x\n".toList, [], State.init, []⟩).bind
          (loop 32 64 1)).map (fun x => x.trace)
        = some [Event.delay 50, Event.print 'x', Event.delay 100] := by
  refine ⟨interpreter_delay size_bits cap fuel n st hbits hn, ?_, by decide, by decide⟩
  intro d r rc st1 ev hr hrc hint
  constructor
  · intro hne
    simp [loop, hr, hrc, hint, hne]
  · intro heq
    simp [loop, hr, hrc, hint, heq]

/-- The directive of C10 for the line `DELAY 50`. -/
theorem delay_replaces_default_delay_witness :
    32 ≤ 32 ∧ 50 ≤ 4294967295
      ∧ ducky_script_interpreter 32 64 (0 + 1) State.init
          ("DELAY".toList ++ ' ' :: Nat.toDigits 10 50)
          ("DELAY".toList ++ ' ' :: Nat.toDigits 10 50).length
        = some (RC_CUSTOM_DELAY,
            State.mk 100 (snprintf_s State.init.last_command 64
              ("DELAY".toList ++ ' ' :: Nat.toDigits 10 50)),
            [Event.delay 50]) :=
  ⟨by decide, by decide, (delay_replaces_default_delay 32 64 0 50 State.init
    (by decide) (by decide)).1⟩

/-- The example of the specification: `REPEAT 3` after `STRING hi` types `hi`
three times; counts up to 255 are within reach of the loop counter. -/
theorem repeat_three_example :
    ducky_script_interpreter 32 64 5 (State.mk 100 "STRING hi".toList) "REPEAT 3".toList 8
      = some (RC_OK, State.mk 100 "STRING hi".toList,
          [Event.print 'h', Event.print 'i', Event.print 'h', Event.print 'i',
            Event.print 'h', Event.print 'i']) := by
  decide

/-! ## The key name resolver as a table -/

/-- The `if` chain of `ducky_key_to_hid_byte` is the first-match search of
`key_table`. -/
theorem ducky_key_to_hid_byte_eq_lookup (key : List Char) :
    ducky_key_to_hid_byte key = lookup_key key key_table := by
  simp only [ducky_key_to_hid_byte, key_table, lookup_key, List.mem_cons, List.mem_singleton,
    List.not_mem_nil, or_false, exists_eq_or_imp, exists_eq_left]

theorem char_eq_of_toNat_eq (a b : Char) (h : a.toNat = b.toNat) : a = b := by
  rw [← Char.ofNat_toNat a, ← Char.ofNat_toNat b, h]

/-- On strings without NUL `strcmp` returns 0 exactly for equal strings. -/
theorem strcmp_eq_zero_iff (key : List Char) (hkey : ∀ c ∈ key, c ≠ NUL) :
    ∀ P : List Char, (∀ c ∈ P, c ≠ NUL) → (strcmp key P = 0 ↔ key = P) := by
  induction key with
  | nil =>
    intro P hP
    cases P with
    | nil => simp [strcmp, byteAt]
    | cons p P =>
      have hp : NUL ≠ p := fun h => hP p (List.mem_cons_self _ _) h.symm
      have hne : (NUL.toNat : Int) - (p.toNat : Int) ≠ 0 := by
        intro h
        apply hp
        apply char_eq_of_toNat_eq
        omega
      simp [strcmp, byteAt, hp, hne]
  | cons c key ih =>
    intro P hP
    have hc : c ≠ NUL := hkey c (List.mem_cons_self _ _)
    cases P with
    | nil =>
      have hne : (c.toNat : Int) - (NUL.toNat : Int) ≠ 0 := by
        intro h
        apply hc
        apply char_eq_of_toNat_eq
        omega
      simp [strcmp, byteAt, hc, hne]
    | cons p P =>
      by_cases hcp : c = p
      · subst hcp
        have := ih (fun d hd => hkey d (List.mem_cons_of_mem _ hd)) P
          (fun d hd => hP d (List.mem_cons_of_mem _ hd))
        simp [strcmp, byteAt, hc, this]
      · have hne : (c.toNat : Int) - (p.toNat : Int) ≠ 0 := by
          intro h
          apply hcp
          apply char_eq_of_toNat_eq
          omega
        simp [strcmp, byteAt, hcp, hne]


/-- In a table without the sentinel among its codes, the search answers the
sentinel exactly when no name of the table compares equal. -/
theorem lookup_key_sentinel_iff (key : List Char) :
    ∀ table : List (List (List Char) × Nat), (∀ e ∈ table, e.2 ≠ KEY_UNDEFINED_ERROR) →
      (lookup_key key table = KEY_UNDEFINED_ERROR
        ↔ ∀ e ∈ table, ∀ P ∈ e.1, strcmp key P ≠ 0) := by
  intro table
  induction table with
  | nil => intro _; simp [lookup_key]
  | cons e table ih =>
    intro hcodes
    obtain ⟨names, code⟩ := e
    have hcode : code ≠ KEY_UNDEFINED_ERROR := hcodes (names, code) (List.mem_cons_self _ _)
    have ih2 := ih (fun e he => hcodes e (List.mem_cons_of_mem _ he))
    rw [lookup_key]
    by_cases hm : ∃ P ∈ names, strcmp key P = 0
    · rw [if_pos hm]
      constructor
      · intro h; exact absurd h hcode
      · intro h
        obtain ⟨P, hP, h0⟩ := hm
        exact absurd h0 (h (names, code) (List.mem_cons_self _ _) P hP)
    · rw [if_neg hm, ih2]
      constructor
      · intro h e he
        rcases List.mem_cons.mp he with rfl | he
        · intro P hP h0
          exact hm ⟨P, hP, h0⟩
        · exact h e he
      · intro h e he
        exact h e (List.mem_cons_of_mem _ he)

theorem key_table_codes : ∀ e ∈ key_table, e.2 ≠ KEY_UNDEFINED_ERROR := by decide

theorem key_names_no_nul : ∀ P ∈ key_names, ∀ c ∈ P, c ≠ NUL := by decide

/-- For a name without NUL byte the resolver answers the sentinel exactly
when the name is not in its table. -/
theorem ducky_key_to_hid_byte_sentinel_iff (key : List Char) (hkey : ∀ c ∈ key, c ≠ NUL) :
    ducky_key_to_hid_byte key = KEY_UNDEFINED_ERROR ↔ key ∉ key_names := by
  rw [ducky_key_to_hid_byte_eq_lookup, lookup_key_sentinel_iff key key_table key_table_codes]
  constructor
  · intro h hmem
    obtain ⟨e, he, hP⟩ := List.mem_flatMap.mp hmem
    exact h e he key hP ((strcmp_eq_zero_iff key hkey key hkey).mpr rfl)
  · intro h e he P hP h0
    have hPn : P ∈ key_names := List.mem_flatMap.mpr ⟨e, he, hP⟩
    have := (strcmp_eq_zero_iff key hkey P (key_names_no_nul P hPn)).mp h0
    exact h (this ▸ hPn)

theorem key_names_recognized : ∀ P ∈ key_names, ducky_key_to_hid_byte P ≠ KEY_UNDEFINED_ERROR :=
  fun P hP h =>
    (ducky_key_to_hid_byte_sentinel_iff P (key_names_no_nul P hP)).mp h hP

/-- C19: for every name (a text without NUL byte) `ducky_key_to_hid_byte`
returns `KEY_UNDEFINED_ERROR` (0x03) exactly when the name is not one of the
names of its table, compared byte for byte (the table has each letter in both
cases); no name of the table maps to the sentinel; `ZZZ`, `F10`, `F11`, `F12`
and `enter` give the sentinel. -/
theorem resolver_sentinel_iff_unknown (key : List Char) (hkey : ∀ c ∈ key, c ≠ NUL) :
    (ducky_key_to_hid_byte key = KEY_UNDEFINED_ERROR ↔ key ∉ key_names)
      ∧ KEY_UNDEFINED_ERROR = 0x03
      ∧ (∀ P ∈ key_names, ducky_key_to_hid_byte P ≠ KEY_UNDEFINED_ERROR)
      ∧ (∀ P ∈ ["ZZZ".toList, "F10".toList, "F11".toList, "F12".toList, "enter".toList],
          ducky_key_to_hid_byte P = KEY_UNDEFINED_ERROR) :=
  ⟨ducky_key_to_hid_byte_sentinel_iff key hkey, rfl, key_names_recognized, by decide⟩

/-- The equivalence of C19 at the unknown name `ZZZ`. -/
theorem resolver_sentinel_iff_unknown_witness :
    (∀ c ∈ "ZZZ".toList, c ≠ NUL)
      ∧ (ducky_key_to_hid_byte "ZZZ".toList = KEY_UNDEFINED_ERROR ↔ "ZZZ".toList ∉ key_names) :=
  ⟨by decide, (resolver_sentinel_iff_unknown "ZZZ".toList (by decide)).1⟩

/-- C20: both names of every alias pair of the resolver give the same code,
which is not the sentinel (`PLAY`, `PAUSE` and `MEDIA_PLAY_PAUSE` all three),
and so do the lower-case and the upper-case name of each letter a..z. -/
theorem resolver_alias_equivalence :
    (∀ p ∈ [("LEFT".toList, "LEFTARROW".toList), ("RIGHT".toList, "RIGHTARROW".toList),
        ("DOWN".toList, "DOWNARROW".toList), ("UP".toList, "UPARROW".toList),
        ("ESC".toList, "ESCAPE".toList), ("DEL".toList, "DELETE".toList),
        ("MENU".toList, "APP".toList), ("NUMLOCK".toList, "NUM_LOCK".toList),
        ("CAPSLOCK".toList, "CAPS_LOCK".toList), ("SCROLLLOCK".toList, "SCROLL_LOCK".toList),
        ("STOP".toList, "MEDIA_STOP".toList), ("MUTE".toList, "MEDIA_MUTE".toList),
        ("VOLUMEUP".toList, "MEDIA_VOLUME_INC".toList),
        ("VOLUMEDOWN".toList, "MEDIA_VOLUME_DEC".toList),
        ("PLAY".toList, "PAUSE".toList), ("PAUSE".toList, "MEDIA_PLAY_PAUSE".toList)],
      ducky_key_to_hid_byte p.1 = ducky_key_to_hid_byte p.2
        ∧ ducky_key_to_hid_byte p.1 ≠ KEY_UNDEFINED_ERROR)
    ∧ (∀ i < 26, ducky_key_to_hid_byte [Char.ofNat (97 + i)]
          = ducky_key_to_hid_byte [Char.ofNat (65 + i)]
        ∧ ducky_key_to_hid_byte [Char.ofNat (97 + i)] ≠ KEY_UNDEFINED_ERROR
        ∧ ducky_key_to_hid_byte [Char.ofNat (97 + i)] = KEY_A + i) := by
  constructor
  · decide
  · decide

/-! ## What every call of the interpreter does first -/

theorem cstr_count_words_pos (s : List Char) (len : Nat) (h : byteAt s 0 ≠ NUL) :
    1 ≤ cstr_count_words s len := by
  rw [cstr_count_words, if_neg h]
  exact cstr_count_words_loop_mono _ _ _ _ _

/-- A line without NUL byte that is shorter than the buffer is stored whole. -/
theorem snprintf_s_eq (old line : List Char) (size : Nat) (hnul : ∀ c ∈ line, c ≠ NUL)
    (hlen : line.length < size) : snprintf_s old size line = line := by
  rw [snprintf_s, if_neg (by omega), strlen_of_no_nul line hnul, List.take_length,
    List.take_of_length_le (by omega)]

theorem modifier_combination_state (mods : List Nat) (argc : Nat) (ptr_cmd : List Char)
    (len : Nat) (st : State) : (modifier_combination mods argc ptr_cmd len st).2.1 = st := by
  unfold modifier_combination
  split_ifs
  · split <;> rfl
  · rfl

theorem delay_directive_state (size_bits argc : Nat) (ptr_cmd : List Char)
    (len : Nat) (st : State) : (delay_directive size_bits argc ptr_cmd len st).2.1 = st := by
  unfold delay_directive
  split_ifs
  · rfl
  · split
    · rfl
    · split
      split_ifs <;> rfl

theorem string_directive_state (argc : Nat) (ptr_cmd : List Char)
    (len : Nat) (st : State) : (string_directive argc ptr_cmd len st).2.1 = st := by
  unfold string_directive
  split_ifs
  · rfl
  · split <;> rfl

theorem string_delay_directive_state (size_bits argc : Nat) (ptr_cmd : List Char)
    (len : Nat) (st : State) (r : Int × State × List Event)
    (h : string_delay_directive size_bits argc ptr_cmd len st = some r) : r.2.1 = st := by
  unfold string_delay_directive at h
  split_ifs at h
  · cases h; rfl
  · split at h
    · cases h; rfl
    · split at h
      · cases h
      · split at h
        split_ifs at h
        · cases h; rfl
        · split at h <;> (cases h; rfl)

theorem default_delay_directive_last_command (size_bits argc : Nat) (ptr_cmd : List Char)
    (len : Nat) (st : State) :
    (default_delay_directive size_bits argc ptr_cmd len st).2.1.last_command
      = st.last_command := by
  unfold default_delay_directive
  split_ifs
  · rfl
  · split
    · rfl
    · split
      split_ifs <;> rfl

theorem option_ite_pred {α : Type} (Q : Option α → Prop) (c : Prop) [Decidable c]
    (a b : Option α) (ha : c → Q a) (hb : ¬ c → Q b) : Q (if c then a else b) := by
  split
  · exact ha ‹_›
  · exact hb ‹_›

/-- None of the directives handled after the store touches `last_command`. -/
theorem interpret_stored_last_command (size_bits argc : Nat) (ptr_cmd : List Char)
    (len : Nat) (st : State) (r : Int × State × List Event)
    (h : interpret_stored size_bits argc ptr_cmd len st = some r) :
    r.2.1.last_command = st.last_command := by
  revert r
  unfold interpret_stored
  have step := option_ite_pred
    (fun x : Option (Int × State × List Event) =>
      ∀ r, x = some r → r.2.1.last_command = st.last_command)
  refine step _ _ _
    (fun _ r h => by cases h; exact default_delay_directive_last_command _ _ _ _ _) (fun _ => ?_)
  refine step _ _ _ (fun _ r h => by cases h; rw [delay_directive_state]) (fun _ => ?_)
  refine step _ _ _ (fun _ r h => by rw [string_delay_directive_state _ _ _ _ _ _ h])
    (fun _ => ?_)
  refine step _ _ _ (fun _ r h => by cases h; rw [string_directive_state]) (fun _ => ?_)
  iterate 9
    refine step _ _ _
      (fun _ r h => by cases h; first | rfl | rw [modifier_combination_state]) (fun _ => ?_)
  exact step (ducky_key_to_hid_byte ptr_cmd = KEY_UNDEFINED_ERROR) _ _
    (fun _ r h => by cases h; rfl) (fun _ r h => by cases h; rfl)

/-- Apart from `STRING_DELAY`, whose search for the end of the delay token may
never end, every directive handled after the store returns. -/
theorem interpret_stored_returns (size_bits argc : Nat) (ptr_cmd : List Char)
    (len : Nat) (st : State)
    (h : strncmp ptr_cmd "STRING_DELAY".toList (strlen "STRING_DELAY".toList) ≠ 0) :
    ∃ r, interpret_stored size_bits argc ptr_cmd len st = some r := by
  unfold interpret_stored
  have step := option_ite_pred
    (fun x : Option (Int × State × List Event) => ∃ r, x = some r)
  refine step _ _ _ (fun _ => ⟨_, rfl⟩) (fun _ => ?_)
  refine step _ _ _ (fun _ => ⟨_, rfl⟩) (fun _ => ?_)
  refine step _ _ _ (fun hc => absurd hc h) (fun _ => ?_)
  iterate 10 refine step _ _ _ (fun _ => ⟨_, rfl⟩) (fun _ => ?_)
  exact step (ducky_key_to_hid_byte ptr_cmd = KEY_UNDEFINED_ERROR) _ _
    (fun _ => ⟨_, rfl⟩) (fun _ => ⟨_, rfl⟩)

/-- A non-empty line that is neither a comment nor a `REPEAT` is stored in
`last_command` and handed to the remaining directives. -/
theorem interpreter_after_store (size_bits cap fuel : Nat) (st : State) (line : List Char)
    (len : Nat) (h0 : byteAt line 0 ≠ NUL)
    (hrem : strncmp line "REM".toList (strlen "REM".toList) ≠ 0)
    (hsl : strncmp line "//".toList (strlen "//".toList) ≠ 0)
    (hrep : strncmp line "REPEAT".toList (strlen "REPEAT".toList) ≠ 0) :
    ducky_script_interpreter size_bits cap (fuel + 1) st line len
      = interpret_stored size_bits (cstr_count_words line len - 1) line len
          { st with last_command := snprintf_s st.last_command cap line } := by
  have hcount : cstr_count_words line len ≠ 0 := by
    have := cstr_count_words_pos line len h0
    omega
  rw [ducky_script_interpreter, if_neg hcount]
  simp only [hrem, hsl, hrep, or_self, if_false]

theorem stored_directive_not_comment (D : List Char) (hD : D ∈ stored_directives)
    (rest : List Char) :
    byteAt (D ++ rest) 0 ≠ NUL
      ∧ strncmp (D ++ rest) "REM".toList (strlen "REM".toList) ≠ 0
      ∧ strncmp (D ++ rest) "//".toList (strlen "//".toList) ≠ 0
      ∧ strncmp (D ++ rest) "REPEAT".toList (strlen "REPEAT".toList) ≠ 0 := by
  simp only [stored_directives, directive_prefixes, List.drop_succ_cons, List.drop_zero,
    List.mem_cons, List.not_mem_nil, or_false] at hD
  (repeat' (rcases hD with hD | hD)) <;>
    simp [strncmp, strlen, byteAt, NUL]

/-! ## Claims C11 to C14 and C18 -/

/-- A line stored in `last_command` keeps it through the rest of the call. -/
theorem interpreter_stored_line (size_bits cap fuel : Nat) (st : State) (D rest : List Char)
    (len : Nat) (hD : D ∈ stored_directives) (hnul : ∀ c ∈ D ++ rest, c ≠ NUL)
    (hlen : (D ++ rest).length < cap) (r : Int × State × List Event)
    (h : ducky_script_interpreter size_bits cap (fuel + 1) st (D ++ rest) len = some r) :
    r.2.1.last_command = D ++ rest := by
  obtain ⟨h0, hrem, hsl, hrep⟩ := stored_directive_not_comment D hD rest
  rw [interpreter_after_store size_bits cap fuel st _ len h0 hrem hsl hrep] at h
  rw [interpret_stored_last_command _ _ _ _ _ _ h]
  exact snprintf_s_eq _ _ _ hnul hlen

theorem interpreter_stored_returns (size_bits cap fuel : Nat) (st : State) (D rest : List Char)
    (len : Nat) (hD : D ∈ stored_directives)
    (hsd : strncmp (D ++ rest) "STRING_DELAY".toList (strlen "STRING_DELAY".toList) ≠ 0) :
    ∃ r, ducky_script_interpreter size_bits cap (fuel + 1) st (D ++ rest) len = some r := by
  obtain ⟨h0, hrem, hsl, hrep⟩ := stored_directive_not_comment D hD rest
  rw [interpreter_after_store size_bits cap fuel st _ len h0 hrem hsl hrep]
  exact interpret_stored_returns _ _ _ _ _ hsd

/-- C11: for every line without NUL byte, shorter than the buffer, that
begins with one of the directives tested after `REM`, `//` and `REPEAT`,
whenever the interpreter returns, with whatever result, `last_command` is that
full line; it does return unless the line begins with `STRING_DELAY` (whose
scan of the delay token may not end).  So `DELAY abc` returns `RC_BAD` with
`last_command` = `DELAY abc`. -/
theorem last_command_stored_before_validation (size_bits cap fuel : Nat) (st : State)
    (D rest : List Char) (len : Nat) (hD : D ∈ stored_directives)
    (hnul : ∀ c ∈ D ++ rest, c ≠ NUL) (hlen : (D ++ rest).length < cap) :
    (∀ r, ducky_script_interpreter size_bits cap (fuel + 1) st (D ++ rest) len = some r →
        r.2.1.last_command = D ++ rest)
      ∧ (strncmp (D ++ rest) "STRING_DELAY".toList (strlen "STRING_DELAY".toList) ≠ 0 →
          ∃ r, ducky_script_interpreter size_bits cap (fuel + 1) st (D ++ rest) len = some r)
      ∧ ducky_script_interpreter 32 64 1 State.init "DELAY abc".toList 9
          = some (RC_BAD, State.mk 100 "DELAY abc".toList, []) :=
  ⟨fun r h => interpreter_stored_line size_bits cap fuel st D rest len hD hnul hlen r h,
    fun hsd => interpreter_stored_returns size_bits cap fuel st D rest len hD hsd,
    by decide⟩

/-- The store of C11 for the line `DELAY abc` in a 64-byte buffer. -/
theorem last_command_stored_before_validation_witness :
    "DELAY".toList ∈ stored_directives ∧ (∀ c ∈ "DELAY".toList ++ " abc".toList, c ≠ NUL)
      ∧ ("DELAY".toList ++ " abc".toList).length < 64
      ∧ (∀ r, ducky_script_interpreter 32 64 (0 + 1) State.init
            ("DELAY".toList ++ " abc".toList) 9 = some r →
          r.2.1.last_command = "DELAY".toList ++ " abc".toList) :=
  ⟨by decide, by decide, by decide,
    (last_command_stored_before_validation 32 64 0 State.init "DELAY".toList " abc".toList 9
      (by decide) (by decide) (by decide)).1⟩

/-- The single key fallback: a line that matches no directive is handed whole
to the resolver. -/
theorem interpreter_fallback (size_bits cap fuel : Nat) (st : State) (line : List Char)
    (len : Nat) (hno : ∀ P ∈ directive_prefixes, strncmp line P (strlen P) ≠ 0) :
    (ducky_script_interpreter size_bits cap (fuel + 1) st line len).map (fun r => (r.1, r.2.2))
      = some (if ducky_key_to_hid_byte line = KEY_UNDEFINED_ERROR then (RC_BAD, [])
          else (RC_OK, [Event.write (ducky_key_to_hid_byte line)])) := by
  by_cases h0 : byteAt line 0 = NUL
  · have hund : ducky_key_to_hid_byte line = KEY_UNDEFINED_ERROR := by
      cases line with
      | nil => exact ducky_key_to_hid_byte_nil
      | cons c rest =>
        exact ducky_key_to_hid_byte_head c rest (fun hw => hw.1 h0)
    rw [ducky_script_interpreter, cstr_count_words, if_pos h0, if_pos rfl, if_pos hund]
    rfl
  · rw [interpreter_after_store size_bits cap fuel st line len h0
        (hno _ (by decide)) (hno _ (by decide)) (hno _ (by decide)), interpret_stored]
    have h1 := hno "DEFAULT_DELAY".toList (by decide)
    have h2 := hno "DEFAULTDELAY".toList (by decide)
    have h3 := hno "DELAY".toList (by decide)
    have h4 := hno "STRING_DELAY".toList (by decide)
    have h5 := hno "STRING".toList (by decide)
    have h6 := hno "CTRL-ALT".toList (by decide)
    have h7 := hno "CTRL-SHIFT".toList (by decide)
    have h8 := hno "ALT-SHIFT".toList (by decide)
    have h9 := hno "ALT-TAB".toList (by decide)
    have h10 := hno "COMMAND-OPTION".toList (by decide)
    have h11 := hno "GUI".toList (by decide)
    have h12 := hno "WINDOWS".toList (by decide)
    have h13 := hno "COMMAND".toList (by decide)
    have h14 := hno "CONTROL".toList (by decide)
    have h15 := hno "CTRL".toList (by decide)
    have h16 := hno "ALT".toList (by decide)
    have h17 := hno "SHIFT".toList (by decide)
    simp only [h1, h2, h3, h4, h5, h6, h7, h8, h9, h10, h11, h12, h13, h14, h15, h16, h17,
      or_self, if_false]
    by_cases hk : ducky_key_to_hid_byte line = KEY_UNDEFINED_ERROR
    · rw [if_pos hk, if_pos hk]; rfl
    · rw [if_neg hk, if_neg hk]; rfl

/-- C12 as stated fails on `ENTER x`: the fallback resolves the whole line,
not its first token, so the line is unknown: `RC_BAD` and no event. -/
theorem fallback_first_token_counterexample :
    ducky_script_interpreter 32 64 1 State.init "ENTER x".toList 7
      = some (RC_BAD, State.mk 100 "ENTER x".toList, []) := by
  decide

/-- C12, amended: for every line that matches no directive prefix, the
interpreter resolves the whole line as a key name: it returns `RC_BAD` without
event when `ducky_key_to_hid_byte` of the line is the undefined sentinel, and
otherwise emits one write of that code and returns `RC_OK`. -/
theorem fallback_resolves_whole_line (size_bits cap fuel : Nat) (st : State)
    (line : List Char) (len : Nat)
    (hno : ∀ P ∈ directive_prefixes, strncmp line P (strlen P) ≠ 0) :
    (ducky_script_interpreter size_bits cap (fuel + 1) st line len).map (fun r => (r.1, r.2.2))
      = some (if ducky_key_to_hid_byte line = KEY_UNDEFINED_ERROR then (RC_BAD, [])
          else (RC_OK, [Event.write (ducky_key_to_hid_byte line)])) :=
  interpreter_fallback size_bits cap fuel st line len hno

/-- The fallback of C12 on the line `ENTER`: one write of `KEY_ENTER`. -/
theorem fallback_resolves_whole_line_witness :
    (∀ P ∈ directive_prefixes, strncmp "ENTER".toList P (strlen P) ≠ 0)
      ∧ (ducky_script_interpreter 32 64 (0 + 1) State.init "ENTER".toList 5).map
          (fun r => (r.1, r.2.2))
        = some (if ducky_key_to_hid_byte "ENTER".toList = KEY_UNDEFINED_ERROR then (RC_BAD, [])
            else (RC_OK, [Event.write (ducky_key_to_hid_byte "ENTER".toList)])) :=
  ⟨by decide, fallback_resolves_whole_line 32 64 0 State.init "ENTER".toList 5 (by decide)⟩

/-- C13: a line that begins with none of the directive names and that the
resolver does not recognize (`FOOBAR`) makes the interpreter return `RC_BAD`
without any key event or delay.  (That the line is non-empty and free of
whitespace is not needed.) -/
theorem unknown_command_fails_silently (size_bits cap fuel : Nat) (st : State)
    (line : List Char) (len : Nat)
    (hno : ∀ P ∈ directive_prefixes, strncmp line P (strlen P) ≠ 0)
    (hunknown : ducky_key_to_hid_byte line = KEY_UNDEFINED_ERROR) :
    (ducky_script_interpreter size_bits cap (fuel + 1) st line len).map (fun r => (r.1, r.2.2))
      = some (RC_BAD, []) := by
  rw [interpreter_fallback size_bits cap fuel st line len hno, if_pos hunknown]

/-- The failure of C13 on the line `FOOBAR`. -/
theorem unknown_command_fails_silently_witness :
    (∀ P ∈ directive_prefixes, strncmp "FOOBAR".toList P (strlen P) ≠ 0)
      ∧ ducky_key_to_hid_byte "FOOBAR".toList = KEY_UNDEFINED_ERROR
      ∧ (ducky_script_interpreter 32 64 (0 + 1) State.init "FOOBAR".toList 6).map
          (fun r => (r.1, r.2.2)) = some (RC_BAD, []) :=
  ⟨by decide, by decide,
    unknown_command_fails_silently 32 64 0 State.init "FOOBAR".toList 6 (by decide) (by decide)⟩

/-- C14: with an empty `last_command`, `REPEAT a` returns `RC_BAD` for every
argument text `a`, emits nothing and leaves `last_command` and `default_delay`
as they were. -/
theorem repeat_empty_history_rejected (size_bits cap fuel : Nat) (st : State)
    (a : List Char) (len : Nat) (hempty : byteAt st.last_command 0 = NUL) :
    ducky_script_interpreter size_bits cap (fuel + 1) st ("REPEAT".toList ++ ' ' :: a) len
      = some (RC_BAD, st, []) := by
  have hcount : cstr_count_words ("REPEAT".toList ++ ' ' :: a) len ≠ 0 := by
    have := cstr_count_words_pos ("REPEAT".toList ++ ' ' :: a) len (by simp [byteAt, NUL])
    omega
  obtain ⟨n, hn⟩ : ∃ n, cstr_count_words ("REPEAT".toList ++ ' ' :: a) len = n + 1 :=
    ⟨_, (Nat.succ_pred_eq_of_ne_zero hcount).symm⟩
  rw [interpreter_repeat_dispatch size_bits cap fuel st a len n hn, repeat_directive]
  by_cases h0 : n = 0
  · rw [if_pos h0]
  · rw [if_neg h0, if_pos hempty]

/-- The rejection of C14 for `REPEAT 2` in the initial state. -/
theorem repeat_empty_history_rejected_witness :
    byteAt State.init.last_command 0 = NUL
      ∧ ducky_script_interpreter 32 64 (0 + 1) State.init ("REPEAT".toList ++ ' ' :: "2".toList) 8
        = some (RC_BAD, State.init, []) :=
  ⟨by decide, repeat_empty_history_rejected 32 64 0 State.init "2".toList 8 (by decide)⟩

/-- C18: a line that begins with `REM` or with `//`, whatever follows, makes
the interpreter return `RC_OK` in every state, with no event and with
`last_command` and `default_delay` unchanged. -/
theorem comments_are_no_ops (size_bits cap fuel : Nat) (st : State) (rest : List Char)
    (len : Nat) :
    ducky_script_interpreter size_bits cap (fuel + 1) st ("REM".toList ++ rest) len
        = some (RC_OK, st, [])
      ∧ ducky_script_interpreter size_bits cap (fuel + 1) st ("//".toList ++ rest) len
        = some (RC_OK, st, []) := by
  have h1 : cstr_count_words ("REM".toList ++ rest) len ≠ 0 := by
    have := cstr_count_words_pos ("REM".toList ++ rest) len (by simp [byteAt, NUL])
    omega
  have h2 : cstr_count_words ("//".toList ++ rest) len ≠ 0 := by
    have := cstr_count_words_pos ("//".toList ++ rest) len (by simp [byteAt, NUL])
    omega
  constructor
  · rw [ducky_script_interpreter, if_neg h1]
    simp [strncmp, strlen, byteAt, NUL]
  · rw [ducky_script_interpreter, if_neg h2]
    simp [strncmp, strlen, byteAt, NUL]

/-! ## Claims C15 and C16 -/

/-- `safe_atoi_u32` writes its output only when it returns `RC_OK`. -/
theorem safe_atoi_u32_not_ok (size_bits : Nat) (s : List Char) (n : Nat) (check : Bool)
    (h : (safe_atoi_u32 size_bits s n check).1 ≠ RC_OK) :
    (safe_atoi_u32 size_bits s n check).2 = none := by
  unfold safe_atoi_u32 at h ⊢
  split_ifs at h ⊢
  · rfl
  · rfl
  · rfl
  · simp only at h ⊢
    split_ifs at h ⊢
    · rfl
    · exact absurd rfl h

/-- The body of `DEFAULT_DELAY`: no event, `RC_OK` or `RC_BAD`, and with
`RC_BAD` the state is untouched. -/
theorem default_delay_directive_result (size_bits argc : Nat) (ptr_cmd : List Char)
    (len : Nat) (st : State) :
    (default_delay_directive size_bits argc ptr_cmd len st).2.2 = []
      ∧ ((default_delay_directive size_bits argc ptr_cmd len st).1 = RC_OK
        ∨ (default_delay_directive size_bits argc ptr_cmd len st).1 = RC_BAD)
      ∧ ((default_delay_directive size_bits argc ptr_cmd len st).1 = RC_BAD →
        (default_delay_directive size_bits argc ptr_cmd len st).2.1 = st) := by
  unfold default_delay_directive
  split_ifs
  · exact ⟨rfl, Or.inr rfl, fun _ => rfl⟩
  · split
    · exact ⟨rfl, Or.inr rfl, fun _ => rfl⟩
    · rename_i pos ptr_argv _
      have hout := safe_atoi_u32_not_ok size_bits ptr_argv (strlen ptr_argv) true
      split
      rename_i rc out heq
      rw [heq] at hout
      simp only at hout ⊢
      split_ifs with hrc
      · rw [hout hrc]
        exact ⟨rfl, Or.inr rfl, fun _ => rfl⟩
      · exact ⟨rfl, Or.inl rfl, fun h => absurd (show RC_OK = RC_BAD from h) (by decide)⟩

theorem interpreter_default_delay_dispatch (size_bits cap fuel : Nat) (st : State)
    (S rest : List Char) (len : Nat)
    (hS : S = "DEFAULT_DELAY".toList ∨ S = "DEFAULTDELAY".toList) :
    ducky_script_interpreter size_bits cap (fuel + 1) st (S ++ rest) len
      = some (default_delay_directive size_bits (cstr_count_words (S ++ rest) len - 1)
          (S ++ rest) len { st with last_command := snprintf_s st.last_command cap (S ++ rest) }) := by
  have hD : S ∈ stored_directives := by
    rcases hS with rfl | rfl <;> decide
  obtain ⟨h0, hrem, hsl, hrep⟩ := stored_directive_not_comment S hD rest
  rw [interpreter_after_store size_bits cap fuel st _ len h0 hrem hsl hrep, interpret_stored]
  rcases hS with rfl | rfl <;> simp [strncmp, strlen, byteAt, NUL]

theorem interpreter_default_delay (size_bits cap fuel n : Nat) (st : State) (S : List Char)
    (hS : S = "DEFAULT_DELAY".toList ∨ S = "DEFAULTDELAY".toList)
    (hbits : 32 ≤ size_bits) (hn : n ≤ 4294967295) :
    ducky_script_interpreter size_bits cap (fuel + 1) st (S ++ ' ' :: Nat.toDigits 10 n)
        (S ++ ' ' :: Nat.toDigits 10 n).length
      = some (RC_OK, State.mk n (snprintf_s st.last_command cap (S ++ ' ' :: Nat.toDigits 10 n)),
          []) := by
  obtain ⟨c, k, hck, hc⟩ := toDigits_cons n
  have hatoi := safe_atoi_u32_toDigits size_bits n hbits hn
  rw [hck] at hatoi ⊢
  have hSw : S ≠ [] ∧ (∀ d ∈ S, wordByte d) ∧ S.length < 65536 := by
    rcases hS with rfl | rfl <;> decide
  have h2 := cstr_count_words_two S c k hSw.1 hSw.2.1 hc
  obtain ⟨m, hm⟩ : ∃ m, cstr_count_words (S ++ ' ' :: c :: k) (S ++ ' ' :: c :: k).length
      = (m + 1) + 1 := ⟨_, (Nat.sub_add_cancel h2).symm⟩
  rw [interpreter_default_delay_dispatch size_bits cap fuel st S _ _ hS, hm,
    default_delay_directive, if_neg (by omega),
    second_argument_eq S (c :: k) (fun d hd => ⟨(hSw.2.1 d hd).1, (hSw.2.1 d hd).2.1⟩) hSw.2.2
      (List.cons_ne_nil _ _)]
  simp only [hatoi]
  rw [if_neg (by simp), Option.getD_some]

theorem interpreter_string_dispatch (size_bits cap fuel : Nat) (st : State)
    (tl : List Char) (len : Nat) :
    ducky_script_interpreter size_bits cap (fuel + 1) st ("STRING".toList ++ ' ' :: tl) len
      = some (string_directive (cstr_count_words ("STRING".toList ++ ' ' :: tl) len - 1)
          ("STRING".toList ++ ' ' :: tl) len
          { st with last_command := snprintf_s st.last_command cap ("STRING".toList ++ ' ' :: tl) }) := by
  obtain ⟨h0, hrem, hsl, hrep⟩ :=
    stored_directive_not_comment "STRING".toList (by decide) (' ' :: tl)
  rw [interpreter_after_store size_bits cap fuel st _ len h0 hrem hsl hrep, interpret_stored]
  simp [strncmp, strlen, byteAt, NUL]

theorem interpreter_string (size_bits cap fuel : Nat) (st : State) (c : Char) (k : List Char)
    (hc : wordByte c) (hk : ∀ d ∈ k, d ≠ NUL) :
    ducky_script_interpreter size_bits cap (fuel + 1) st ("STRING".toList ++ ' ' :: c :: k)
        ("STRING".toList ++ ' ' :: c :: k).length
      = some (RC_OK,
          { st with last_command :=
              snprintf_s st.last_command cap ("STRING".toList ++ ' ' :: c :: k) },
          (c :: k).map Event.print) := by
  have h2 := cstr_count_words_two "STRING".toList c k (by decide) (by decide) hc
  have hnul : ∀ d ∈ c :: k, d ≠ NUL := by
    intro d hd
    rcases List.mem_cons.mp hd with rfl | hd
    · exact hc.1
    · exact hk d hd
  rw [interpreter_string_dispatch, string_directive, if_neg (by omega),
    second_argument_eq "STRING".toList (c :: k) (by decide) (by decide) (List.cons_ne_nil _ _)]
  simp only [strlen_of_no_nul _ hnul, List.take_length]

/-- C16: for every text `t` without NUL byte whose first byte is not a
space, `\r` or `\n`, the line `STRING t` emits the character-typing events of
the bytes of `t` in order, spaces included, no delay, and returns `RC_OK`. -/
theorem string_types_argument (size_bits cap fuel : Nat) (st : State) (c : Char)
    (k : List Char) (hc : wordByte c) (hk : ∀ d ∈ k, d ≠ NUL) :
    ducky_script_interpreter size_bits cap (fuel + 1) st ("STRING".toList ++ ' ' :: c :: k)
        ("STRING".toList ++ ' ' :: c :: k).length
      = some (RC_OK,
          { st with last_command :=
              snprintf_s st.last_command cap ("STRING".toList ++ ' ' :: c :: k) },
          (c :: k).map Event.print) :=
  interpreter_string size_bits cap fuel st c k hc hk

/-- The typing of C16 for the line `STRING a b ` with its trailing space. -/
theorem string_types_argument_witness :
    wordByte 'a' ∧ (∀ d ∈ " b ".toList, d ≠ NUL)
      ∧ ducky_script_interpreter 32 64 (0 + 1) State.init
          ("STRING".toList ++ ' ' :: 'a' :: " b ".toList)
          ("STRING".toList ++ ' ' :: 'a' :: " b ".toList).length
        = some (RC_OK, State.mk 100 (snprintf_s State.init.last_command 64
            ("STRING".toList ++ ' ' :: 'a' :: " b ".toList)),
          ('a' :: " b ".toList).map Event.print) :=
  ⟨by decide, by decide, string_types_argument 32 64 0 State.init 'a' " b ".toList
    (by decide) (by decide)⟩

/-! ## Claim C17: `STRING_DELAY` -/

/-- The loop counts a separator that stands between two word bytes. -/
theorem cstr_count_words_loop_sep (s : List Char) (len fuel i n : Nat) (hi : i < len)
    (hsp : byteAt s i = ' ') (hprev : wordByte (byteAt s (i - 1)))
    (hnext : wordByte (byteAt s (i + 1))) :
    cstr_count_words_loop s len (fuel + 1) i n = cstr_count_words_loop s len fuel (i + 1) (n + 1) := by
  rw [cstr_count_words_loop, if_pos hi, hsp, if_neg (by decide), if_neg (by simp),
    if_neg (by
      rintro (h | h | h)
      · exact hprev.2.1 h
      · exact hprev.2.2.1 h
      · exact hprev.2.2.2 h),
    if_neg (by
      rintro (h | h | h)
      · exact hnext.2.1 h
      · exact hnext.2.2.1 h
      · exact hnext.2.2.2 h), if_neg hnext.1]

/-- A line made of two words and a third part that starts with a word byte,
with single spaces between them, counts at least three words. -/
theorem cstr_count_words_three (A B : List Char) (c : Char) (k : List Char) (hA : A ≠ [])
    (hB : B ≠ []) (hAw : ∀ d ∈ A, wordByte d) (hBw : ∀ d ∈ B, wordByte d) (hc : wordByte c) :
    3 ≤ cstr_count_words (A ++ ' ' :: (B ++ ' ' :: c :: k))
      (A ++ ' ' :: (B ++ ' ' :: c :: k)).length := by
  have hAl : 0 < A.length := List.length_pos.mpr hA
  have hBl : 0 < B.length := List.length_pos.mpr hB
  -- the bytes of the line, by index
  have bA : ∀ j, j < A.length → wordByte (byteAt (A ++ ' ' :: (B ++ ' ' :: c :: k)) j) := by
    intro j hj
    rw [byteAt_append_left _ _ _ hj]
    exact hAw _ (byteAt_of_mem_index _ _ hj)
  have bs1 : byteAt (A ++ ' ' :: (B ++ ' ' :: c :: k)) A.length = ' ' := by
    rw [byteAt_append_length]; rfl
  have bB : ∀ j, j < B.length →
      wordByte (byteAt (A ++ ' ' :: (B ++ ' ' :: c :: k)) (A.length + 1 + j)) := by
    intro j hj
    have e : A ++ ' ' :: (B ++ ' ' :: c :: k) = (A ++ [' ']) ++ (B ++ ' ' :: c :: k) := by simp
    have hl : (A ++ [' ']).length = A.length + 1 := by simp
    rw [e, ← hl, byteAt_append_right, byteAt_append_left _ _ _ hj]
    exact hBw _ (byteAt_of_mem_index _ _ hj)
  have bs2 : byteAt (A ++ ' ' :: (B ++ ' ' :: c :: k)) (A.length + 1 + B.length) = ' ' := by
    have e : A ++ ' ' :: (B ++ ' ' :: c :: k) = (A ++ ' ' :: B) ++ (' ' :: c :: k) := by simp
    have hl : (A ++ ' ' :: B).length = A.length + 1 + B.length := by simp; omega
    rw [e, ← hl, byteAt_append_length]; rfl
  have bc : byteAt (A ++ ' ' :: (B ++ ' ' :: c :: k)) (A.length + 1 + B.length + 1) = c := by
    have e : A ++ ' ' :: (B ++ ' ' :: c :: k) = (A ++ ' ' :: B) ++ (' ' :: c :: k) := by simp
    have hl : (A ++ ' ' :: B).length = A.length + 1 + B.length := by simp; omega
    rw [e, ← hl, byteAt_append_right]; rfl
  have hlen : (A ++ ' ' :: (B ++ ' ' :: c :: k)).length = A.length + B.length + k.length + 3 := by
    simp; omega
  generalize A ++ ' ' :: (B ++ ' ' :: c :: k) = line at bA bs1 bB bs2 bc hlen ⊢
  rw [cstr_count_words, if_neg (bA 0 hAl).1]
  -- over the first word
  have e1 : line.length = (B.length + k.length + 4) + (A.length - 1) := by omega
  have s1 := cstr_count_words_loop_skip line line.length (A.length - 1)
    (B.length + k.length + 4) 1 1 (fun j h1 h2 => bA j (by omega)) (by omega)
  have i1 : 1 + (A.length - 1) = A.length := by omega
  rw [i1] at s1
  -- the first separator
  have s2 := cstr_count_words_loop_sep line line.length (B.length + k.length + 3) A.length 1
    (by omega) bs1 (bA _ (by omega)) (by simpa using bB 0 hBl)
  -- over the second word
  have e3 : B.length + k.length + 3 = (k.length + 3) + B.length := by omega
  have s3 := cstr_count_words_loop_skip line line.length B.length (k.length + 3)
    (A.length + 1) 2 (fun j h1 h2 => by
      have := bB (j - (A.length + 1)) (by omega)
      rwa [Nat.add_sub_cancel' h1] at this) (by omega)
  -- the second separator
  have s4 := cstr_count_words_loop_sep line line.length (k.length + 2)
    (A.length + 1 + B.length) 2 (by omega) bs2
    (by
      have := bB (B.length - 1) (by omega)
      have e : A.length + 1 + (B.length - 1) = A.length + 1 + B.length - 1 := by omega
      rwa [e] at this)
    (by rw [bc]; exact hc)
  have e0 : cstr_count_words_loop line line.length line.length 1 1
      = cstr_count_words_loop line line.length (k.length + 2) (A.length + 1 + B.length + 1) 3 := by
    conv => lhs; arg 3; rw [e1]
    rw [s1, s2, e3, s3, s4]
  rw [e0]
  exact cstr_count_words_loop_mono _ _ _ _ _

theorem strlen_append_of_no_nul (a b : List Char) (ha : ∀ c ∈ a, c ≠ NUL) :
    strlen (a ++ b) = a.length + strlen b := by
  induction a with
  | nil => simp
  | cons c a ih =>
    rw [List.cons_append, strlen, if_neg (ha c (List.mem_cons_self _ _)),
      ih (fun d hd => ha d (List.mem_cons_of_mem _ hd)), List.length_cons]
    omega

/-- The scan for the end of the delay token stops at the first space when
that space comes within the first 256 bytes. -/
theorem delay_char_end_loop_eq (ds t : List Char) (hds : ∀ d ∈ ds, d ≠ NUL ∧ d ≠ ' ')
    (h256 : ds.length < 256) : ∀ (fuel i : Nat), i ≤ ds.length → ds.length - i < fuel →
      delay_char_end_loop (ds ++ ' ' :: t) fuel i = some ds.length := by
  have hstr : ds.length < strlen (ds ++ ' ' :: t) := by
    rw [strlen_append_of_no_nul _ _ (fun c hc => (hds c hc).1), strlen, if_neg (by decide)]
    omega
  intro fuel
  induction fuel with
  | zero => intro i _ h; omega
  | succ fuel ih =>
    intro i hi hfuel
    rw [delay_char_end_loop, if_pos (by omega)]
    by_cases hend : i = ds.length
    · subst hend
      rw [byteAt_append_length, if_pos (show byteAt (' ' :: t) 0 = ' ' from rfl)]
    · have hlt : i < ds.length := by omega
      rw [byteAt_append_left _ _ _ hlt,
        if_neg (hds _ (byteAt_of_mem_index _ _ hlt)).2, Nat.mod_eq_of_lt (by omega)]
      exact ih (i + 1) (by omega) (by omega)

theorem interpreter_string_delay_dispatch (size_bits cap fuel : Nat) (st : State)
    (tl : List Char) (len : Nat) :
    ducky_script_interpreter size_bits cap (fuel + 1) st ("STRING_DELAY".toList ++ ' ' :: tl) len
      = string_delay_directive size_bits
          (cstr_count_words ("STRING_DELAY".toList ++ ' ' :: tl) len - 1)
          ("STRING_DELAY".toList ++ ' ' :: tl) len
          { st with last_command :=
              snprintf_s st.last_command cap ("STRING_DELAY".toList ++ ' ' :: tl) } := by
  obtain ⟨h0, hrem, hsl, hrep⟩ :=
    stored_directive_not_comment "STRING_DELAY".toList (by decide) (' ' :: tl)
  rw [interpreter_after_store size_bits cap fuel st _ len h0 hrem hsl hrep, interpret_stored]
  simp [strncmp, strlen, byteAt, NUL]

theorem string_delay_events_eq (n : Nat) (t : List Char) (ht : ∀ d ∈ t, d ≠ NUL) :
    string_delay_events n t = t.flatMap fun x => [Event.print x, Event.delay n] := by
  rw [string_delay_events, strlen_of_no_nul t ht, List.take_length]

theorem count_delay_flatMap (n : Nat) (t : List Char) :
    (t.flatMap fun x => [Event.print x, Event.delay n]).count (Event.delay n) = t.length := by
  induction t with
  | nil => rfl
  | cons c t ih =>
    rw [List.flatMap_cons, List.count_append, ih]
    simp [List.count_cons]
    omega

/-- The `STRING_DELAY` directive with a delay written in decimal and a text
without NUL byte that starts with a word byte. -/
theorem interpreter_string_delay (size_bits cap fuel n : Nat) (st : State) (c : Char)
    (k : List Char) (hbits : 32 ≤ size_bits) (hn : n ≤ 4294967295) (hc : wordByte c)
    (hk : ∀ d ∈ k, d ≠ NUL) :
    ducky_script_interpreter size_bits cap (fuel + 1) st
        ("STRING_DELAY".toList ++ ' ' :: (Nat.toDigits 10 n ++ ' ' :: c :: k))
        ("STRING_DELAY".toList ++ ' ' :: (Nat.toDigits 10 n ++ ' ' :: c :: k)).length
      = some (RC_OK,
          State.mk st.default_delay (snprintf_s st.last_command cap
            ("STRING_DELAY".toList ++ ' ' :: (Nat.toDigits 10 n ++ ' ' :: c :: k))),
          (c :: k).flatMap fun x => [Event.print x, Event.delay n]) := by
  obtain ⟨hne, hdig, hval, hlen⟩ := toDigits_spec n
  have h10 := hlen 10 (by norm_num) (by norm_num; omega)
  have hdw : ∀ d ∈ Nat.toDigits 10 n, wordByte d := fun d hd => digit_wordByte d (hdig d hd)
  have hnul : ∀ d ∈ c :: k, d ≠ NUL := by
    intro d hd
    rcases List.mem_cons.mp hd with rfl | hd
    · exact hc.1
    · exact hk d hd
  have hpow : 2 ^ 32 ≤ 2 ^ size_bits := Nat.pow_le_pow_right (by norm_num) hbits
  have hmod : n % 2 ^ size_bits = n := Nat.mod_eq_of_lt (by norm_num at hpow ⊢; omega)
  have hatoi := safe_atoi_u32_digits size_bits (Nat.toDigits 10 n) (' ' :: c :: k) false hne h10
    hdig (by simp)
  rw [hval, hmod, if_neg (by unfold UINT32_MAX; omega),
    Nat.mod_eq_of_lt (by norm_num; omega)] at hatoi
  have h3 := cstr_count_words_three "STRING_DELAY".toList (Nat.toDigits 10 n) c k (by decide) hne
    (by decide) hdw hc
  have hscan := delay_char_end_loop_eq (Nat.toDigits 10 n) (c :: k)
    (fun d hd => ⟨(hdw d hd).1, (hdw d hd).2.1⟩) (by omega) 256 0 (by omega) (by omega)
  have harg := second_argument_eq "STRING_DELAY".toList (Nat.toDigits 10 n ++ ' ' :: c :: k)
    (by decide) (by decide) (by simp)
  have hsp := strstr_space_append (Nat.toDigits 10 n) (c :: k)
    (fun d hd => ⟨(hdw d hd).1, (hdw d hd).2.1⟩)
  have hdrop : List.drop ("STRING_DELAY".toList.length + 1 + (Nat.toDigits 10 n).length + 1)
      ("STRING_DELAY".toList ++ ' ' :: (Nat.toDigits 10 n ++ ' ' :: c :: k)) = c :: k := by
    have e : "STRING_DELAY".toList ++ ' ' :: (Nat.toDigits 10 n ++ ' ' :: c :: k)
        = ("STRING_DELAY".toList ++ ' ' :: (Nat.toDigits 10 n ++ [' '])) ++ (c :: k) := by simp
    have hl : ("STRING_DELAY".toList ++ ' ' :: (Nat.toDigits 10 n ++ [' '])).length
        = "STRING_DELAY".toList.length + 1 + (Nat.toDigits 10 n).length + 1 := by
      simp; omega
    rw [e, ← hl, List.drop_left]
  have hsecond : second_argument
      ("STRING_DELAY".toList ++ ' ' :: (Nat.toDigits 10 n ++ ' ' :: c :: k))
      (Nat.toDigits 10 n ++ ' ' :: c :: k) ("STRING_DELAY".toList.length + 1)
      ("STRING_DELAY".toList ++ ' ' :: (Nat.toDigits 10 n ++ ' ' :: c :: k)).length
      = some ("STRING_DELAY".toList.length + 1 + (Nat.toDigits 10 n).length + 1, c :: k) := by
    rw [second_argument, hsp]
    have hl : ("STRING_DELAY".toList ++ ' ' :: (Nat.toDigits 10 n ++ ' ' :: c :: k)).length
        = "STRING_DELAY".toList.length + 1 + (Nat.toDigits 10 n).length + 1 + (k.length + 1) := by
      simp; omega
    have h12 : "STRING_DELAY".toList.length = 12 := rfl
    simp only [hdrop]
    rw [Nat.mod_eq_of_lt (by omega), if_neg (by omega)]
  rw [interpreter_string_delay_dispatch, string_delay_directive, if_neg (by omega), harg]
  simp only [hscan, hatoi, hsecond]
  rw [if_neg (by simp), Option.getD_some, string_delay_events_eq n _ hnul]

/-- The trace of `STRING_DELAY 10 hi`: a wait behind the last character too,
two waits for two characters. -/
theorem string_delay_counterexample :
    ducky_script_interpreter 32 64 1 State.init "STRING_DELAY 10 hi".toList 18
      = some (RC_OK, State.mk 100 "STRING_DELAY 10 hi".toList,
          [Event.print 'h', Event.delay 10, Event.print 'i', Event.delay 10]) := by
  decide

/-- C17, at the failing inputs: the printing loop of `STRING_DELAY` waits
behind every character, the last one too, where its comments (`waiting n
milliseconds between each character`, `Print each character and wait between
them`) and the claim have a wait between consecutive characters only.  With a
`size_t` of at least 32 bits, for every `n` in [0, 4294967295] and every
non-empty text `t` without NUL byte whose first byte is not a space, `\r` or
`\n`, the line `STRING_DELAY n t` returns `RC_OK` and emits, for each
character of `t` in order, its typing event followed by a wait of `n`: as many
waits as characters, one more than the claim has. -/
theorem string_delay_waits_after_each (size_bits cap fuel n : Nat) (st : State) (c : Char)
    (k : List Char) (hbits : 32 ≤ size_bits) (hn : n ≤ 4294967295) (hc : wordByte c)
    (hk : ∀ d ∈ k, d ≠ NUL) :
    ducky_script_interpreter size_bits cap (fuel + 1) st
        ("STRING_DELAY".toList ++ ' ' :: (Nat.toDigits 10 n ++ ' ' :: c :: k))
        ("STRING_DELAY".toList ++ ' ' :: (Nat.toDigits 10 n ++ ' ' :: c :: k)).length
      = some (RC_OK,
          State.mk st.default_delay (snprintf_s st.last_command cap
            ("STRING_DELAY".toList ++ ' ' :: (Nat.toDigits 10 n ++ ' ' :: c :: k))),
          (c :: k).flatMap fun x => [Event.print x, Event.delay n])
    ∧ ((c :: k).flatMap fun x => [Event.print x, Event.delay n]).count (Event.delay n)
        = (c :: k).length :=
  ⟨interpreter_string_delay size_bits cap fuel n st c k hbits hn hc hk,
    count_delay_flatMap n (c :: k)⟩

/-- The trace of C17 for the line `STRING_DELAY 10 hi`. -/
theorem string_delay_waits_after_each_witness :
    32 ≤ 32 ∧ 10 ≤ 4294967295 ∧ wordByte 'h' ∧ (∀ d ∈ "i".toList, d ≠ NUL)
      ∧ ducky_script_interpreter 32 64 (0 + 1) State.init
          ("STRING_DELAY".toList ++ ' ' :: (Nat.toDigits 10 10 ++ ' ' :: 'h' :: "i".toList))
          ("STRING_DELAY".toList ++ ' ' :: (Nat.toDigits 10 10 ++ ' ' :: 'h' :: "i".toList)).length
        = some (RC_OK, State.mk 100 (snprintf_s State.init.last_command 64
              ("STRING_DELAY".toList ++ ' ' :: (Nat.toDigits 10 10 ++ ' ' :: 'h' :: "i".toList))),
            ('h' :: "i".toList).flatMap fun x => [Event.print x, Event.delay 10]) :=
  ⟨by decide, by decide, by decide, by decide,
    (string_delay_waits_after_each 32 64 0 10 State.init 'h' "i".toList
      (by decide) (by decide) (by decide) (by decide)).1⟩

/-! ## Claim C21: the results of `safe_atoi_u32` -/

theorem has_non_digit_iff (s : List Char) : ∀ (k i : Nat),
    has_non_digit s k i = true
      ↔ ∃ j, i ≤ j ∧ j < i + k ∧ (byteAt s j < '0' ∨ byteAt s j > '9') := by
  intro k
  induction k with
  | zero =>
    intro i
    simp only [has_non_digit, Bool.false_eq_true, false_iff]
    rintro ⟨j, h1, h2, _⟩
    omega
  | succ k ih =>
    intro i
    rw [has_non_digit]
    by_cases hi : byteAt s i < '0' ∨ byteAt s i > '9'
    · rw [if_pos hi]
      exact ⟨fun _ => ⟨i, Nat.le_refl _, by omega, hi⟩, fun _ => rfl⟩
    · rw [if_neg hi, ih (i + 1)]
      constructor
      · rintro ⟨j, h1, h2, h3⟩
        exact ⟨j, by omega, by omega, h3⟩
      · rintro ⟨j, h1, h2, h3⟩
        have hne : j ≠ i := fun h => hi (h ▸ h3)
        exact ⟨j, by omega, by omega, h3⟩

/-- The three kinds of result of `safe_atoi_u32`, by the tests in their order. -/
theorem safe_atoi_u32_results (size_bits : Nat) (s : List Char) (n : Nat) (check : Bool) :
    ((safe_atoi_u32 size_bits s n check).1 = RC_INVALID_INPUT
        ↔ (n = 0 ∨ n > 10 ∨ (check = true ∧ byteAt s n ≠ NUL)))
      ∧ (¬ (n = 0 ∨ n > 10 ∨ (check = true ∧ byteAt s n ≠ NUL)) →
          (∃ j, j < n ∧ (byteAt s j < '0' ∨ byteAt s j > '9')) →
          safe_atoi_u32 size_bits s n check = (RC_BAD, none)) := by
  unfold safe_atoi_u32
  by_cases h1 : n < 1 ∨ n > 10
  · rw [if_pos h1]
    have : n = 0 ∨ n > 10 ∨ (check = true ∧ byteAt s n ≠ NUL) := by
      rcases h1 with h | h
      · exact Or.inl (by omega)
      · exact Or.inr (Or.inl h)
    exact ⟨⟨fun _ => this, fun _ => rfl⟩, fun hn => absurd this hn⟩
  · rw [if_neg h1]
    by_cases h2 : check = true ∧ byteAt s n ≠ NUL
    · rw [if_pos h2]
      exact ⟨⟨fun _ => Or.inr (Or.inr h2), fun _ => rfl⟩,
        fun hn => absurd (Or.inr (Or.inr h2)) hn⟩
    · rw [if_neg h2]
      have hnot : ¬ (n = 0 ∨ n > 10 ∨ (check = true ∧ byteAt s n ≠ NUL)) := by
        rintro (h | h | h)
        · exact h1 (Or.inl (by omega))
        · exact h1 (Or.inr h)
        · exact h2 h
      by_cases h3 : has_non_digit s n 0 = true
      · rw [if_pos h3]
        exact ⟨⟨fun h => absurd h (by decide), fun h => absurd h hnot⟩, fun _ _ => rfl⟩
      · rw [if_neg h3]
        refine ⟨⟨?_, fun h => absurd h hnot⟩, ?_⟩
        · intro h
          exfalso
          simp only at h
          split_ifs at h
          · exact absurd (show RC_BAD = RC_INVALID_INPUT from h) (by decide)
          · exact absurd (show RC_OK = RC_INVALID_INPUT from h) (by decide)
        · intro _ hex
          obtain ⟨j, hj, hd⟩ := hex
          exact absurd ((has_non_digit_iff s n 0).mpr ⟨j, Nat.zero_le _, by omega, hd⟩) h3

/-- C21: `safe_atoi_u32` returns `RC_INVALID_INPUT` exactly when the declared
length is 0 or above 10, or the terminator check is on and the byte at index
length is not NUL, whatever the bytes are; otherwise it returns `RC_BAD`
(and writes nothing) whenever a byte below the length is not a digit.  The
examples of the claim are evaluated with a 32-bit `size_t`. -/
theorem safe_atoi_u32_classification (size_bits : Nat) (s : List Char) (n : Nat)
    (check : Bool) :
    ((safe_atoi_u32 size_bits s n check).1 = RC_INVALID_INPUT
        ↔ (n = 0 ∨ n > 10 ∨ (check = true ∧ byteAt s n ≠ NUL)))
      ∧ (¬ (n = 0 ∨ n > 10 ∨ (check = true ∧ byteAt s n ≠ NUL)) →
          (∃ j, j < n ∧ (byteAt s j < '0' ∨ byteAt s j > '9')) →
          safe_atoi_u32 size_bits s n check = (RC_BAD, none))
      ∧ safe_atoi_u32 32 "".toList 0 true = (RC_INVALID_INPUT, none)
      ∧ safe_atoi_u32 32 "12345678901".toList 11 true = (RC_INVALID_INPUT, none)
      ∧ safe_atoi_u32 32 "12a".toList 3 true = (RC_BAD, none)
      ∧ safe_atoi_u32 32 "12".toList 1 true = (RC_INVALID_INPUT, none)
      ∧ safe_atoi_u32 32 "12".toList 1 false = (RC_OK, some 1) :=
  ⟨(safe_atoi_u32_results size_bits s n check).1, (safe_atoi_u32_results size_bits s n check).2,
    by decide, by decide, by decide, by decide, by decide⟩

/-! ## Claim C27: key names as commands -/

/-- The single key fallback with the state it leaves. -/
theorem interpreter_fallback_state (size_bits cap fuel : Nat) (st : State) (line : List Char)
    (len : Nat) (h0 : byteAt line 0 ≠ NUL)
    (hno : ∀ P ∈ directive_prefixes, strncmp line P (strlen P) ≠ 0) :
    ducky_script_interpreter size_bits cap (fuel + 1) st line len
      = some (if ducky_key_to_hid_byte line = KEY_UNDEFINED_ERROR
          then (RC_BAD, State.mk st.default_delay (snprintf_s st.last_command cap line), [])
          else (RC_OK, State.mk st.default_delay (snprintf_s st.last_command cap line),
            [Event.write (ducky_key_to_hid_byte line)])) := by
  rw [interpreter_after_store size_bits cap fuel st line len h0
      (hno _ (by decide)) (hno _ (by decide)) (hno _ (by decide)), interpret_stored]
  have hs : ∀ P ∈ stored_directives, strncmp line P (strlen P) ≠ 0 :=
    fun P hP => hno P (List.mem_of_mem_drop hP)
  simp only [hs "DEFAULT_DELAY".toList (by decide), hs "DEFAULTDELAY".toList (by decide),
    hs "DELAY".toList (by decide), hs "STRING_DELAY".toList (by decide),
    hs "STRING".toList (by decide), hs "CTRL-ALT".toList (by decide),
    hs "CTRL-SHIFT".toList (by decide), hs "ALT-SHIFT".toList (by decide),
    hs "ALT-TAB".toList (by decide), hs "COMMAND-OPTION".toList (by decide),
    hs "GUI".toList (by decide), hs "WINDOWS".toList (by decide),
    hs "COMMAND".toList (by decide), hs "CONTROL".toList (by decide),
    hs "CTRL".toList (by decide), hs "ALT".toList (by decide), hs "SHIFT".toList (by decide),
    or_self, if_false]
  by_cases hk : ducky_key_to_hid_byte line = KEY_UNDEFINED_ERROR
  · rw [if_pos hk, if_pos hk]
  · rw [if_neg hk, if_neg hk]

set_option maxRecDepth 100000 in
theorem key_names_match_no_directive :
    ∀ k ∈ key_names, ∀ P ∈ directive_prefixes, strncmp k P (strlen P) ≠ 0 := by
  decide

theorem key_names_shape : ∀ k ∈ key_names, byteAt k 0 ≠ NUL ∧ k.length ≤ 16 := by
  decide

/-- C27: for every name `k` (a text without NUL byte) that
`ducky_key_to_hid_byte` recognizes, none of the twenty directive prefix checks
matches the line `k`; interpreting the line `k` emits exactly one write of the
code of `k` and returns `RC_OK`, and `last_command` is `k` (the buffer being
longer than the name; no name has more than 16 bytes). -/
theorem key_name_stand_alone (size_bits cap fuel : Nat) (st : State) (k : List Char)
    (len : Nat) (hk : ducky_key_to_hid_byte k ≠ KEY_UNDEFINED_ERROR)
    (hnul : ∀ c ∈ k, c ≠ NUL) (hcap : k.length < cap) :
    (∀ P ∈ directive_prefixes, strncmp k P (strlen P) ≠ 0)
      ∧ ducky_script_interpreter size_bits cap (fuel + 1) st k len
          = some (RC_OK, State.mk st.default_delay k, [Event.write (ducky_key_to_hid_byte k)])
      ∧ k.length ≤ 16 := by
  have hmem : k ∈ key_names := by
    by_contra hcon
    exact hk ((ducky_key_to_hid_byte_sentinel_iff k hnul).mpr hcon)
  have hno := key_names_match_no_directive k hmem
  refine ⟨hno, ?_, (key_names_shape k hmem).2⟩
  rw [interpreter_fallback_state size_bits cap fuel st k len (key_names_shape k hmem).1 hno,
    if_neg hk, snprintf_s_eq _ _ _ hnul hcap]

/-- The command of C27 for the key name `MEDIA_PLAY_PAUSE` in a 64-byte
buffer. -/
theorem key_name_stand_alone_witness :
    ducky_key_to_hid_byte "MEDIA_PLAY_PAUSE".toList ≠ KEY_UNDEFINED_ERROR
      ∧ (∀ c ∈ "MEDIA_PLAY_PAUSE".toList, c ≠ NUL) ∧ "MEDIA_PLAY_PAUSE".toList.length < 64
      ∧ ducky_script_interpreter 32 64 (0 + 1) State.init "MEDIA_PLAY_PAUSE".toList 16
          = some (RC_OK, State.mk State.init.default_delay "MEDIA_PLAY_PAUSE".toList,
              [Event.write (ducky_key_to_hid_byte "MEDIA_PLAY_PAUSE".toList)]) :=
  ⟨by decide, by decide, by decide,
    (key_name_stand_alone 32 64 0 State.init "MEDIA_PLAY_PAUSE".toList 16
      (by decide) (by decide) (by decide)).2.1⟩

/-! ## Claims C25 and C28: the line assembler in general -/

/-- Where a `while` loop of the assembler returns a line, the bytes before
the last one read held no terminator, the last one read is a terminator or
fills the buffer, and what follows it is left in the source. -/
theorem drain_line_inv (max1 : Nat) (src : List Char) : ∀ (buf : List Char) (i : Nat)
    (b : List Char) (n : Nat) (rest : List Char), i < 65536 →
    drain max1 src buf i = some (Drained.line b n rest) →
    ∃ used last, src = used ++ last :: rest ∧ (∀ c ∈ used, c ≠ '\n' ∧ c ≠ '\r')
      ∧ ((last = '\n' ∨ last = '\r') ∧ n < max1 ∨ n ≥ max1) := by
  induction src with
  | nil => intro buf i b n rest _ h; simp [drain] at h
  | cons c src ih =>
    intro buf i b n rest h16 h
    rw [drain] at h
    by_cases hi : i < buf.length
    · rw [if_pos hi] at h
      by_cases hcap : (i + 1) % 65536 ≥ max1
      · simp only [if_pos hcap] at h
        by_cases hb : max1 < (buf.set i c).length
        · rw [if_pos hb] at h
          simp only [Option.some.injEq, Drained.line.injEq] at h
          exact ⟨[], c, by simp [h.2.2], by simp, Or.inr (by omega)⟩
        · rw [if_neg hb] at h; simp at h
      · simp only [if_neg hcap] at h
        by_cases hz : (i + 1) % 65536 = 0
        · rw [if_pos hz] at h; simp at h
        · rw [if_neg hz] at h
          have hmod : (i + 1) % 65536 = i + 1 := by
            apply Nat.mod_eq_of_lt
            by_contra hcon
            have : i + 1 = 65536 := by omega
            rw [this] at hz
            exact hz (by norm_num)
          simp only [hmod, Nat.add_sub_cancel, byteAt_set_self buf i c hi] at h
          by_cases ht : c = '\n' ∨ c = '\r'
          · rw [if_pos ht] at h
            simp only [Option.some.injEq, Drained.line.injEq] at h
            rw [hmod] at hcap
            exact ⟨[], c, by simp [h.2.2], by simp, Or.inl ⟨ht, by omega⟩⟩
          · rw [if_neg ht] at h
            obtain ⟨used, last, hsrc, hused, hlast⟩ := ih _ _ _ _ _ (by omega) h
            refine ⟨c :: used, last, by simp [hsrc], ?_, hlast⟩
            intro d hd
            rcases List.mem_cons.mp hd with hd | hd
            · rw [hd]; exact ⟨fun hh => ht (Or.inl hh), fun hh => ht (Or.inr hh)⟩
            · exact hused d hd
    · rw [if_neg hi] at h; simp at h

/-- A `while` loop of the assembler that starts below the capacity limit, in
a buffer longer than the limit, stays inside the buffer: it ends with the
source read empty and the count still below the limit, or with a line whose
length is at most the limit and the NUL stored at that index. -/
theorem drain_total (max1 : Nat) (src : List Char) : ∀ (buf : List Char) (i : Nat),
    i < max1 → max1 < buf.length → max1 < 65536 →
    (∃ b n, drain max1 src buf i = some (Drained.empty b n) ∧ b.length = buf.length
        ∧ n < max1 ∧ ∀ c ∈ src, c ≠ '\n' ∧ c ≠ '\r')
      ∨ ∃ b n rest, drain max1 src buf i = some (Drained.line b n rest)
          ∧ b.length = buf.length ∧ n ≤ max1 ∧ byteAt b n = NUL := by
  induction src with
  | nil => intro buf i hi _ _; exact Or.inl ⟨buf, i, rfl, rfl, hi, by simp⟩
  | cons c src ih =>
    intro buf i hi hbuf h16
    have hib : i < buf.length := by omega
    have hmod : (i + 1) % 65536 = i + 1 := Nat.mod_eq_of_lt (by omega)
    rw [drain, if_pos hib]
    simp only [hmod, Nat.add_sub_cancel, byteAt_set_self buf i c hib]
    by_cases hcap : i + 1 ≥ max1
    · rw [if_pos hcap, if_pos (by rw [List.length_set]; exact hbuf)]
      have hfull : i + 1 = max1 := by omega
      refine Or.inr ⟨_, _, _, rfl, by simp, by omega, ?_⟩
      rw [hfull]
      exact byteAt_set_self (buf.set i c) max1 NUL (by rw [List.length_set]; exact hbuf)
    · rw [if_neg hcap, if_neg (by omega)]
      by_cases ht : c = '\n' ∨ c = '\r'
      · rw [if_pos ht]
        refine Or.inr ⟨_, _, _, rfl, by simp, by omega, ?_⟩
        exact byteAt_set_self (buf.set i c) i NUL (by rw [List.length_set]; exact hib)
      · rw [if_neg ht]
        rcases ih (buf.set i c) (i + 1) (by omega) (by rw [List.length_set]; exact hbuf) h16
          with ⟨b, n, h1, hb, hn, hsrc⟩ | ⟨b, n, rest, h1, hb, hn, hz⟩
        · refine Or.inl ⟨b, n, h1, by rw [hb, List.length_set], hn, ?_⟩
          intro d hd
          rcases List.mem_cons.mp hd with hd | hd
          · rw [hd]; exact ⟨fun hh => ht (Or.inl hh), fun hh => ht (Or.inr hh)⟩
          · exact hsrc d hd
        · exact Or.inr ⟨b, n, rest, h1, by rw [hb, List.length_set], hn, hz⟩

/-- The line assembler called with a count below `C - 1` on a buffer of `C`
bytes always returns, never `RC_INVALID_INPUT`, and never touches a byte
outside the buffer: the result is a line of at most `C - 1` bytes with the
NUL stored behind it, or no line yet and a count still below `C - 1`. -/
theorem serial_line_received_total (size_bits C : Nat) (buf : List Char) (o : Nat)
    (hw sw : List Char) (hsize : C < 2 ^ size_bits) (h16 : C ≤ 65536)
    (hbuf : buf.length = C) (ho : o < C - 1) :
    ∃ r, serial_line_received size_bits buf o C hw sw = some r
      ∧ r.my_rx_buffer.length = C
      ∧ (r.rc = RC_OK ∧ r.rx_buffer_received_bytes ≤ C - 1
            ∧ byteAt r.my_rx_buffer r.rx_buffer_received_bytes = NUL
          ∨ r.rc = RC_BAD ∧ r.rx_buffer_received_bytes < C - 1) := by
  have hmax := max_size_pred size_bits C (by omega) hsize
  simp only [serial_line_received, hmax]
  rw [if_neg (by omega)]
  rcases drain_total (C - 1) hw buf o ho (by omega) (by omega) with
    ⟨b, n, h1, hb, hn, _⟩ | ⟨b, n, rest, h1, hb, hn, hz⟩
  · rw [h1]
    rcases drain_total (C - 1) sw b n hn (by omega) (by omega) with
      ⟨b2, n2, h2, hb2, hn2, _⟩ | ⟨b2, n2, rest2, h2, hb2, hn2, hz2⟩
    · simp only [h2]
      exact ⟨_, rfl, by simp [hb2, hb, hbuf], Or.inr ⟨rfl, hn2⟩⟩
    · simp only [h2]
      exact ⟨_, rfl, by simp [hb2, hb, hbuf], Or.inl ⟨rfl, hn2, hz2⟩⟩
  · rw [h1]
    exact ⟨_, rfl, by simp [hb, hbuf], Or.inl ⟨rfl, hn, hz⟩⟩

/-- Every state the poll loop reaches has a buffer of `C` bytes and a write
offset below `C - 1`. -/
theorem loop_reachable_inv (size_bits C : Nat) (hC : 2 ≤ C) (hsize : C < 2 ^ size_bits)
    (h16 : C ≤ 65536) (d : Device) (hd : LoopReachable size_bits C d) :
    d._rx_buffer.length = C ∧ d._rx_buffer_received_bytes < C - 1 := by
  induction hd with
  | start d hlen hoff => exact ⟨hlen, by omega⟩
  | arrive d hw sw _ ih => exact ih
  | iterate d d1 fuel _ hloop ih =>
    obtain ⟨r, hr, hlen, hcase⟩ :=
      serial_line_received_total size_bits C d._rx_buffer d._rx_buffer_received_bytes
        d.serial d.swserial hsize h16 ih.1 ih.2
    rw [loop, hr] at hloop
    simp only at hloop
    rcases hcase with ⟨hrc, _, _⟩ | ⟨hrc, hn⟩
    · rw [if_pos hrc] at hloop
      cases hi : ducky_script_interpreter size_bits C fuel d.st r.my_rx_buffer
          r.rx_buffer_received_bytes with
      | none => rw [hi] at hloop; simp at hloop
      | some x =>
        obtain ⟨rc, st1, ev⟩ := x
        rw [hi] at hloop
        simp only [Option.some.injEq] at hloop
        rw [← hloop]
        exact ⟨hlen, by show 0 < C - 1; omega⟩
    · rw [if_neg (by rw [hrc]; decide)] at hloop
      simp only [Option.some.injEq] at hloop
      rw [← hloop]
      exact ⟨hlen, hn⟩

/-- A line-ready return of the assembler stops at the boundary: the bytes
taken before the last one held no terminator, the last one is a terminator
below the capacity limit or the byte that reaches the limit, and everything
behind it is still unread on its port.  The software port is only read when
the hardware port was read empty without a boundary. -/
theorem serial_line_received_boundary (size_bits C : Nat) (buf : List Char) (o : Nat)
    (hw sw : List Char) (r : Received) (hsize : C < 2 ^ size_bits) (h16 : C ≤ 65536)
    (hbuf : buf.length = C) (ho : o < C - 1)
    (hr : serial_line_received size_bits buf o C hw sw = some r) (hrc : r.rc = RC_OK) :
    ∃ used last, (∀ c ∈ used, c ≠ '\n' ∧ c ≠ '\r')
      ∧ ((last = '\n' ∨ last = '\r') ∧ r.rx_buffer_received_bytes < C - 1
          ∨ r.rx_buffer_received_bytes ≥ C - 1)
      ∧ (hw = used ++ last :: r.serial ∧ r.swserial = sw
          ∨ (∀ c ∈ hw, c ≠ '\n' ∧ c ≠ '\r') ∧ r.serial = []
              ∧ sw = used ++ last :: r.swserial) := by
  have hmax := max_size_pred size_bits C (by omega) hsize
  simp only [serial_line_received, hmax] at hr
  rw [if_neg (by omega)] at hr
  rcases drain_total (C - 1) hw buf o ho (by omega) (by omega) with
    ⟨b, n, h1, hb, hn, hsrc⟩ | ⟨b, n, rest, h1, hb, hn, hz⟩
  · simp only [h1] at hr
    rcases drain_total (C - 1) sw b n hn (by omega) (by omega) with
      ⟨b2, n2, h2, hb2, hn2, _⟩ | ⟨b2, n2, rest2, h2, hb2, hn2, hz2⟩
    · simp only [h2, Option.some.injEq] at hr
      rw [← hr] at hrc
      exact absurd (show RC_BAD = RC_OK from hrc) (by decide)
    · obtain ⟨used, last, hsplit, hused, hlast⟩ :=
        drain_line_inv (C - 1) sw b n b2 n2 rest2 (by omega) h2
      simp only [h2, Option.some.injEq] at hr
      rw [← hr]
      exact ⟨used, last, hused, hlast, Or.inr ⟨hsrc, rfl, hsplit⟩⟩
  · obtain ⟨used, last, hsplit, hused, hlast⟩ :=
      drain_line_inv (C - 1) hw buf o b n rest (by omega) h1
    simp only [h1, Option.some.injEq] at hr
    rw [← hr]
    exact ⟨used, last, hused, hlast, Or.inl ⟨hsplit, rfl⟩⟩

/-- Without a boundary both ports are read empty, the hardware port first. -/
theorem serial_line_received_no_line (size_bits C o : Nat) (buf p q : List Char)
    (hsize : C < 2 ^ size_bits) (h16 : C ≤ 65536) (hbuf : buf.length = C)
    (hp : ∀ c ∈ p, c ≠ '\n' ∧ c ≠ '\r') (hq : ∀ c ∈ q, c ≠ '\n' ∧ c ≠ '\r')
    (hfit : o + p.length + q.length < C - 1) :
    serial_line_received size_bits buf o C p q
      = some ⟨RC_BAD, buf.take o ++ (p ++ q) ++ buf.drop (o + (p ++ q).length),
          o + p.length + q.length, [], []⟩ := by
  have hmax := max_size_pred size_bits C (by omega) hsize
  have h1 := drain_plain (C - 1) p buf o hp (by omega) (by omega) (by omega)
  have h2 := drain_plain (C - 1) q (writeAt buf o p) (o + p.length) hq (by omega) (by omega)
    (by rw [writeAt_length]; omega)
  rw [← writeAt_append, writeAt_eq (p ++ q) buf o (by rw [List.length_append]; omega)] at h2
  simp only [serial_line_received, hmax, h1, h2]
  rw [if_neg (by omega)]

/-- C25: without a line boundary the assembler drains both ports in priority
order.  For a buffer of `C` bytes (`C` within the range of `size_t` and of the
`uint16_t` offset), an offset `o`, and bytes `p` on the hardware port and `q`
on the software port without terminator and with
`o + length p + length q < C - 1`, the call returns `RC_BAD`, leaves both ports
empty, stores `p` followed by `q` from index `o` on with the other bytes of the
buffer unchanged, and reports the offset `o + length p + length q`.  For any
other bytes `hw` and `sw` on the ports, a line-ready return stops at the
boundary: the bytes behind the terminator, or behind the byte that reaches
the capacity limit, are still unread. -/
theorem serial_line_received_drains_in_order (size_bits C o : Nat) (buf p q : List Char)
    (hsize : C < 2 ^ size_bits) (h16 : C ≤ 65536) (hbuf : buf.length = C)
    (hp : ∀ c ∈ p, c ≠ '\n' ∧ c ≠ '\r') (hq : ∀ c ∈ q, c ≠ '\n' ∧ c ≠ '\r')
    (hfit : o + p.length + q.length < C - 1) :
    serial_line_received size_bits buf o C p q
        = some ⟨RC_BAD, buf.take o ++ (p ++ q) ++ buf.drop (o + (p ++ q).length),
            o + p.length + q.length, [], []⟩
      ∧ ∀ (hw sw : List Char) (r : Received),
          serial_line_received size_bits buf o C hw sw = some r → r.rc = RC_OK →
          ∃ used last, (∀ c ∈ used, c ≠ '\n' ∧ c ≠ '\r')
            ∧ ((last = '\n' ∨ last = '\r') ∧ r.rx_buffer_received_bytes < C - 1
                ∨ r.rx_buffer_received_bytes ≥ C - 1)
            ∧ (hw = used ++ last :: r.serial ∧ r.swserial = sw
                ∨ (∀ c ∈ hw, c ≠ '\n' ∧ c ≠ '\r') ∧ r.serial = []
                    ∧ sw = used ++ last :: r.swserial) :=
  ⟨serial_line_received_no_line size_bits C o buf p q hsize h16 hbuf hp hq hfit,
    fun hw sw r hr hrc =>
      serial_line_received_boundary size_bits C buf o hw sw r hsize h16 hbuf (by omega) hr hrc⟩

/-- The draining of C25 with capacity 8, offset 1, two bytes on the hardware
port and one on the software port. -/
theorem serial_line_received_drains_in_order_witness :
    8 < 2 ^ 16 ∧ 8 ≤ 65536 ∧ "xyzuvwst".toList.length = 8
      ∧ (∀ c ∈ "ab".toList, c ≠ '\n' ∧ c ≠ '\r') ∧ (∀ c ∈ "c".toList, c ≠ '\n' ∧ c ≠ '\r')
      ∧ 1 + "ab".toList.length + "c".toList.length < 8 - 1
      ∧ (serial_line_received 16 "xyzuvwst".toList 1 8 "ab".toList "c".toList
          = some ⟨RC_BAD, "xyzuvwst".toList.take 1 ++ ("ab".toList ++ "c".toList)
              ++ "xyzuvwst".toList.drop (1 + ("ab".toList ++ "c".toList).length),
              1 + "ab".toList.length + "c".toList.length, [], []⟩
        ∧ ∀ (hw sw : List Char) (r : Received),
            serial_line_received 16 "xyzuvwst".toList 1 8 hw sw = some r → r.rc = RC_OK →
            ∃ used last, (∀ c ∈ used, c ≠ '\n' ∧ c ≠ '\r')
              ∧ ((last = '\n' ∨ last = '\r') ∧ r.rx_buffer_received_bytes < 8 - 1
                  ∨ r.rx_buffer_received_bytes ≥ 8 - 1)
              ∧ (hw = used ++ last :: r.serial ∧ r.swserial = sw
                  ∨ (∀ c ∈ hw, c ≠ '\n' ∧ c ≠ '\r') ∧ r.serial = []
                      ∧ sw = used ++ last :: r.swserial)) :=
  ⟨by decide, by decide, by decide, by decide, by decide, by decide,
    serial_line_received_drains_in_order 16 8 1 "xyzuvwst".toList "ab".toList "c".toList
      (by decide) (by decide) (by decide) (by decide) (by decide) (by decide)⟩

/-- C28: the poll loop never trips the guard of the assembler and never
leaves the buffer.  For a capacity `C ≥ 2` (within the range of `size_t` and
of the `uint16_t` offset) and every state the loop reaches from offset 0,
whatever bytes arrive on the two ports: the offset at the start of the
iteration is below `C - 1` and the buffer has `C` bytes; the assembler
returns, without an access outside the buffer and not with
`RC_INVALID_INPUT`; on a line-ready return the reported length is at most
`C - 1` and the buffer holds NUL at that index; and after the iteration that
interprets the line the offset is 0. -/
theorem loop_stays_inside_buffer (size_bits C : Nat) (hC : 2 ≤ C)
    (hsize : C < 2 ^ size_bits) (h16 : C ≤ 65536) (d : Device)
    (hd : LoopReachable size_bits C d) :
    d._rx_buffer_received_bytes < C - 1 ∧ d._rx_buffer.length = C
      ∧ ∃ r, serial_line_received size_bits d._rx_buffer d._rx_buffer_received_bytes C
              d.serial d.swserial = some r
          ∧ r.rc ≠ RC_INVALID_INPUT ∧ r.my_rx_buffer.length = C
          ∧ (r.rc = RC_OK → r.rx_buffer_received_bytes ≤ C - 1
                ∧ byteAt r.my_rx_buffer r.rx_buffer_received_bytes = NUL)
          ∧ (r.rc ≠ RC_OK → r.rx_buffer_received_bytes < C - 1)
          ∧ ∀ fuel d1, loop size_bits C fuel d = some d1 →
              d1._rx_buffer = r.my_rx_buffer
                ∧ d1._rx_buffer_received_bytes
                    = (if r.rc = RC_OK then 0 else r.rx_buffer_received_bytes) := by
  obtain ⟨hlen, hoff⟩ := loop_reachable_inv size_bits C hC hsize h16 d hd
  obtain ⟨r, hr, hrlen, hcase⟩ :=
    serial_line_received_total size_bits C d._rx_buffer d._rx_buffer_received_bytes
      d.serial d.swserial hsize h16 hlen hoff
  refine ⟨hoff, hlen, r, hr, ?_, hrlen, ?_, ?_, ?_⟩
  · rcases hcase with ⟨hrc, _, _⟩ | ⟨hrc, _⟩ <;> rw [hrc] <;> decide
  · rcases hcase with ⟨_, hn, hz⟩ | ⟨hrc, _⟩
    · exact fun _ => ⟨hn, hz⟩
    · intro h; rw [hrc] at h; exact absurd h (by decide)
  · rcases hcase with ⟨hrc, _, _⟩ | ⟨_, hn⟩
    · exact fun h => absurd hrc h
    · exact fun _ => hn
  · intro fuel d1 hloop
    rw [loop, hr] at hloop
    simp only at hloop
    by_cases hrc : r.rc = RC_OK
    · rw [if_pos hrc] at hloop
      rw [if_pos hrc]
      cases hi : ducky_script_interpreter size_bits C fuel d.st r.my_rx_buffer
          r.rx_buffer_received_bytes with
      | none => rw [hi] at hloop; simp at hloop
      | some x =>
        obtain ⟨rc, st1, ev⟩ := x
        rw [hi] at hloop
        simp only [Option.some.injEq] at hloop
        rw [← hloop]
        exact ⟨rfl, rfl⟩
    · rw [if_neg hrc] at hloop
      rw [if_neg hrc]
      simp only [Option.some.injEq] at hloop
      rw [← hloop]
      exact ⟨rfl, rfl⟩

/-- The poll loop of C28 with capacity 4 after one iteration that took the
line `a` from the hardware port and left `bcdef` behind. -/
theorem loop_stays_inside_buffer_witness :
    2 ≤ 4 ∧ 4 < 2 ^ 16 ∧ 4 ≤ 65536
      ∧ LoopReachable 16 4 ⟨[ 'a', NUL, NUL, NUL], 0, "bcdef".toList, [], ⟨100, "a".toList⟩,
          [Event.write 4, Event.delay 100]⟩
      ∧ (0 < 4 - 1 ∧ [ 'a', NUL, NUL, NUL].length = 4
        ∧ ∃ r, serial_line_received 16 [ 'a', NUL, NUL, NUL] 0 4 "bcdef".toList [] = some r
          ∧ r.rc ≠ RC_INVALID_INPUT ∧ r.my_rx_buffer.length = 4
          ∧ (r.rc = RC_OK → r.rx_buffer_received_bytes ≤ 4 - 1
                ∧ byteAt r.my_rx_buffer r.rx_buffer_received_bytes = NUL)
          ∧ (r.rc ≠ RC_OK → r.rx_buffer_received_bytes < 4 - 1)
          ∧ ∀ fuel d1, loop 16 4 fuel ⟨[ 'a', NUL, NUL, NUL], 0, "bcdef".toList, [],
                ⟨100, "a".toList⟩, [Event.write 4, Event.delay 100]⟩ = some d1 →
              d1._rx_buffer = r.my_rx_buffer
                ∧ d1._rx_buffer_received_bytes
                    = (if r.rc = RC_OK then 0 else r.rx_buffer_received_bytes)) :=
  have hreach : LoopReachable 16 4 ⟨[ 'a', NUL, NUL, NUL], 0, "bcdef".toList, [],
      ⟨100, "a".toList⟩, [Event.write 4, Event.delay 100]⟩ :=
    LoopReachable.iterate ⟨[NUL, NUL, NUL, NUL], 0, "a\nbcdef".toList, [], State.init, []⟩ _ 1
      (LoopReachable.start _ rfl rfl) (by decide)
  ⟨by decide, by decide, by decide, hreach,
    loop_stays_inside_buffer 16 4 (by decide) (by decide) (by decide) _ hreach⟩

/-! ## Claim C24: the exact word count of a line with single spaces -/

/-- A space whose next byte is a space or NUL is never counted. -/
theorem cstr_count_words_loop_trail (s : List Char) (len : Nat) :
    ∀ (j fuel p n : Nat), (∀ k, k < j → byteAt s (p + k) = ' ') → byteAt s (p + j) = NUL →
      cstr_count_words_loop s len fuel p n = n := by
  intro j
  induction j with
  | zero =>
    intro fuel p n _ hz
    cases fuel with
    | zero => rfl
    | succ fuel =>
      rw [cstr_count_words_loop]
      split_ifs <;> first | rfl | exact absurd hz (by assumption)
  | succ j ih =>
    intro fuel p n hsp hz
    cases fuel with
    | zero => rfl
    | succ fuel =>
      have h0 : byteAt s p = ' ' := hsp 0 (by omega)
      have hrest := ih fuel (p + 1) n
        (fun k hk => by rw [Nat.add_assoc, Nat.add_comm 1 k]; exact hsp (k + 1) (by omega))
        (by rw [Nat.add_assoc, Nat.add_comm 1 j]; exact hz)
      have hnext : byteAt s (p + 1) = ' ' ∨ byteAt s (p + 1) = NUL := by
        cases j with
        | zero => exact Or.inr hz
        | succ j => exact Or.inl (hsp 1 (by omega))
      rw [cstr_count_words_loop]
      by_cases hp : p < len
      · rw [if_pos hp, h0, if_neg (by decide), if_neg (by simp)]
        by_cases hprev : byteAt s (p - 1) = ' ' ∨ byteAt s (p - 1) = '\r'
            ∨ byteAt s (p - 1) = '\n'
        · rw [if_pos hprev, hrest]
        · rw [if_neg hprev]
          rcases hnext with hnext | hnext
          · rw [if_pos (Or.inl hnext), hrest]
          · rw [hnext, if_neg (by decide), if_pos rfl, hrest]
      · rw [if_neg hp]

/-- The loop on a run of tokens, each with one space before it, behind a word
byte: every token adds one to the count. -/
theorem cstr_count_words_loop_tokens (s : List Char) (len : Nat) :
    ∀ (ts : List (List Char)) (p fuel n : Nat), 1 ≤ p → wordByte (byteAt s (p - 1)) →
      (∀ j, j < (ts.flatMap (fun t => ' ' :: t)).length →
        byteAt s (p + j) = byteAt (ts.flatMap (fun t => ' ' :: t)) j) →
      (∀ t ∈ ts, t ≠ [] ∧ ∀ c ∈ t, wordByte c) →
      p + (ts.flatMap (fun t => ' ' :: t)).length ≤ len →
      cstr_count_words_loop s len (fuel + (ts.flatMap (fun t => ' ' :: t)).length) p n
        = cstr_count_words_loop s len fuel (p + (ts.flatMap (fun t => ' ' :: t)).length)
            (n + ts.length) := by
  intro ts
  induction ts with
  | nil => intro p fuel n _ _ _ _ _; rfl
  | cons t rest ih =>
    intro p fuel n hp hprev hs htok hlen
    obtain ⟨htne, htw⟩ := htok t (List.mem_cons_self _ _)
    have htl : 0 < t.length := List.length_pos.mpr htne
    simp only [List.flatMap_cons, List.cons_append, List.length_cons, List.length_append]
      at hs hlen ⊢
    -- the bytes of the line at this token
    have hsp : byteAt s p = ' ' := by
      have := hs 0 (by omega)
      simpa [byteAt] using this
    have htok_byte : ∀ k, k < t.length → byteAt s (p + 1 + k) = byteAt t k := by
      intro k hk
      have := hs (k + 1) (by omega)
      rw [show p + (k + 1) = p + 1 + k by omega] at this
      rw [this]
      show byteAt (t ++ _) k = _
      exact byteAt_append_left _ _ _ hk
    have hword : ∀ k, k < t.length → wordByte (byteAt s (p + 1 + k)) := by
      intro k hk
      rw [htok_byte k hk]
      exact htw _ (byteAt_of_mem_index _ _ hk)
    have hrest_byte : ∀ j, j < (rest.flatMap (fun t => ' ' :: t)).length →
        byteAt s (p + 1 + t.length + j) = byteAt (rest.flatMap (fun t => ' ' :: t)) j := by
      intro j hj
      have := hs (t.length + j + 1) (by omega)
      rw [show p + (t.length + j + 1) = p + 1 + t.length + j by omega] at this
      rw [this]
      show byteAt (t ++ _) (t.length + j) = _
      exact byteAt_append_right _ _ _
    have e1 : fuel + (t.length + (rest.flatMap (fun t => ' ' :: t)).length + 1)
        = (fuel + (rest.flatMap (fun t => ' ' :: t)).length + t.length) + 1 := by omega
    rw [e1, cstr_count_words_loop_sep s len _ p n (by omega) hsp hprev (hword 0 htl),
      cstr_count_words_loop_skip s len t.length _ (p + 1) (n + 1)
        (fun j hj1 hj2 => by
          have := hword (j - (p + 1)) (by omega)
          rwa [show p + 1 + (j - (p + 1)) = j by omega] at this)
        (by omega),
      ih (p + 1 + t.length) fuel (n + 1) (by omega)
        (by
          have := hword (t.length - 1) (by omega)
          rwa [show p + 1 + (t.length - 1) = p + 1 + t.length - 1 by omega] at this)
        hrest_byte (fun u hu => htok u (List.mem_cons_of_mem _ hu)) (by omega)]
    congr 1 <;> omega

/-- Tokens joined by single spaces: the first token, then every other token
with a space before it. -/
theorem intercalate_space (t : List Char) (ts : List (List Char)) :
    List.intercalate [ ' '] (t :: ts) = t ++ ts.flatMap (fun u => ' ' :: u) := by
  induction ts generalizing t with
  | nil => simp [List.intercalate]
  | cons u rest ih =>
    have := ih u
    simp only [List.intercalate, List.intersperse_cons_cons, List.flatten_cons,
      List.flatMap_cons] at this ⊢
    rw [this]
    simp

/-- The word count of tokens joined by single spaces, with trailing spaces. -/
theorem cstr_count_words_exact (t : List Char) (ts : List (List Char)) (j : Nat)
    (htok : ∀ u ∈ t :: ts, u ≠ [] ∧ ∀ c ∈ u, wordByte c) :
    cstr_count_words (t ++ ts.flatMap (fun u => ' ' :: u) ++ List.replicate j ' ')
        (t ++ ts.flatMap (fun u => ' ' :: u) ++ List.replicate j ' ').length
      = ts.length + 1 := by
  obtain ⟨htne, htw⟩ := htok t (List.mem_cons_self _ _)
  have htl : 0 < t.length := List.length_pos.mpr htne
  have hbt : ∀ k, k < t.length →
      wordByte (byteAt (t ++ ts.flatMap (fun u => ' ' :: u) ++ List.replicate j ' ') k) := by
    intro k hk
    rw [List.append_assoc, byteAt_append_left _ _ _ hk]
    exact htw _ (byteAt_of_mem_index _ _ hk)
  have hlen : (t ++ ts.flatMap (fun u => ' ' :: u) ++ List.replicate j ' ').length
      = ((j + 1) + (ts.flatMap (fun u => ' ' :: u)).length) + (t.length - 1) := by
    simp only [List.length_append, List.length_replicate]
    omega
  rw [cstr_count_words, if_neg (hbt 0 htl).1]
  nth_rewrite 2 [hlen]
  rw [cstr_count_words_loop_skip _ _ (t.length - 1) _ 1 1
      (fun k _ hk2 => hbt k (by omega))
      (by simp only [List.length_append]; omega),
    show 1 + (t.length - 1) = t.length by omega,
    cstr_count_words_loop_tokens _ _ ts t.length (j + 1) 1 (by omega)
      (hbt (t.length - 1) (by omega))
      (fun k hk => by
        rw [List.append_assoc, byteAt_append_right, byteAt_append_left _ _ _ hk])
      (fun u hu => htok u (List.mem_cons_of_mem _ hu))
      (by simp only [List.length_append]; omega),
    cstr_count_words_loop_trail _ _ j _ _ _
      (fun k hk => by
        rw [← List.length_append, Nat.add_comm _ k, Nat.add_comm k, byteAt_append_right]
        simp [byteAt, hk])
      (by
        rw [← List.length_append, byteAt_append_right]
        simp [byteAt, List.getElem?_replicate])]
  omega

/-- C24: the word count of a line whose tokens are separated by single spaces
is exact and ignores trailing spaces.  For a sequence of `k ≥ 1` non-empty
tokens free of space, `\r`, `\n` and NUL, joined by single spaces and followed
by `j ≥ 0` spaces, with the declared length equal to the length of the line,
`cstr_count_words` returns `k`.  The empty line gives 0, the line `A` gives 1
and the line `A B ` with a trailing space gives 2. -/
theorem cstr_count_words_single_spaced (toks : List (List Char)) (j : Nat)
    (hk : toks ≠ []) (htok : ∀ u ∈ toks, u ≠ [] ∧ ∀ c ∈ u, wordByte c) :
    cstr_count_words (List.intercalate [ ' '] toks ++ List.replicate j ' ')
        (List.intercalate [ ' '] toks ++ List.replicate j ' ').length = toks.length
      ∧ cstr_count_words [] 0 = 0
      ∧ cstr_count_words "A".toList 1 = 1
      ∧ cstr_count_words "A B ".toList 4 = 2 := by
  obtain ⟨t, ts, rfl⟩ := List.exists_cons_of_ne_nil hk
  refine ⟨?_, by decide, by decide, by decide⟩
  rw [intercalate_space, cstr_count_words_exact t ts j htok, List.length_cons]

/-- The count of C24 for the two tokens `GUI` and `r` with two trailing spaces. -/
theorem cstr_count_words_single_spaced_witness :
    [ "GUI".toList, "r".toList] ≠ []
      ∧ (∀ u ∈ [ "GUI".toList, "r".toList], u ≠ [] ∧ ∀ c ∈ u, wordByte c)
      ∧ (cstr_count_words
            (List.intercalate [ ' '] [ "GUI".toList, "r".toList] ++ List.replicate 2 ' ')
            (List.intercalate [ ' '] [ "GUI".toList, "r".toList]
              ++ List.replicate 2 ' ').length
          = [ "GUI".toList, "r".toList].length
        ∧ cstr_count_words [] 0 = 0
        ∧ cstr_count_words "A".toList 1 = 1
        ∧ cstr_count_words "A B ".toList 4 = 2) :=
  ⟨by decide, by decide,
    cstr_count_words_single_spaced [ "GUI".toList, "r".toList] 2 (by decide) (by decide)⟩

/-! ## Claim C26: no key is left held -/

theorem keys_held_append (a : List Event) : ∀ (held : List Nat) (b : List Event),
    keys_held held (a ++ b) = keys_held (keys_held held a) b := by
  induction a with
  | nil => intro held b; rfl
  | cons e a ih => intro held b; cases e <;> exact ih _ _

/-- Without a `releaseAll` the keys held before are still held. -/
theorem keys_held_no_release (tr : List Event) : ∀ (held : List Nat),
    Event.releaseAll ∉ tr → ∃ l, keys_held held tr = l ++ held := by
  induction tr with
  | nil => intro held _; exact ⟨[], rfl⟩
  | cons e tr ih =>
    intro held hno
    have hrest : Event.releaseAll ∉ tr := fun h => hno (List.mem_cons_of_mem _ h)
    cases e with
    | press k =>
      obtain ⟨l, hl⟩ := ih (k :: held) hrest
      exact ⟨l ++ [k], by rw [keys_held, hl]; simp⟩
    | releaseAll => exact absurd (List.mem_cons_self _ _) hno
    | write k => exact ih held hrest
    | print c => exact ih held hrest
    | delay ms => exact ih held hrest

/-- A trace after which no key is held has a `releaseAll` behind every press. -/
theorem release_follows_press (tr pre post : List Event) (k : Nat) (held : List Nat)
    (h : keys_held held tr = []) (hsplit : tr = pre ++ Event.press k :: post) :
    Event.releaseAll ∈ post := by
  by_contra hno
  rw [hsplit, keys_held_append, keys_held] at h
  obtain ⟨l, hl⟩ := keys_held_no_release post (k :: keys_held held pre) hno
  rw [hl] at h
  simp at h

theorem keys_held_release_last (tr : List Event) (held : List Nat) :
    keys_held held (tr ++ [Event.releaseAll]) = [] := by
  rw [keys_held_append]; rfl

theorem keys_held_print (l : List Char) : ∀ (held : List Nat),
    keys_held held (l.map Event.print) = held := by
  induction l with
  | nil => intro held; rfl
  | cons c l ih => intro held; exact ih held

theorem keys_held_string_delay (d : Nat) (l : List Char) : ∀ (held : List Nat),
    keys_held held (l.flatMap fun c => [Event.print c, Event.delay d]) = held := by
  induction l with
  | nil => intro held; rfl
  | cons c l ih => intro held; exact ih held

theorem modifier_combination_released (mods : List Nat) (argc : Nat) (ptr_cmd : List Char)
    (len : Nat) (st : State) :
    keys_held [] (modifier_combination mods argc ptr_cmd len st).2.2 = [] := by
  unfold modifier_combination
  split_ifs
  · split
    · rfl
    · exact keys_held_release_last _ _
  · exact keys_held_release_last _ _

theorem default_delay_directive_released (size_bits argc : Nat) (ptr_cmd : List Char)
    (len : Nat) (st : State) :
    keys_held [] (default_delay_directive size_bits argc ptr_cmd len st).2.2 = [] := by
  unfold default_delay_directive
  split_ifs
  · rfl
  · split
    · rfl
    · split
      split_ifs <;> rfl

theorem delay_directive_released (size_bits argc : Nat) (ptr_cmd : List Char)
    (len : Nat) (st : State) :
    keys_held [] (delay_directive size_bits argc ptr_cmd len st).2.2 = [] := by
  unfold delay_directive
  split_ifs
  · rfl
  · split
    · rfl
    · split
      split_ifs <;> rfl

theorem string_directive_released (argc : Nat) (ptr_cmd : List Char)
    (len : Nat) (st : State) :
    keys_held [] (string_directive argc ptr_cmd len st).2.2 = [] := by
  unfold string_directive
  split_ifs
  · rfl
  · split
    · rfl
    · exact keys_held_print _ _

theorem string_delay_directive_released (size_bits argc : Nat) (ptr_cmd : List Char)
    (len : Nat) (st : State) (r : Int × State × List Event)
    (h : string_delay_directive size_bits argc ptr_cmd len st = some r) :
    keys_held [] r.2.2 = [] := by
  unfold string_delay_directive at h
  split_ifs at h
  · cases h; rfl
  · split at h
    · cases h; rfl
    · split at h
      · cases h
      · split at h
        split_ifs at h
        · cases h; rfl
        · split at h
          · cases h; rfl
          · cases h; exact keys_held_string_delay _ _ _

/-- No directive handled after the store leaves a key held. -/
theorem interpret_stored_released (size_bits argc : Nat) (ptr_cmd : List Char)
    (len : Nat) (st : State) (r : Int × State × List Event)
    (h : interpret_stored size_bits argc ptr_cmd len st = some r) :
    keys_held [] r.2.2 = [] := by
  revert r
  unfold interpret_stored
  have step := option_ite_pred
    (fun x : Option (Int × State × List Event) => ∀ r, x = some r → keys_held [] r.2.2 = [])
  refine step _ _ _
    (fun _ r h => by cases h; exact default_delay_directive_released _ _ _ _ _) (fun _ => ?_)
  refine step _ _ _ (fun _ r h => by cases h; exact delay_directive_released _ _ _ _ _)
    (fun _ => ?_)
  refine step _ _ _ (fun _ r h => string_delay_directive_released _ _ _ _ _ _ h) (fun _ => ?_)
  refine step _ _ _ (fun _ r h => by cases h; exact string_directive_released _ _ _ _)
    (fun _ => ?_)
  iterate 9
    refine step _ _ _
      (fun _ r h => by
        cases h
        first
          | rfl
          | exact modifier_combination_released _ _ _ _ _)
      (fun _ => ?_)
  exact step (ducky_key_to_hid_byte ptr_cmd = KEY_UNDEFINED_ERROR) _ _
    (fun _ r h => by cases h; rfl) (fun _ r h => by cases h; rfl)

/-- The `REPEAT` loop leaves no key held when its body leaves none. -/
theorem repeat_loop_released (body : State → Option (State × List Event))
    (hbody : ∀ s x, body s = some x → keys_held [] x.2 = []) :
    ∀ (fuel i n : Nat) (st : State) (tr : List Event) (r : State × List Event),
      keys_held [] tr = [] → repeat_loop body fuel i n st tr = some r →
      keys_held [] r.2 = [] := by
  intro fuel
  induction fuel with
  | zero => intro i n st tr r _ h; cases h
  | succ fuel ih =>
    intro i n st tr r htr h
    rw [repeat_loop] at h
    split_ifs at h
    · cases hb : body st with
      | none => rw [hb] at h; cases h
      | some x =>
        rw [hb] at h
        exact ih _ _ _ _ _ (by rw [keys_held_append, htr]; exact hbody st x hb) h
    · cases h; exact htr

theorem repeat_directive_released (body : State → Option (State × List Event))
    (hbody : ∀ s x, body s = some x → keys_held [] x.2 = [])
    (size_bits fuel argc : Nat) (ptr_cmd : List Char) (len : Nat) (st : State)
    (r : Int × State × List Event)
    (h : repeat_directive body size_bits fuel argc ptr_cmd len st = some r) :
    keys_held [] r.2.2 = [] := by
  unfold repeat_directive at h
  split_ifs at h
  · cases h; rfl
  · cases h; rfl
  · split at h
    · cases h; rfl
    · split at h
      split_ifs at h
      · cases h; rfl
      · split at h
        · cases h
        · rename_i st1 tr hloop
          cases h
          exact repeat_loop_released body hbody _ _ _ _ [] _ rfl hloop

/-- After any call of the interpreter that returns no key is held. -/
theorem interpreter_released (size_bits cap : Nat) : ∀ (fuel : Nat) (st : State)
    (line : List Char) (len : Nat) (r : Int × State × List Event),
    ducky_script_interpreter size_bits cap fuel st line len = some r →
    keys_held [] r.2.2 = [] := by
  intro fuel
  induction fuel with
  | zero => intro st line len r h; cases h
  | succ fuel ih =>
    intro st line len r h
    rw [ducky_script_interpreter] at h
    by_cases h0 : cstr_count_words line len = 0
    · rw [if_pos h0] at h; cases h; rfl
    · simp only [if_neg h0] at h
      by_cases hrem : strncmp line "REM".toList (strlen "REM".toList) = 0
          ∨ strncmp line "//".toList (strlen "//".toList) = 0
      · rw [if_pos hrem] at h; cases h; rfl
      · rw [if_neg hrem] at h
        by_cases hrep : strncmp line "REPEAT".toList (strlen "REPEAT".toList) = 0
        · rw [if_pos hrep] at h
          refine repeat_directive_released _ ?_ _ _ _ _ _ _ _ h
          intro s x hx
          cases hi : ducky_script_interpreter size_bits cap fuel s s.last_command
              (strlen s.last_command % 65536) with
          | none => rw [hi] at hx; cases hx
          | some y =>
            rw [hi] at hx
            cases hx
            exact ih _ _ _ _ hi
        · rw [if_neg hrep] at h
          exact interpret_stored_released _ _ _ _ _ _ h

/-- C26: no key is left held.  For every line, declared length and state for
which the interpreter returns, with whatever return code, every `press` in
the emitted trace has a `releaseAll` behind it in that trace, and no key is
held after the trace. -/
theorem no_key_left_held (size_bits cap fuel : Nat) (st : State) (line : List Char)
    (len : Nat) (rc : Int) (st1 : State) (ev : List Event)
    (h : ducky_script_interpreter size_bits cap fuel st line len = some (rc, st1, ev)) :
    (∀ pre k post, ev = pre ++ Event.press k :: post → Event.releaseAll ∈ post)
      ∧ keys_held [] ev = [] :=
  ⟨fun pre k post hsplit =>
      release_follows_press ev pre post k []
        (interpreter_released size_bits cap fuel st line len _ h) hsplit,
    interpreter_released size_bits cap fuel st line len _ h⟩

/-- The release of C26 on `CTRL-ALT DELETE` and on the `REPEAT 2` of it. -/
theorem no_key_left_held_witness :
    ducky_script_interpreter 32 64 4 ⟨100, "CTRL-ALT DELETE".toList⟩ "REPEAT 2".toList 8
        = some (RC_OK, ⟨100, "CTRL-ALT DELETE".toList⟩,
            [Event.press MOD_CONTROL_LEFT, Event.press MOD_ALT_LEFT, Event.press KEY_DELETE,
              Event.releaseAll, Event.press MOD_CONTROL_LEFT, Event.press MOD_ALT_LEFT,
              Event.press KEY_DELETE, Event.releaseAll])
      ∧ ((∀ pre k post,
            [Event.press MOD_CONTROL_LEFT, Event.press MOD_ALT_LEFT, Event.press KEY_DELETE,
              Event.releaseAll, Event.press MOD_CONTROL_LEFT, Event.press MOD_ALT_LEFT,
              Event.press KEY_DELETE, Event.releaseAll] = pre ++ Event.press k :: post →
            Event.releaseAll ∈ post)
        ∧ keys_held []
            [Event.press MOD_CONTROL_LEFT, Event.press MOD_ALT_LEFT, Event.press KEY_DELETE,
              Event.releaseAll, Event.press MOD_CONTROL_LEFT, Event.press MOD_ALT_LEFT,
              Event.press KEY_DELETE, Event.releaseAll] = []) :=
  ⟨by decide,
    no_key_left_held 32 64 4 ⟨100, "CTRL-ALT DELETE".toList⟩ "REPEAT 2".toList 8 RC_OK
      ⟨100, "CTRL-ALT DELETE".toList⟩
      [Event.press MOD_CONTROL_LEFT, Event.press MOD_ALT_LEFT, Event.press KEY_DELETE,
        Event.releaseAll, Event.press MOD_CONTROL_LEFT, Event.press MOD_ALT_LEFT,
        Event.press KEY_DELETE, Event.releaseAll]
      (by decide)⟩

/-! ## The C string held in a buffer -/

theorem strlen_le_length (s : List Char) : strlen s ≤ s.length := by
  induction s with
  | nil => exact Nat.le_refl _
  | cons c s ih =>
    rw [strlen]
    split_ifs
    · exact Nat.zero_le _
    · simpa using ih

/-- The bytes before the first NUL are not NUL. -/
theorem take_strlen_no_nul (s : List Char) : ∀ c ∈ s.take (strlen s), c ≠ NUL := by
  induction s with
  | nil => intro c hc; simp at hc
  | cons d s ih =>
    intro c hc
    rw [strlen] at hc
    split_ifs at hc with hd
    · simp at hc
    · rw [List.take_succ_cons] at hc
      rcases List.mem_cons.mp hc with h | h
      · rw [h]; exact hd
      · exact ih c h

theorem strlen_take_strlen (s : List Char) : strlen (s.take (strlen s)) = strlen s := by
  rw [strlen_of_no_nul _ (take_strlen_no_nul s), List.length_take,
    Nat.min_eq_left (strlen_le_length s)]

theorem byteAt_strlen (s : List Char) : byteAt s (strlen s) = NUL := by
  induction s with
  | nil => rfl
  | cons c s ih =>
    rw [strlen]
    split_ifs with hc
    · simpa [byteAt] using hc
    · simpa [byteAt] using ih

theorem byteAt_take_strlen (s : List Char) : ∀ (i : Nat), i ≤ strlen s →
    byteAt (s.take (strlen s)) i = byteAt s i := by
  intro i hi
  rcases Nat.lt_or_eq_of_le hi with h | h
  · simp [byteAt, List.getD_eq_getElem?_getD, List.getElem?_take, h]
  · rw [h, byteAt_strlen]
    have := byteAt_strlen (s.take (strlen s))
    rwa [strlen_take_strlen] at this

theorem byteAt_drop (s : List Char) (k i : Nat) : byteAt (s.drop k) i = byteAt s (k + i) := by
  simp [byteAt, List.getD_eq_getElem?_getD, List.getElem?_drop]

theorem strlen_drop (s : List Char) : ∀ (k : Nat), k ≤ strlen s →
    strlen (s.drop k) = strlen s - k := by
  induction s with
  | nil => intro k _; simp [strlen]
  | cons c s ih =>
    intro k hk
    cases k with
    | zero => rfl
    | succ k =>
      rw [strlen] at hk ⊢
      split_ifs at hk ⊢ with hc
      · omega
      · rw [List.drop_succ_cons, ih k (by omega)]
        omega

/-- `strncmp` reads its first argument up to the first NUL only. -/
theorem strncmp_take_strlen (n : Nat) : ∀ (X P : List Char),
    strncmp (X.take (strlen X)) P n = strncmp X P n := by
  induction n with
  | zero => intro X P; rfl
  | succ n ih =>
    intro X P
    cases X with
    | nil => rfl
    | cons c s =>
      by_cases hc : c = NUL
      · have h0 : (c :: s).take (strlen (c :: s)) = [] := by rw [strlen, if_pos hc]; rfl
        rw [h0, strncmp, strncmp]
        have e1 : byteAt [] 0 = NUL := rfl
        have e2 : byteAt (c :: s) 0 = NUL := hc
        rw [e1, e2]
        split_ifs with h1 h2
        · rfl
        · rfl
        · exact absurd rfl h2
      · have h0 : (c :: s).take (strlen (c :: s)) = c :: s.take (strlen s) := by
          rw [strlen, if_neg hc]; rfl
        rw [h0, strncmp, strncmp]
        have e1 : byteAt (c :: s.take (strlen s)) 0 = c := rfl
        have e2 : byteAt (c :: s) 0 = c := rfl
        rw [e1, e2]
        simp only [List.drop_succ_cons, List.drop_zero]
        split_ifs
        · rfl
        · exact ih s _

theorem strstr_space_take_strlen (s : List Char) :
    strstr_space (s.take (strlen s)) = strstr_space s := by
  induction s with
  | nil => rfl
  | cons c s ih =>
    by_cases hc : c = NUL
    · rw [strlen, if_pos hc, strstr_space, if_pos hc]; rfl
    · rw [strlen, if_neg hc, List.take_succ_cons, strstr_space, strstr_space, if_neg hc,
        if_neg hc, ih]

theorem strstr_space_lt (s : List Char) : ∀ (off : Nat), strstr_space s = some off →
    off < strlen s := by
  induction s with
  | nil => intro off h; cases h
  | cons c s ih =>
    intro off h
    rw [strstr_space] at h
    by_cases hc : c = NUL
    · rw [if_pos hc] at h; cases h
    · rw [if_neg hc] at h
      rw [strlen, if_neg hc]
      by_cases hsp : c = ' '
      · rw [if_pos hsp] at h; cases h; omega
      · rw [if_neg hsp] at h
        cases hs : strstr_space s with
        | none => rw [hs] at h; cases h
        | some o =>
          rw [hs] at h
          cases h
          have := ih o hs
          show o + 1 < strlen s + 1
          omega

/-! ## The word counter and the numeric parser read the C string only -/

theorem cstr_count_words_loop_take_strlen (s : List Char) (len : Nat)
    (hlen : strlen s ≤ len) : ∀ (k fuel1 fuel2 i n : Nat), 1 ≤ i → i + k = strlen s →
      k ≤ fuel1 → k ≤ fuel2 →
      cstr_count_words_loop s len fuel1 i n
        = cstr_count_words_loop (s.take (strlen s)) (strlen s) fuel2 i n := by
  intro k
  induction k with
  | zero =>
    intro fuel1 fuel2 i n _ hi _ _
    have hz : byteAt s i = NUL := by
      rw [show i = strlen s by omega]; exact byteAt_strlen s
    have e1 : cstr_count_words_loop s len fuel1 i n = n := by
      cases fuel1 with
      | zero => rfl
      | succ f => rw [cstr_count_words_loop, hz]; simp
    have e2 : cstr_count_words_loop (s.take (strlen s)) (strlen s) fuel2 i n = n := by
      cases fuel2 with
      | zero => rfl
      | succ f => rw [cstr_count_words_loop, if_neg (by omega)]
    rw [e1, e2]
  | succ k ih =>
    intro fuel1 fuel2 i n h1 hi hf1 hf2
    obtain ⟨f1, rfl⟩ : ∃ f, fuel1 = f + 1 := ⟨fuel1 - 1, by omega⟩
    obtain ⟨f2, rfl⟩ : ∃ f, fuel2 = f + 1 := ⟨fuel2 - 1, by omega⟩
    rw [cstr_count_words_loop, cstr_count_words_loop, if_pos (show i < len by omega),
      if_pos (show i < strlen s by omega), byteAt_take_strlen s i (by omega), byteAt_take_strlen s (i - 1) (by omega),
      byteAt_take_strlen s (i + 1) (by omega)]
    have hrec := fun m => ih f1 f2 (i + 1) m (by omega) (by omega) (by omega) (by omega)
    rw [hrec n, hrec (n + 1)]

theorem cstr_count_words_take_strlen (s : List Char) (len : Nat) (hlen : strlen s ≤ len) :
    cstr_count_words (s.take (strlen s)) (strlen s) = cstr_count_words s len := by
  rw [cstr_count_words, cstr_count_words, byteAt_take_strlen s 0 (Nat.zero_le _)]
  by_cases h0 : byteAt s 0 = NUL
  · rw [if_pos h0, if_pos h0]
  · rw [if_neg h0, if_neg h0]
    have hpos : 1 ≤ strlen s := by
      by_contra hcon
      have : strlen s = 0 := by omega
      have hz := byteAt_strlen s
      rw [this] at hz
      exact h0 hz
    exact (cstr_count_words_loop_take_strlen s len hlen (strlen s - 1) len (strlen s) 1 1
      (Nat.le_refl _) (by omega) (by omega) (by omega)).symm

theorem has_non_digit_ext (A B : List Char) : ∀ (k i : Nat),
    (∀ j, i ≤ j → j < i + k → byteAt A j = byteAt B j) →
    has_non_digit A k i = has_non_digit B k i := by
  intro k
  induction k with
  | zero => intro i _; rfl
  | succ k ih =>
    intro i h
    rw [has_non_digit, has_non_digit, h i (Nat.le_refl _) (by omega),
      ih (i + 1) (fun j h1 h2 => h j (by omega) (by omega))]

theorem convert_loop_ext (size_bits : Nat) (A B : List Char) (n : Nat) : ∀ (k i acc : Nat),
    (∀ j, i ≤ j → j < i + k → byteAt A j = byteAt B j) →
    convert_loop size_bits A n k i acc = convert_loop size_bits B n k i acc := by
  intro k
  induction k with
  | zero => intro i acc _; rfl
  | succ k ih =>
    intro i acc h
    rw [convert_loop, convert_loop, h i (Nat.le_refl _) (by omega),
      ih (i + 1) _ (fun j h1 h2 => h j (by omega) (by omega))]

theorem safe_atoi_u32_ext (size_bits : Nat) (A B : List Char) (n : Nat) (b : Bool)
    (h : ∀ j, j ≤ n → byteAt A j = byteAt B j) :
    safe_atoi_u32 size_bits A n b = safe_atoi_u32 size_bits B n b := by
  rw [safe_atoi_u32, safe_atoi_u32, h n (Nat.le_refl _),
    has_non_digit_ext A B n 0 (fun j _ h2 => h j (by omega)),
    convert_loop_ext size_bits A B n n 0 0 (fun j _ h2 => h j (by omega))]

/-! ## Claims C22 and C23: what a call can change in the state -/

/-- The state `DEFAULT_DELAY` leaves: the old one, or the old one with the
parsed number as `default_delay`. -/
theorem default_delay_directive_state (size_bits argc : Nat) (p : List Char) (len : Nat)
    (st : State) :
    (default_delay_directive size_bits argc p len st).2.1
      = if argc = 0 then st
        else match second_argument p p 0 len with
          | none => st
          | some (_, a) =>
            ⟨(safe_atoi_u32 size_bits a (strlen a) true).2.getD st.default_delay,
              st.last_command⟩ := by
  rw [default_delay_directive]
  by_cases h : argc = 0
  · rw [if_pos h, if_pos h]
  · rw [if_neg h, if_neg h]
    cases second_argument p p 0 len with
    | none => rfl
    | some x =>
      obtain ⟨pos, a⟩ := x
      simp only
      split_ifs <;> rfl

/-- Running a `DEFAULT_DELAY` line a second time, from the stored copy of it
and with the length of that copy, gives the state the first run left. -/
theorem default_delay_directive_rerun (size_bits : Nat) (line : List Char) (len : Nat)
    (st : State) (hlen : strlen line ≤ len) (h16 : strlen line < 65536) :
    (default_delay_directive size_bits
        (cstr_count_words (line.take (strlen line)) (strlen line) - 1)
        (line.take (strlen line)) (strlen line)
        (default_delay_directive size_bits (cstr_count_words line len - 1) line len st).2.1).2.1
      = (default_delay_directive size_bits (cstr_count_words line len - 1) line len st).2.1 := by
  rw [cstr_count_words_take_strlen line len hlen, default_delay_directive_state,
    default_delay_directive_state]
  by_cases hargc : cstr_count_words line len - 1 = 0
  · simp only [if_pos hargc]
  · simp only [if_neg hargc, second_argument, strstr_space_take_strlen]
    cases hs : strstr_space line with
    | none => rfl
    | some off =>
      have hoff := strstr_space_lt line off hs
      simp only [Nat.zero_add, Nat.mod_eq_of_lt (show off < 65536 by omega)]
      by_cases h2 : off ≥ strlen line - 1
      · rw [if_pos h2]
      · rw [if_neg h2, if_neg (show ¬ off ≥ len - 1 by omega)]
        have hsl : strlen ((line.take (strlen line)).drop (off + 1))
            = strlen (line.drop (off + 1)) := by
          rw [strlen_drop _ _ (by rw [strlen_take_strlen]; omega), strlen_take_strlen,
            strlen_drop _ _ (by omega)]
        have hsa : safe_atoi_u32 size_bits ((line.take (strlen line)).drop (off + 1))
              (strlen ((line.take (strlen line)).drop (off + 1))) true
            = safe_atoi_u32 size_bits (line.drop (off + 1)) (strlen (line.drop (off + 1)))
                true := by
          rw [hsl]
          apply safe_atoi_u32_ext
          intro j hj
          rw [strlen_drop _ _ (by omega)] at hj
          rw [byteAt_drop, byteAt_drop, byteAt_take_strlen _ _ (by omega)]
        simp only [hsa]
        cases (safe_atoi_u32 size_bits (line.drop (off + 1)) (strlen (line.drop (off + 1)))
          true).2 <;> rfl

/-- Only the `DEFAULT_DELAY` directive changes the state behind the store. -/
theorem interpret_stored_state (size_bits argc : Nat) (ptr_cmd : List Char)
    (len : Nat) (st : State) (r : Int × State × List Event)
    (hdd : ¬ (strncmp ptr_cmd "DEFAULT_DELAY".toList (strlen "DEFAULT_DELAY".toList) = 0
      ∨ strncmp ptr_cmd "DEFAULTDELAY".toList (strlen "DEFAULTDELAY".toList) = 0))
    (h : interpret_stored size_bits argc ptr_cmd len st = some r) : r.2.1 = st := by
  revert r
  unfold interpret_stored
  have step := option_ite_pred
    (fun x : Option (Int × State × List Event) => ∀ r, x = some r → r.2.1 = st)
  refine step _ _ _ (fun hc => absurd hc hdd) (fun _ => ?_)
  refine step _ _ _ (fun _ r h => by cases h; rw [delay_directive_state]) (fun _ => ?_)
  refine step _ _ _ (fun _ r h => string_delay_directive_state _ _ _ _ _ _ h) (fun _ => ?_)
  refine step _ _ _ (fun _ r h => by cases h; rw [string_directive_state]) (fun _ => ?_)
  iterate 9
    refine step _ _ _
      (fun _ r h => by cases h; first | rfl | rw [modifier_combination_state]) (fun _ => ?_)
  exact step (ducky_key_to_hid_byte ptr_cmd = KEY_UNDEFINED_ERROR) _ _
    (fun _ r h => by cases h; rfl) (fun _ r h => by cases h; rfl)

/-- Storing a stored command again leaves it as it is. -/
theorem snprintf_s_self (cap : Nat) (lc : List Char) (hnul : ∀ c ∈ lc, c ≠ NUL)
    (hlen : lc.length ≤ cap - 1) : snprintf_s lc cap lc = lc := by
  rw [snprintf_s]
  split_ifs
  · rfl
  · rw [strlen_of_no_nul lc hnul, List.take_length, List.take_of_length_le hlen]

/-- A line of the poll loop is stored as the C string it holds. -/
theorem snprintf_s_raw (cap : Nat) (old line : List Char) (h : strlen line < cap) :
    snprintf_s old cap line = line.take (strlen line) := by
  rw [snprintf_s, if_neg (by omega), List.take_of_length_le]
  rw [List.length_take]
  omega

theorem sub_toNat_ne_zero (a b : Char) (h : a ≠ b) : ((a.toNat : Int) - (b.toNat : Int)) ≠ 0 := by
  intro h0
  apply h
  have h1 : a.toNat = b.toNat := by omega
  rw [← Char.ofNat_toNat a, ← Char.ofNat_toNat b, h1]

/-- A cut of the first argument that still matches a NUL-free name shows that
the whole argument matches it. -/
theorem strncmp_take_zero (P : List Char) : ∀ (X : List Char) (k : Nat),
    (∀ c ∈ P, c ≠ NUL) → strncmp (X.take k) P P.length = 0 → strncmp X P P.length = 0 := by
  induction P with
  | nil => intro X k _ _; rfl
  | cons p P ih =>
    intro X k hP h
    have hp : p ≠ NUL := hP p (List.mem_cons_self _ _)
    rw [List.length_cons, strncmp] at h ⊢
    have e2 : byteAt (p :: P) 0 = p := rfl
    rw [e2] at h ⊢
    by_cases h1 : byteAt (X.take k) 0 ≠ p
    · rw [if_pos h1] at h
      exact absurd h (sub_toNat_ne_zero _ _ h1)
    · rw [if_neg h1] at h
      have h1 : byteAt (X.take k) 0 = p := not_not.mp h1
      rw [if_neg (by rw [h1]; exact hp)] at h
      -- the cut is not empty, so the first byte of `X` is `p`
      cases X with
      | nil => rw [List.take_nil] at h1; exact absurd h1.symm hp
      | cons x X =>
        cases k with
        | zero => exact absurd h1.symm hp
        | succ k =>
          have hx : x = p := h1
          have e1 : byteAt (x :: X) 0 = p := hx
          rw [e1, if_neg (not_not.mpr rfl), if_neg hp]
          simp only [List.take_succ_cons, List.drop_succ_cons, List.drop_zero] at h ⊢
          exact ih X k (fun c hc => hP c (List.mem_cons_of_mem _ hc)) h

/-- A line that begins with none of `REM`, `//` and `REPEAT` is stored as a
command that can stay in `last_command`. -/
theorem snprintf_s_storedOk (cap : Nat) (old line : List Char) (hold : StoredOk cap old)
    (hrem : strncmp line "REM".toList (strlen "REM".toList) ≠ 0)
    (hsl : strncmp line "//".toList (strlen "//".toList) ≠ 0)
    (hrep : strncmp line "REPEAT".toList (strlen "REPEAT".toList) ≠ 0) :
    StoredOk cap (snprintf_s old cap line) := by
  rw [snprintf_s]
  split_ifs with hcap
  · exact hold
  · have cut : ∀ P : List Char, (∀ c ∈ P, c ≠ NUL) → strlen P = P.length →
        strncmp line P (strlen P) ≠ 0 →
        strncmp ((line.take (strlen line)).take (cap - 1)) P (strlen P) ≠ 0 := by
      intro P hP hPl hne h0
      rw [hPl] at hne h0
      have := strncmp_take_zero P _ _ hP h0
      rw [strncmp_take_strlen] at this
      exact hne this
    refine ⟨fun c hc => take_strlen_no_nul line c (List.mem_of_mem_take hc), ?_,
      cut _ (by decide) (by decide) hrem, cut _ (by decide) (by decide) hsl,
      cut _ (by decide) (by decide) hrep⟩
    rw [List.length_take]
    exact Nat.min_le_left _ _

/-- The call `REPEAT` makes on the stored command goes straight to the
directives behind the store: it is no comment and no `REPEAT`, and storing it
again changes nothing. -/
theorem interpreter_rerun (size_bits cap fuel : Nat) (st : State) (n : Nat)
    (hok : StoredOk cap st.last_command) (h0 : byteAt st.last_command 0 ≠ NUL) :
    ducky_script_interpreter size_bits cap (fuel + 1) st st.last_command n
      = interpret_stored size_bits (cstr_count_words st.last_command n - 1)
          st.last_command n st := by
  obtain ⟨hnul, hlen, hrem, hsl, hrep⟩ := hok
  rw [interpreter_after_store size_bits cap fuel st st.last_command n h0 hrem hsl hrep,
    snprintf_s_self cap st.last_command hnul hlen]

/-- A `REPEAT` loop whose body gives the state back leaves the state as it is. -/
theorem repeat_loop_state (body : State → Option (State × List Event)) (st : State)
    (hbody : ∀ x, body st = some x → x.1 = st) :
    ∀ (fuel i n : Nat) (tr : List Event) (r : State × List Event),
      repeat_loop body fuel i n st tr = some r → r.1 = st := by
  intro fuel
  induction fuel with
  | zero => intro i n tr r h; cases h
  | succ fuel ih =>
    intro i n tr r h
    rw [repeat_loop] at h
    split_ifs at h
    · cases hb : body st with
      | none => rw [hb] at h; cases h
      | some x =>
        obtain ⟨s1, ev⟩ := x
        rw [hb] at h
        have hs1 : s1 = st := hbody _ hb
        rw [hs1] at h
        exact ih _ _ _ _ h
    · cases h; rfl

/-- A `REPEAT` loop whose body keeps `last_command` keeps it. -/
theorem repeat_loop_last_command (body : State → Option (State × List Event))
    (lc : List Char) (hbody : ∀ s x, s.last_command = lc → body s = some x →
      x.1.last_command = lc) :
    ∀ (fuel i n : Nat) (st : State) (tr : List Event) (r : State × List Event),
      st.last_command = lc → repeat_loop body fuel i n st tr = some r →
      r.1.last_command = lc := by
  intro fuel
  induction fuel with
  | zero => intro i n st tr r _ h; cases h
  | succ fuel ih =>
    intro i n st tr r hst h
    rw [repeat_loop] at h
    split_ifs at h
    · cases hb : body st with
      | none => rw [hb] at h; cases h
      | some x =>
        obtain ⟨s1, ev⟩ := x
        rw [hb] at h
        exact ih _ _ _ _ _ (hbody st _ hst hb) h
    · cases h; exact hst

/-- What `REPEAT` returns when its loop leaves some part of the state alone. -/
theorem repeat_directive_keeps {α : Type} (f : State → α)
    (body : State → Option (State × List Event)) (size_bits fuel argc : Nat)
    (ptr_cmd : List Char) (len : Nat) (st : State) (r : Int × State × List Event)
    (hloop : byteAt st.last_command 0 ≠ NUL → ∀ (n : Nat) (x : State × List Event),
      repeat_loop body fuel 0 n st [] = some x → f x.1 = f st)
    (h : repeat_directive body size_bits fuel argc ptr_cmd len st = some r) :
    f r.2.1 = f st := by
  unfold repeat_directive at h
  split_ifs at h with h1 h2
  · cases h; rfl
  · cases h; rfl
  · split at h
    · cases h; rfl
    · split at h
      split_ifs at h
      · cases h; rfl
      · split at h
        · cases h
        · rename_i st1 tr hl
          cases h
          exact hloop h2 _ _ hl

/-- No call of the interpreter takes `last_command` out of what it can hold,
and a line that begins with `REPEAT` leaves it as it is. -/
theorem interpreter_storedOk (size_bits cap fuel : Nat) (st : State) (line : List Char)
    (len : Nat) (r : Int × State × List Event) (hok : StoredOk cap st.last_command)
    (h : ducky_script_interpreter size_bits cap fuel st line len = some r) :
    StoredOk cap r.2.1.last_command
      ∧ (strncmp line "REPEAT".toList (strlen "REPEAT".toList) = 0 →
          r.2.1.last_command = st.last_command) := by
  cases fuel with
  | zero => cases h
  | succ fuel =>
    rw [ducky_script_interpreter] at h
    by_cases h0 : cstr_count_words line len = 0
    · rw [if_pos h0] at h; cases h; exact ⟨hok, fun _ => rfl⟩
    · simp only [if_neg h0] at h
      by_cases hrem : strncmp line "REM".toList (strlen "REM".toList) = 0
          ∨ strncmp line "//".toList (strlen "//".toList) = 0
      · rw [if_pos hrem] at h; cases h; exact ⟨hok, fun _ => rfl⟩
      · rw [if_neg hrem] at h
        by_cases hrep : strncmp line "REPEAT".toList (strlen "REPEAT".toList) = 0
        · rw [if_pos hrep] at h
          have hkeep : r.2.1.last_command = st.last_command := by
            refine repeat_directive_keeps (fun s => s.last_command) _ _ _ _ _ _ _ _ ?_ h
            intro hne n x hx
            refine repeat_loop_last_command _ st.last_command ?_ _ _ _ _ _ _ rfl hx
            intro s y hs hy
            cases fuel with
            | zero => cases hy
            | succ fuel =>
              rw [interpreter_rerun size_bits cap fuel s _ (by rw [hs]; exact hok)
                (by rw [hs]; exact hne)] at hy
              cases hi : interpret_stored size_bits
                  (cstr_count_words s.last_command (strlen s.last_command % 65536) - 1)
                  s.last_command (strlen s.last_command % 65536) s with
              | none => rw [hi] at hy; cases hy
              | some z =>
                rw [hi] at hy
                cases hy
                rw [interpret_stored_last_command _ _ _ _ _ _ hi, hs]
          exact ⟨by rw [hkeep]; exact hok, fun _ => hkeep⟩
        · rw [if_neg hrep] at h
          rw [not_or] at hrem
          refine ⟨?_, fun hc => absurd hc hrep⟩
          rw [interpret_stored_last_command _ _ _ _ _ _ h]
          exact snprintf_s_storedOk cap _ line hok hrem.1 hrem.2 hrep

theorem storedOk_nil (cap : Nat) : StoredOk cap [] :=
  ⟨by simp, Nat.zero_le _, by decide, by decide, by decide⟩

/-- Whatever lines the interpreter is called on, `last_command` stays a C
string that fits its array and begins with none of `REM`, `//` and `REPEAT`. -/
theorem reachable_storedOk (size_bits cap : Nat) (ok : List Char → Nat → Prop) (st : State)
    (hst : Reachable size_bits cap ok st) : StoredOk cap st.last_command := by
  induction hst with
  | init => exact storedOk_nil cap
  | call st fuel line len r _ _ hcall ih =>
    exact (interpreter_storedOk size_bits cap fuel st line len r ih hcall).1

/-- In a state whose stored command can be run again without change, a
`REPEAT` gives the state back. -/
theorem repeat_directive_stable (size_bits cap fuel argc : Nat) (ptr_cmd : List Char)
    (len : Nat) (st : State) (r : Int × State × List Event)
    (hok : StoredOk cap st.last_command) (hst : RerunStable size_bits st)
    (h : repeat_directive
        (fun s =>
          (ducky_script_interpreter size_bits cap fuel s s.last_command
            (strlen s.last_command % 65536)).map fun r => r.2)
        size_bits fuel argc ptr_cmd len st = some r) : r.2.1 = st := by
  refine repeat_directive_keeps (fun s => s) _ _ _ _ _ _ _ _ ?_ h
  intro hne n x hx
  refine repeat_loop_state _ st ?_ _ _ _ _ _ hx
  intro y hy
  cases fuel with
  | zero => cases hy
  | succ fuel =>
    rw [interpreter_rerun size_bits cap fuel st _ hok hne] at hy
    cases hi : interpret_stored size_bits
        (cstr_count_words st.last_command (strlen st.last_command % 65536) - 1)
        st.last_command (strlen st.last_command % 65536) st with
    | none => rw [hi] at hy; cases hy
    | some z =>
      rw [hi] at hy
      cases hy
      exact hst z hi

/-- A state with a stored line of the poll loop that is no `DEFAULT_DELAY`
line can run it again without change. -/
theorem rerunStable_plain (size_bits : Nat) (d : Nat) (line : List Char)
    (hdd : ¬ (strncmp line "DEFAULT_DELAY".toList (strlen "DEFAULT_DELAY".toList) = 0
      ∨ strncmp line "DEFAULTDELAY".toList (strlen "DEFAULTDELAY".toList) = 0)) :
    RerunStable size_bits ⟨d, line.take (strlen line)⟩ := by
  intro r hr
  refine interpret_stored_state _ _ _ _ _ _ ?_ hr
  show ¬ (strncmp (line.take (strlen line)) _ _ = 0 ∨ strncmp (line.take (strlen line)) _ _ = 0)
  rw [strncmp_take_strlen, strncmp_take_strlen]
  exact hdd

/-- The state a `DEFAULT_DELAY` line of the poll loop leaves can run the
stored line again without change. -/
theorem rerunStable_default_delay (size_bits : Nat) (st : State) (line : List Char)
    (len : Nat) (hlen : strlen line ≤ len) (h16 : strlen line < 65536)
    (hst : st.last_command = line.take (strlen line))
    (hdd : strncmp line "DEFAULT_DELAY".toList (strlen "DEFAULT_DELAY".toList) = 0
      ∨ strncmp line "DEFAULTDELAY".toList (strlen "DEFAULTDELAY".toList) = 0) :
    RerunStable size_bits
      (default_delay_directive size_bits (cstr_count_words line len - 1) line len st).2.1 := by
  have hrun := default_delay_directive_rerun size_bits line len st hlen h16
  have hlc := default_delay_directive_last_command size_bits
    (cstr_count_words line len - 1) line len st
  revert hrun hlc
  generalize (default_delay_directive size_bits (cstr_count_words line len - 1) line len
    st).2.1 = s1
  intro hrun hlc r hr
  rw [hst] at hlc
  rw [hlc, strlen_take_strlen, Nat.mod_eq_of_lt h16, interpret_stored,
    if_pos (by rw [strncmp_take_strlen, strncmp_take_strlen]; exact hdd)] at hr
  cases hr
  exact hrun

/-- A call on a line of the poll loop keeps the state one whose stored
command can be run again without change. -/
theorem interpreter_rerunStable (size_bits cap fuel : Nat) (st : State) (line : List Char)
    (len : Nat) (r : Int × State × List Event) (h16 : cap ≤ 65536)
    (hraw : RawLine cap line len) (hok : StoredOk cap st.last_command)
    (hst : RerunStable size_bits st)
    (h : ducky_script_interpreter size_bits cap fuel st line len = some r) :
    RerunStable size_bits r.2.1 := by
  obtain ⟨hlen, hfit⟩ := hraw
  cases fuel with
  | zero => cases h
  | succ fuel =>
    rw [ducky_script_interpreter] at h
    by_cases h0 : cstr_count_words line len = 0
    · rw [if_pos h0] at h; cases h; exact hst
    · simp only [if_neg h0] at h
      by_cases hrem : strncmp line "REM".toList (strlen "REM".toList) = 0
          ∨ strncmp line "//".toList (strlen "//".toList) = 0
      · rw [if_pos hrem] at h; cases h; exact hst
      · rw [if_neg hrem] at h
        by_cases hrep : strncmp line "REPEAT".toList (strlen "REPEAT".toList) = 0
        · rw [if_pos hrep] at h
          rw [repeat_directive_stable size_bits cap fuel _ line len st r hok hst h]
          exact hst
        · rw [if_neg hrep, snprintf_s_raw cap _ line hfit] at h
          by_cases hdd : strncmp line "DEFAULT_DELAY".toList (strlen "DEFAULT_DELAY".toList) = 0
              ∨ strncmp line "DEFAULTDELAY".toList (strlen "DEFAULTDELAY".toList) = 0
          · rw [interpret_stored, if_pos hdd] at h
            cases h
            exact rerunStable_default_delay size_bits _ line len hlen (by omega) rfl hdd
          · rw [interpret_stored_state _ _ _ _ _ _ hdd h]
            exact rerunStable_plain size_bits _ line hdd

/-- The interpreter on a line that does not begin with `DEFAULT_DELAY` or
`DEFAULTDELAY` leaves `default_delay` as it is, in a state whose stored
command can be run again without change. -/
theorem interpreter_default_delay_kept (size_bits cap fuel : Nat) (st : State)
    (line : List Char) (len : Nat) (r : Int × State × List Event)
    (hok : StoredOk cap st.last_command) (hst : RerunStable size_bits st)
    (hdd : ¬ (strncmp line "DEFAULT_DELAY".toList (strlen "DEFAULT_DELAY".toList) = 0
      ∨ strncmp line "DEFAULTDELAY".toList (strlen "DEFAULTDELAY".toList) = 0))
    (h : ducky_script_interpreter size_bits cap fuel st line len = some r) :
    r.2.1.default_delay = st.default_delay := by
  cases fuel with
  | zero => cases h
  | succ fuel =>
    rw [ducky_script_interpreter] at h
    by_cases h0 : cstr_count_words line len = 0
    · rw [if_pos h0] at h; cases h; rfl
    · simp only [if_neg h0] at h
      by_cases hrem : strncmp line "REM".toList (strlen "REM".toList) = 0
          ∨ strncmp line "//".toList (strlen "//".toList) = 0
      · rw [if_pos hrem] at h; cases h; rfl
      · rw [if_neg hrem] at h
        by_cases hrep : strncmp line "REPEAT".toList (strlen "REPEAT".toList) = 0
        · rw [if_pos hrep] at h
          rw [repeat_directive_stable size_bits cap fuel _ line len st r hok hst h]
        · rw [if_neg hrep] at h
          rw [interpret_stored_state _ _ _ _ _ _ hdd h]

/-- Every state reached by calls on lines of the poll loop can run its stored
command again without change. -/
theorem reachable_rerunStable (size_bits cap : Nat) (h16 : cap ≤ 65536) (st : State)
    (hst : Reachable size_bits cap (RawLine cap) st) : RerunStable size_bits st := by
  induction hst with
  | init =>
    intro r hr
    exact interpret_stored_state _ _ _ _ _ _ (by decide) hr
  | call st fuel line len r hprev hraw hcall ih =>
    exact interpreter_rerunStable size_bits cap fuel st line len r h16 hraw
      (reachable_storedOk size_bits cap _ st hprev) ih hcall

theorem strlen_le_of_nul (s : List Char) : ∀ (n : Nat), byteAt s n = NUL → strlen s ≤ n := by
  induction s with
  | nil => intro n _; exact Nat.zero_le _
  | cons c s ih =>
    intro n h
    rw [strlen]
    split_ifs with hc
    · exact Nat.zero_le _
    · cases n with
      | zero => exact absurd h hc
      | succ n => exact Nat.succ_le_succ (ih n h)

/-- The poll loop calls the interpreter on a line that is a C string within
the buffer, with a declared length that covers it. -/
theorem loop_reachable_state (size_bits cap fuel : Nat) (d d1 : Device)
    (hsize : cap < 2 ^ size_bits) (h16 : cap ≤ 65536) (hbuf : d._rx_buffer.length = cap)
    (hoff : d._rx_buffer_received_bytes < cap - 1)
    (hst : Reachable size_bits cap (RawLine cap) d.st)
    (h : loop size_bits cap fuel d = some d1) :
    Reachable size_bits cap (RawLine cap) d1.st := by
  obtain ⟨r, hr, hrlen, hcase⟩ :=
    serial_line_received_total size_bits cap d._rx_buffer d._rx_buffer_received_bytes
      d.serial d.swserial hsize h16 hbuf hoff
  rw [loop, hr] at h
  simp only at h
  rcases hcase with ⟨hrc, hn, hz⟩ | ⟨hrc, _⟩
  · rw [if_pos hrc] at h
    cases hi : ducky_script_interpreter size_bits cap fuel d.st r.my_rx_buffer
        r.rx_buffer_received_bytes with
    | none => rw [hi] at h; simp at h
    | some x =>
      obtain ⟨rc, st1, ev⟩ := x
      rw [hi] at h
      simp only [Option.some.injEq] at h
      rw [← h]
      have hs := strlen_le_of_nul _ _ hz
      exact Reachable.call d.st fuel _ _ _ hst ⟨hs, by omega⟩ hi
  · rw [if_neg (by rw [hrc]; decide)] at h
    simp only [Option.some.injEq] at h
    rw [← h]
    exact hst

/-- C22: `default_delay` is changed only by the `DEFAULT_DELAY` directive.
Its value at program start is 100.  In every state reached from the state at
program start by calls of the interpreter on lines as the poll loop hands
them over (a C string within the buffer of `cap ≤ 65536` bytes, with a
declared length that covers it), a call on any line and declared length that
does not begin with `DEFAULT_DELAY` or `DEFAULTDELAY` and returns leaves
`default_delay` as it is; a `REPEAT` of a stored `DEFAULT_DELAY` line is such a
call.  The poll loop keeps the state among the reached ones. -/
theorem default_delay_changed_only_by_directive (size_bits cap : Nat) (h16 : cap ≤ 65536)
    (st : State) (hst : Reachable size_bits cap (RawLine cap) st) (fuel : Nat)
    (line : List Char) (len : Nat) (rc : Int) (st1 : State) (ev : List Event)
    (hline : ¬ (strncmp line "DEFAULT_DELAY".toList (strlen "DEFAULT_DELAY".toList) = 0
      ∨ strncmp line "DEFAULTDELAY".toList (strlen "DEFAULTDELAY".toList) = 0))
    (h : ducky_script_interpreter size_bits cap fuel st line len = some (rc, st1, ev)) :
    State.init.default_delay = 100 ∧ st1.default_delay = st.default_delay
      ∧ ∀ (d d1 : Device) (k : Nat), cap < 2 ^ size_bits → d._rx_buffer.length = cap →
          d._rx_buffer_received_bytes < cap - 1 → d.st = st →
          loop size_bits cap k d = some d1 → Reachable size_bits cap (RawLine cap) d1.st :=
  ⟨rfl,
    interpreter_default_delay_kept size_bits cap fuel st line len _
      (reachable_storedOk size_bits cap _ st hst)
      (reachable_rerunStable size_bits cap h16 st hst) hline h,
    fun d d1 k hsize hbuf hoff hd hloop =>
      loop_reachable_state size_bits cap k d d1 hsize h16 hbuf hoff (by rw [hd]; exact hst)
        hloop⟩

/-- The claim C22 on `REPEAT 3` in the state that `DEFAULT_DELAY 50` leaves:
the stored directive runs three times and `default_delay` stays 50. -/
theorem default_delay_changed_only_by_directive_witness :
    64 ≤ 65536
      ∧ Reachable 32 64 (RawLine 64) ⟨50, "DEFAULT_DELAY 50".toList⟩
      ∧ ¬ (strncmp "REPEAT 3".toList "DEFAULT_DELAY".toList (strlen "DEFAULT_DELAY".toList) = 0
          ∨ strncmp "REPEAT 3".toList "DEFAULTDELAY".toList (strlen "DEFAULTDELAY".toList) = 0)
      ∧ ducky_script_interpreter 32 64 5 ⟨50, "DEFAULT_DELAY 50".toList⟩ "REPEAT 3".toList 8
          = some (RC_OK, ⟨50, "DEFAULT_DELAY 50".toList⟩, [])
      ∧ (State.init.default_delay = 100
        ∧ (State.mk 50 "DEFAULT_DELAY 50".toList).default_delay
            = (State.mk 50 "DEFAULT_DELAY 50".toList).default_delay
        ∧ ∀ (d d1 : Device) (k : Nat), 64 < 2 ^ 32 → d._rx_buffer.length = 64 →
            d._rx_buffer_received_bytes < 64 - 1 → d.st = ⟨50, "DEFAULT_DELAY 50".toList⟩ →
            loop 32 64 k d = some d1 → Reachable 32 64 (RawLine 64) d1.st) :=
  have hreach : Reachable 32 64 (RawLine 64) ⟨50, "DEFAULT_DELAY 50".toList⟩ :=
    Reachable.call State.init 1 "DEFAULT_DELAY 50".toList 16
      (RC_OK, ⟨50, "DEFAULT_DELAY 50".toList⟩, []) Reachable.init
      ⟨by decide, by decide⟩ (by decide)
  ⟨by decide, hreach, by decide, by decide,
    default_delay_changed_only_by_directive 32 64 (by decide) ⟨50, "DEFAULT_DELAY 50".toList⟩
      hreach 5 "REPEAT 3".toList 8 RC_OK ⟨50, "DEFAULT_DELAY 50".toList⟩ [] (by decide)
      (by decide)⟩

/-- The declared length matters for the reached states: with the length 5
declared for the line `DEFAULT_DELAY 50` the directive sees no argument and
leaves `default_delay` at 100, yet the whole line is stored, and a `REPEAT 1`
behind it sets 50.  The poll loop declares no such length. -/
theorem repeat_after_short_declared_length :
    ducky_script_interpreter 32 64 1 State.init "DEFAULT_DELAY 50".toList 5
        = some (RC_BAD, ⟨100, "DEFAULT_DELAY 50".toList⟩, [])
      ∧ ducky_script_interpreter 32 64 3 ⟨100, "DEFAULT_DELAY 50".toList⟩ "REPEAT 1".toList 8
        = some (RC_OK, ⟨50, "DEFAULT_DELAY 50".toList⟩, []) := by
  decide

/-! ## Claim C15: what `DEFAULT_DELAY` accepts and rejects -/

/-- The body of `DEFAULT_DELAY` on an argument the parser does not accept:
`RC_BAD`, and the state is left as it is. -/
theorem default_delay_directive_rejected (size_bits argc : Nat) (ptr_cmd : List Char)
    (len : Nat) (st : State) (pos : Nat) (a : List Char) (hargc : argc ≠ 0)
    (harg : second_argument ptr_cmd ptr_cmd 0 len = some (pos, a))
    (hrc : (safe_atoi_u32 size_bits a (strlen a) true).1 ≠ RC_OK) :
    default_delay_directive size_bits argc ptr_cmd len st = (RC_BAD, st, []) := by
  have hout := safe_atoi_u32_not_ok size_bits a (strlen a) true hrc
  rw [default_delay_directive, if_neg hargc, harg]
  simp only
  rw [if_pos hrc, hout]
  rfl

/-- The parser accepts no text of more than 10 bytes and no text with a byte
that is not a digit. -/
theorem safe_atoi_u32_rejects (size_bits : Nat) (a : List Char) (hnul : ∀ d ∈ a, d ≠ NUL)
    (h : 10 < a.length ∨ ∃ d ∈ a, d < '0' ∨ d > '9') :
    (safe_atoi_u32 size_bits a (strlen a) true).1 ≠ RC_OK := by
  rw [strlen_of_no_nul a hnul]
  have hres := safe_atoi_u32_results size_bits a a.length true
  by_cases hinv : a.length = 0 ∨ a.length > 10 ∨ (true = true ∧ byteAt a a.length ≠ NUL)
  · rw [hres.1.mpr hinv]; decide
  · have hex : ∃ j, j < a.length ∧ (byteAt a j < '0' ∨ byteAt a j > '9') := by
      rcases h with h | ⟨d, hd, hdig⟩
      · exact absurd (Or.inr (Or.inl h)) hinv
      · obtain ⟨j, hj, hget⟩ := List.getElem_of_mem hd
        refine ⟨j, hj, ?_⟩
        have : byteAt a j = d := by
          simp [byteAt, List.getD_eq_getElem?_getD, List.getElem?_eq_getElem hj, hget]
        rw [this]; exact hdig
    rw [hres.2 hinv hex]; decide

/-- A `DEFAULT_DELAY` line whose argument the parser does not accept for its
length or for a byte that is not a digit: `RC_BAD`, no event, the line stored
and `default_delay` left as it is. -/
theorem interpreter_default_delay_rejected (size_bits cap fuel : Nat) (st : State)
    (S : List Char) (c : Char) (k : List Char)
    (hS : S = "DEFAULT_DELAY".toList ∨ S = "DEFAULTDELAY".toList) (hc : wordByte c)
    (hk : ∀ d ∈ k, d ≠ NUL)
    (h : 10 < (c :: k).length ∨ ∃ d ∈ c :: k, d < '0' ∨ d > '9') :
    ducky_script_interpreter size_bits cap (fuel + 1) st (S ++ ' ' :: c :: k)
        (S ++ ' ' :: c :: k).length
      = some (RC_BAD,
          State.mk st.default_delay (snprintf_s st.last_command cap (S ++ ' ' :: c :: k)),
          []) := by
  have hSw : S ≠ [] ∧ (∀ d ∈ S, wordByte d) ∧ S.length < 65536 := by
    rcases hS with rfl | rfl <;> decide
  have h2 := cstr_count_words_two S c k hSw.1 hSw.2.1 hc
  have hnul : ∀ d ∈ c :: k, d ≠ NUL := by
    intro d hd
    rcases List.mem_cons.mp hd with hd | hd
    · rw [hd]; exact hc.1
    · exact hk d hd
  rw [interpreter_default_delay_dispatch size_bits cap fuel st S _ _ hS,
    default_delay_directive_rejected size_bits _ _ _ _ (S.length + 1) (c :: k) (by omega)
      (second_argument_eq S (c :: k) (fun d hd => ⟨(hSw.2.1 d hd).1, (hSw.2.1 d hd).2.1⟩)
        hSw.2.2 (List.cons_ne_nil _ _))
      (safe_atoi_u32_rejects size_bits (c :: k) hnul h)]

/-- A `DEFAULT_DELAY` line without argument: `RC_BAD`, no event, the line
stored and `default_delay` left as it is. -/
theorem interpreter_default_delay_alone (size_bits cap fuel : Nat) (st : State)
    (S : List Char) (hS : S = "DEFAULT_DELAY".toList ∨ S = "DEFAULTDELAY".toList) :
    ducky_script_interpreter size_bits cap (fuel + 1) st S S.length
      = some (RC_BAD, State.mk st.default_delay (snprintf_s st.last_command cap S), []) := by
  have h := interpreter_default_delay_dispatch size_bits cap fuel st S [] S.length hS
  rw [List.append_nil] at h
  have hcount : cstr_count_words S S.length - 1 = 0 := by
    rcases hS with rfl | rfl <;> decide
  rw [h, hcount, default_delay_directive, if_pos rfl]

/-- The ten digits `4294967296` behind `DEFAULT_DELAY`, with a `size_t` of 32
bits: the sum has wrapped to 0 when the parser compares it with `UINT32_MAX`,
so the directive returns `RC_OK` and sets `default_delay` to 0. -/
theorem interpreter_default_delay_overflow (cap fuel : Nat) (st : State) (S : List Char)
    (hS : S = "DEFAULT_DELAY".toList ∨ S = "DEFAULTDELAY".toList) :
    ducky_script_interpreter 32 cap (fuel + 1) st (S ++ " 4294967296".toList)
        (S ++ " 4294967296".toList).length
      = some (RC_OK,
          State.mk 0 (snprintf_s st.last_command cap (S ++ " 4294967296".toList)), []) := by
  have hSw : S ≠ [] ∧ (∀ d ∈ S, wordByte d) ∧ S.length < 65536 := by
    rcases hS with rfl | rfl <;> decide
  have hline : S ++ " 4294967296".toList = S ++ ' ' :: '4' :: "294967296".toList := rfl
  have h2 := cstr_count_words_two S '4' "294967296".toList hSw.1 hSw.2.1 (by decide)
  have hatoi : safe_atoi_u32 32 ('4' :: "294967296".toList)
      (strlen ('4' :: "294967296".toList)) true = (RC_OK, some 0) := by decide
  rw [hline, interpreter_default_delay_dispatch 32 cap fuel st S _ _ hS,
    default_delay_directive, if_neg (by omega),
    second_argument_eq S ('4' :: "294967296".toList)
      (fun d hd => ⟨(hSw.2.1 d hd).1, (hSw.2.1 d hd).2.1⟩) hSw.2.2 (List.cons_ne_nil _ _)]
  simp only [hatoi]
  rw [if_neg (by simp), Option.getD_some]

/-- C15, at the failing input: `DEFAULT_DELAY` takes the parser's answer, and
the parser accepts ten-digit numbers above 4294967295 (the defect of C5).
With a `size_t` of 32 bits the line `DEFAULT_DELAY 4294967296`, in either
spelling, returns `RC_OK` and sets `default_delay` to 0, where the claim has
`RC_BAD` and the old value.  The rest of the claim holds: for every
`n` in [0, 4294967295] (with a `size_t` of at least 32 bits) the line
`<directive> <n>` returns `RC_OK`, emits nothing and sets `default_delay` to
`n`; a line without argument, and a line whose argument has more than 10 bytes
or a byte that is not a digit, returns `RC_BAD`, emits nothing and leaves
`default_delay` as it is. -/
theorem default_delay_overflow_accepted (cap fuel : Nat) (st : State) :
    ducky_script_interpreter 32 cap (fuel + 1) st "DEFAULT_DELAY 4294967296".toList 24
        = some (RC_OK,
            State.mk 0 (snprintf_s st.last_command cap "DEFAULT_DELAY 4294967296".toList), [])
      ∧ ducky_script_interpreter 32 cap (fuel + 1) st "DEFAULTDELAY 4294967296".toList 23
        = some (RC_OK,
            State.mk 0 (snprintf_s st.last_command cap "DEFAULTDELAY 4294967296".toList), [])
      ∧ (∀ (size_bits n : Nat) (S : List Char),
          S = "DEFAULT_DELAY".toList ∨ S = "DEFAULTDELAY".toList → 32 ≤ size_bits →
          n ≤ 4294967295 →
          ducky_script_interpreter size_bits cap (fuel + 1) st (S ++ ' ' :: Nat.toDigits 10 n)
              (S ++ ' ' :: Nat.toDigits 10 n).length
            = some (RC_OK,
                State.mk n (snprintf_s st.last_command cap (S ++ ' ' :: Nat.toDigits 10 n)),
                []))
      ∧ (∀ (size_bits : Nat) (S : List Char),
          S = "DEFAULT_DELAY".toList ∨ S = "DEFAULTDELAY".toList →
          ducky_script_interpreter size_bits cap (fuel + 1) st S S.length
            = some (RC_BAD, State.mk st.default_delay (snprintf_s st.last_command cap S), []))
      ∧ (∀ (size_bits : Nat) (S : List Char) (c : Char) (k : List Char),
          S = "DEFAULT_DELAY".toList ∨ S = "DEFAULTDELAY".toList → wordByte c →
          (∀ d ∈ k, d ≠ NUL) →
          (10 < (c :: k).length ∨ ∃ d ∈ c :: k, d < '0' ∨ d > '9') →
          ducky_script_interpreter size_bits cap (fuel + 1) st (S ++ ' ' :: c :: k)
              (S ++ ' ' :: c :: k).length
            = some (RC_BAD,
                State.mk st.default_delay
                  (snprintf_s st.last_command cap (S ++ ' ' :: c :: k)), [])) :=
  ⟨interpreter_default_delay_overflow cap fuel st _ (Or.inl rfl),
    interpreter_default_delay_overflow cap fuel st _ (Or.inr rfl),
    fun size_bits n S hS hbits hn => interpreter_default_delay size_bits cap fuel n st S hS hbits hn,
    fun size_bits S hS => interpreter_default_delay_alone size_bits cap fuel st S hS,
    fun size_bits S c k hS hc hk h =>
      interpreter_default_delay_rejected size_bits cap fuel st S c k hS hc hk h⟩

/-! ## Claim C23: the store in the call `REPEAT` makes -/

end Ducky
